import Mathlib

/-!
Shallow embedding of the cdb32-rs library core (src/src/reader.rs,
src/src/writer.rs, src/src/uint32.rs) in Lean 4, together with proofs of
the specification claims.

Machine integers are modelled as `Nat` with explicit `% U32` wherever the
Rust u32 arithmetic can wrap (release semantics: overflow wraps; a panic in
the model only arises from an out-of-bounds slice of the mapped file, which
is modelled explicitly).  Files are byte functions `Nat → Nat` with an
explicit size; the writer produces a concrete byte list.
-/

namespace Cdb

def U32 : Nat := 4294967296

/-- Little-endian encoding of a 32-bit value into four bytes, as done by
`uint32::pack` (src/uint32.rs) via `u32::to_le_bytes`. -/
def pack (v : Nat) : List Nat :=
  [v % 256, v / 256 % 256, v / 65536 % 256, v / 16777216 % 256]

/-- `uint32::pack2`: two packed values side by side in an 8-byte buffer. -/
def pack2 (a b : Nat) : List Nat := pack a ++ pack b

/-- `u32::from_le_bytes` on four bytes read at offset `p` of the mapped
file `f` (`uint32::unpack` of src/uint32.rs applied to a file slice). -/
def unpackAt (f : Nat → Nat) (p : Nat) : Nat :=
  f p + 256 * f (p + 1) + 65536 * f (p + 2) + 16777216 * f (p + 3)

/-- `uint32::unpack` on a byte list (a buffer filled by `CDB::read`). -/
def unpackList (bs : List Nat) : Nat :=
  bs.getD 0 0 + 256 * bs.getD 1 0 + 65536 * bs.getD 2 0 + 16777216 * bs.getD 3 0

/-- Modelled from the spec: src/src/lib.rs declares `mod hash` and both the
reader and the writer call `crate::hash::hash`, but hash.rs itself is not
under src/.  The spec (section 4.2) fixes the function: `h ← 5381`, then for
each key byte `b`, `h ← ((h << 5) + h) XOR b`, all in wrapping u32
arithmetic, i.e. `h ← (h * 33 mod 2^32) XOR b`. -/
def hash (key : List Nat) : Nat :=
  key.foldl (fun h b => (h * 33 % U32) ^^^ b) 5381

/-! ## Reader (src/src/reader.rs) -/

/-- The reader: the memory-mapped file as a byte function plus its size
(`struct CDB` of src/reader.rs). -/
structure CDB where
  file : Nat → Nat
  size : Nat

/-- The size check of `CDB::open` (src/reader.rs:56): the mapped length must
be at least 2048 and at most 0xffffffff, otherwise `BadFile`. -/
def openOk (c : CDB) : Prop := 2048 ≤ c.size ∧ c.size ≤ 4294967295

instance (c : CDB) : Decidable (openOk c) := by unfold openOk; infer_instance

/-- `CDB::read` (src/reader.rs:63): copy `n` bytes at offset `pos` into a
buffer, failing with `BadFile` when `pos + n` exceeds the file size.  The
offset additions are done in `usize`, which does not wrap for u32 inputs. -/
def CDB.read (c : CDB) (pos n : Nat) : Except Unit (List Nat) :=
  if pos + n > c.size then .error ()
  else .ok ((List.range n).map fun i => c.file (pos + i))

/-- `CDB::hash_table` (src/reader.rs:73): read the header entry of the
bucket selected by the low hash byte, then compute the wrapped initial
probe position `hpos.wrapping_add(((khash >> 8) % hslots) << 3)` (zero when
the bucket has no slots). -/
def CDB.hash_table (c : CDB) (khash : Nat) : Nat × Nat × Nat :=
  let x := khash % 256 * 8
  let hpos := unpackAt c.file x
  let hslots := unpackAt c.file (x + 4)
  let kpos := if 0 < hslots then (hpos + khash / 256 % hslots * 8 % U32) % U32 else 0
  (hpos, hslots, kpos)

/-- The loop of `CDB::match_key` (src/reader.rs:84), comparing the key with
the file bytes at `pos` in chunks of at most 32 bytes; the fuel argument is
the remaining length, which bounds the number of chunks. -/
def matchKeyAux (c : CDB) (key : List Nat) : Nat → Nat → Nat → Nat → Except Unit Bool
  | 0, _, _, _ => .ok true
  | fuel + 1, pos, keypos, len =>
    if len = 0 then .ok true
    else
      let n := min len 32
      match c.read pos n with
      | .error e => .error e
      | .ok buf =>
        if buf ≠ (key.drop keypos).take n then .ok false
        else matchKeyAux c key fuel ((pos + n) % U32) (keypos + n) (len - n)

/-- `CDB::match_key` (src/reader.rs:84): bounded chunked comparison of
`key` against the file bytes starting at `pos`. -/
def CDB.match_key (c : CDB) (key : List Nat) (pos : Nat) : Except Unit Bool :=
  matchKeyAux c key key.length pos 0 key.length

/-- State of the `find` iterator `CDBValueIter` (src/reader.rs:170).  The
transient `dpos`/`dlen` fields are used by the source only inside a single
`next` call, so they are not part of the model state. -/
structure VState where
  key : List Nat
  khash : Nat
  kloop : Nat
  kpos : Nat
  hpos : Nat
  hslots : Nat
deriving DecidableEq

/-- Outcome of one `next()` call on a `find` iterator. `done` is Rust's
`None`, `errored` is `Some(Err(BadFile))`, `yield` is `Some(Ok(value))`.
`panicked` marks an out-of-bounds slice; the `find` iterator never produces
it (all its file accesses go through the checked `CDB::read`). -/
inductive VStep where
  | panicked
  | done
  | errored
  | yield (v : List Nat)
deriving DecidableEq

/-- Lines 240-244 of src/reader.rs: `self.kloop += 1; self.kpos += 8;`
(u32 wrapping add) and then wrap `kpos` back to `hpos` when it equals
`hpos + (hslots << 3)` (whose checked_add the caller has already tested). -/
def bump (s : VState) : VState :=
  let s1 : VState := { s with kloop := s.kloop + 1, kpos := (s.kpos + 8) % U32 }
  if s1.kpos = s.hpos + s.hslots * 8 % U32 then { s1 with kpos := s.hpos } else s1

/-- The `while self.kloop < self.hslots` loop of
`<CDBValueIter as Iterator>::next` (src/reader.rs:231).  Each iteration
increments `kloop`, so `hslots - kloop` iterations of fuel are exact. -/
def vNextAux (c : CDB) : Nat → VState → VStep × VState
  | 0, s => (.done, s)
  | fuel + 1, s =>
    if s.kloop < s.hslots then
      match c.read s.kpos 8 with
      | .error _ => (.errored, s)
      | .ok buf =>
        let khash := unpackList buf
        let pos := unpackList (buf.drop 4)
        if pos = 0 then (.done, s)
        else
          -- kloop += 1; kpos += 8 (u32 wrapping add)
          let s1 : VState := { s with kloop := s.kloop + 1, kpos := (s.kpos + 8) % U32 }
          -- hslots << 3 wraps; hpos.checked_add of it fails => BadFile
          if U32 ≤ s.hpos + s.hslots * 8 % U32 then (.errored, s1)
          else
            let s2 := bump s
            if khash = s.khash then
              match c.read pos 8 with
              | .error _ => (.errored, s2)
              | .ok buf2 =>
                let klen := unpackList buf2
                let dlen := unpackList (buf2.drop 4)
                if klen = s.key.length then
                  match c.match_key s.key ((pos + 8) % U32) with
                  | .error _ => (.errored, s2)
                  | .ok true =>
                    let dpos := ((pos + 8) % U32 + s.key.length % U32) % U32
                    match c.read dpos dlen with
                    | .error _ => (.errored, s2)
                    | .ok v => (.yield v, s2)
                  | .ok false => vNextAux c fuel s2
                else vNextAux c fuel s2
            else vNextAux c fuel s2
    else (.done, s)

/-- One `next()` call on the `find` iterator. -/
def vNext (c : CDB) (s : VState) : VStep × VState :=
  vNextAux c (s.hslots - s.kloop) s

/-- `CDBValueIter::find` (src/reader.rs:183): the initial iterator state. -/
def findInit (c : CDB) (key : List Nat) : VState :=
  let khash := hash key
  let t := c.hash_table khash
  { key := key, khash := khash, kloop := 0, kpos := t.2.2, hpos := t.1, hslots := t.2.1 }

/-- `CDB::get` (src/reader.rs:118): the first element of `find`. -/
def CDB.get (c : CDB) (key : List Nat) : VStep :=
  (vNext c (findInit c key)).1

/-- State of the sequential iterator `CDBKeyValueIter` (src/reader.rs:265). -/
structure KVState where
  pos : Nat
  data_end : Nat
deriving DecidableEq

/-- Outcome of one `next()` call on the sequential iterator.  `panicked`
marks a panic: an out-of-bounds direct slice of the mapped file (the
source slices `self.cdb.file[..]` without a bounds check here). -/
inductive KVStep where
  | panicked
  | done
  | errored
  | yield (k v : List Nat)
deriving DecidableEq

/-- `CDBKeyValueIter::start` (src/reader.rs:272):
`data_end = unpack(file[0..4]).min(size)`, position 2048. -/
def kvInit (c : CDB) : KVState :=
  { pos := 2048, data_end := min (unpackAt c.file 0) c.size }

/-- `<CDBKeyValueIter as Iterator>::next` (src/reader.rs:284).  The guard
`self.pos + 8 >= self.data_end` uses wrapping u32 addition; the subsequent
slice `file[pos as usize..pos as usize + 8]` uses usize addition and panics
when it passes the end of the map, as do the key and value copies.  The
total length is computed with saturating adds and checked against
`data_end` before the copies. -/
def kvNext (c : CDB) (s : KVState) : KVStep × KVState :=
  if (s.pos + 8) % U32 ≥ s.data_end then (.done, s)
  else if c.size < s.pos + 8 then (.panicked, s)
  else
    let klen := unpackAt c.file s.pos
    let dlen := unpackAt c.file (s.pos + 4)
    let total := min (min (min (s.pos + 8) (U32 - 1) + klen) (U32 - 1) + dlen) (U32 - 1)
    if s.data_end < total then (.errored, s)
    else
      let kpos := (s.pos + 8) % U32
      let dpos := kpos + klen
      if c.size < kpos + klen then (.panicked, s)
      else if c.size < dpos + dlen then (.panicked, s)
      else
        let key := (List.range klen).map fun i => c.file (kpos + i)
        let v := (List.range dlen).map fun i => c.file (dpos + i)
        (.yield key v, { s with pos := (s.pos + 8 + klen + dlen) % U32 })

/-- Run `n` calls of `next()` on the sequential iterator, listing the
outcomes. -/
def collectKV (c : CDB) : KVState → Nat → List KVStep
  | _, 0 => []
  | s, n + 1 =>
    let r := kvNext c s
    r.1 :: collectKV c r.2 n

/-- Run `n` calls of `next()` on a `find` iterator, listing the outcomes. -/
def collectFind (c : CDB) : VState → Nat → List VStep
  | _, 0 => []
  | s, n + 1 =>
    let r := vNext c s
    r.1 :: collectFind c r.2 n

/-! ## Writer (src/src/writer.rs) -/

/-- `struct HashPos` (src/writer.rs:13). -/
structure HashPos where
  hash : Nat
  pos : Nat
deriving DecidableEq

/-- Writer error kinds.  `tooBig` is the `TooBig` error of the source;
`divByZero` models the Rust panic of `% 0`; `probeStuck` is the model's
fuel bound on the source's unbounded probe loop (proved unreachable for
tables the writer builds). -/
inductive WErr where
  | tooBig
  | divByZero
  | probeStuck
deriving DecidableEq

/-- `struct CDBMake` (src/writer.rs:46): 256 hash buckets, the running u32
position, and the stream contents.  `data` holds the bytes written after
the 2048-byte header placeholder laid down by `CDBMake::new`. -/
structure CDBMake where
  entries : Nat → List HashPos
  pos : Nat
  data : List Nat

/-- `CDBMake::new` (src/writer.rs:54): zero header placeholder written,
256 empty buckets, position 2048. -/
def makeNew : CDBMake :=
  { entries := fun _ => [], pos := 2048, data := [] }

/-- `CDBMake::pos_plus` (src/writer.rs:66): advance the running position by
`len`, failing with `TooBig` when the wrapping u32 sum `self.pos + len`
falls below `len`, which for in-range positions detects exactly the u32
overflow.  In the success case the wrapped sum equals the plain sum. -/
def pos_plus (pos len : Nat) : Except WErr Nat :=
  if (pos + len) % U32 < len then .error .tooBig
  else .ok (pos + len)

/-- `CDBMake::add_end` (src/writer.rs:75): push the entry on bucket
`hash & 0xff` (recording the current position), then advance the position
by 8, the key length and the data length (the `?` operator propagates each
`TooBig`). -/
def add_end (m : CDBMake) (keylen datalen h : Nat) : Except WErr CDBMake :=
  match pos_plus m.pos 8 with
  | .error e => .error e
  | .ok p1 =>
    match pos_plus p1 keylen with
    | .error e => .error e
    | .ok p2 =>
      match pos_plus p2 datalen with
      | .error e => .error e
      | .ok p3 =>
        .ok { entries := Function.update m.entries (h % 256)
                (m.entries (h % 256) ++ [⟨h, m.pos⟩]),
              pos := p3, data := m.data }

/-- `CDBMake::add_begin` (src/writer.rs:86): write the packed
`(klen, vlen)` record header to the stream. -/
def add_begin (m : CDBMake) (keylen datalen : Nat) : CDBMake :=
  { m with data := m.data ++ pack2 keylen datalen }

/-- `CDBMake::add` (src/writer.rs:94): reject keys or values of length at
least `2^32 - 1`, write the record header, key and value, then update the
bucket and position. -/
def CDBMake.add (m : CDBMake) (key dat : List Nat) : Except WErr CDBMake :=
  if key.length ≥ U32 - 1 ∨ dat.length ≥ U32 - 1 then .error .tooBig
  else
    let m1 := add_begin m key.length dat.length
    let m2 : CDBMake := { m1 with data := m1.data ++ key ++ dat }
    add_end m2 key.length dat.length (hash key)

/-- Build a maker from a record sequence by `CDBMake::new` followed by one
`add` per record, in order. -/
def buildAll (R : List (List Nat × List Nat)) : Except WErr CDBMake :=
  R.foldlM (fun m r => m.add r.1 r.2) makeNew

/-- The probe loop of `CDBMake::finish` (src/writer.rs:129):
`while table[wh].pos != 0 { wh += 1; if wh == len { wh = 0; } }`.  Fuel
bounds the number of probes; `none` means the fuel ran out. -/
def probeIdx (table : List HashPos) (len : Nat) : Nat → Nat → Option Nat
  | _, 0 => none
  | wh, fuel + 1 =>
    if (table.getD wh ⟨0, 0⟩).pos ≠ 0 then
      let wh1 := wh + 1
      probeIdx table len (if wh1 = len then 0 else wh1) fuel
    else some wh

/-- One placement from `CDBMake::finish` (src/writer.rs:127): start at
`(e.hash >> 8) % len` and probe linearly with wraparound for a slot with
`pos == 0`, storing the entry there.  A zero `len` makes the source's `%`
a remainder-by-zero panic, modelled as `divByZero`. -/
def place (len : Nat) (table : List HashPos) (e : HashPos) : Except WErr (List HashPos) :=
  if len = 0 then .error .divByZero
  else
    match probeIdx table len (e.hash / 256 % len) len with
    | none => .error .probeStuck
    | some wh => .ok (table.set wh e)

/-- The inner `for e in self.entries[i].iter()` loop of `finish`
(src/writer.rs:127). -/
def placeAll (bucket : List HashPos) (len : Nat) (table : List HashPos) :
    Except WErr (List HashPos) :=
  bucket.foldlM (fun t e => place len t e) table

/-- Write `v` over `buf` starting at offset `j` (the `uint32::pack2` calls
into the header array and the slot buffer). -/
def writeAt (buf : List Nat) (j : Nat) (v : List Nat) : List Nat :=
  buf.take j ++ v ++ buf.drop (j + v.length)

/-- State threaded through the finalization loop of `finish`: the scratch
slot table, the in-memory header, the running position and the emitted
subtable bytes. -/
structure FinSt where
  table : List HashPos
  header : List Nat
  pos : Nat
  out : List Nat

/-- One iteration of the `for hp in table.iter_mut().take(len)` loop of
`finish` (src/writer.rs:138): pack the slot, write it out, advance the
position by 8, and zero the slot for reuse. -/
def emitSlot (st : FinSt) (j : Nat) : Except WErr FinSt :=
  let e := st.table.getD j ⟨0, 0⟩
  match pos_plus st.pos 8 with
  | .error er => .error er
  | .ok p =>
    .ok { st with out := st.out ++ pack2 e.hash e.pos, pos := p, table := st.table.set j ⟨0, 0⟩ }

/-- The body of the `for i in 0..256` loop of `finish` (src/writer.rs:122):
record the header entry `(pos, len)` for bucket `i`, place the bucket's
entries into the scratch table, then emit and re-zero the first `len`
slots. -/
def finishStep (m : CDBMake) (st : FinSt) (i : Nat) : Except WErr FinSt :=
  let bucket := m.entries i
  let len := bucket.length * 2
  let st1 : FinSt := { st with header := writeAt st.header (i * 8) (pack2 st.pos len) }
  match placeAll bucket len st1.table with
  | .error e => .error e
  | .ok t => (List.range len).foldlM emitSlot { st1 with table := t }

/-- `CDBMake::finish` (src/writer.rs:110): check the subtable size bound,
run the 256 bucket steps over a zeroed scratch table of `maxsize` slots,
then produce the final file: the rewritten header, the data region, and
the emitted subtables. -/
def CDBMake.finish (m : CDBMake) : Except WErr (List Nat) :=
  let maxsize := (List.range 256).foldl (fun acc i => max acc ((m.entries i).length * 2)) 1
  let count := (List.range 256).foldl (fun acc i => acc + (m.entries i).length) 0
  if maxsize + count > (U32 - 1) / 8 then .error .tooBig
  else
    let st0 : FinSt :=
      { table := List.replicate maxsize ⟨0, 0⟩, header := List.replicate 2048 0,
        pos := m.pos, out := [] }
    match (List.range 256).foldlM (finishStep m) st0 with
    | .error e => .error e
    | .ok st => .ok (st.header ++ m.data ++ st.out)

/-- View a concrete byte list as an opened reader (the mmap of the file). -/
def fileOf (F : List Nat) : CDB :=
  { file := fun i => F.getD i 0, size := F.length }

/-! ## Specification-level helpers used to state the claims -/

/-- All elements are bytes. -/
def IsBytes (l : List Nat) : Prop := ∀ b ∈ l, b < 256

/-- The encoded record `(klen, vlen, key, value)` (spec section 3). -/
def encRec (r : List Nat × List Nat) : List Nat :=
  pack2 r.1.length r.2.length ++ r.1 ++ r.2

/-- On-disk size of one record. -/
def recSize (r : List Nat × List Nat) : Nat := 8 + r.1.length + r.2.length

/-- The data region: the concatenation of the encoded records in order. -/
def encRecs (R : List (List Nat × List Nat)) : List Nat :=
  R.foldr (fun r acc => encRec r ++ acc) []

/-- The values inserted under key `k`, in insertion order. -/
def valuesOf (R : List (List Nat × List Nat)) (k : List Nat) : List (List Nat) :=
  (R.filter fun r => r.1 = k).map (·.2)

/-- A contiguous byte slice of a file list. -/
def slice (F : List Nat) (p n : Nat) : List Nat := (F.drop p).take n

/-! ## Temp-path derivation (`CDBWriter::with_suffix`, src/writer.rs:193)

Paths are modelled as plain file names (lists of characters, no directory
separators, not `.` or `..`), over which Rust's `Path::extension` and
`PathBuf::set_extension` split the name at the last dot, except that a
leading dot does not start an extension. -/

/-- Index of the last '.' of a name, if any. -/
def lastDot : List Char → Option Nat
  | [] => none
  | c :: cs =>
    match lastDot cs with
    | some i => some (i + 1)
    | none => if c = '.' then some 0 else none

/-- Rust `Path::extension` on a plain file name: the part after the last
dot, unless that dot is the leading character (hidden-file rule) or there
is none. -/
def extension (cs : List Char) : Option (List Char) :=
  match lastDot cs with
  | none => none
  | some 0 => none
  | some i => some (cs.drop (i + 1))

/-- Rust `Path::file_stem` on a plain file name. -/
def file_stem (cs : List Char) : List Char :=
  match lastDot cs with
  | none => cs
  | some 0 => cs
  | some i => cs.take i

/-- Rust `PathBuf::set_extension` on a plain file name: truncate to the
stem, then push a dot and the new extension (when nonempty). -/
def set_extension (cs ext : List Char) : List Char :=
  if ext = [] then file_stem cs else file_stem cs ++ '.' :: ext

/-- `CDBWriter::with_suffix` (src/writer.rs:193): the temp name is the
destination with the suffix appended to its extension; with no extension,
the suffix itself becomes the extension. -/
def with_suffix (name suffix : List Char) : List Char :=
  set_extension name
    (match extension name with
     | some e => e ++ suffix
     | none => suffix)

/-! ## Atomic-publish filesystem model (`CDBWriter`, src/writer.rs:177-256) -/

/-- The two filesystem locations the writer touches: contents of the
destination path and of the temp path (`none` = file absent). -/
structure FS where
  dst : Option (List Nat)
  tmp : Option (List Nat)
deriving DecidableEq

/-- `struct CDBWriter` (src/writer.rs:178): the internal maker is `Some`
until `finish` takes it out. -/
structure CDBWriterSt where
  cdb : Option CDBMake

/-- `CDBWriter::with_filenames` (src/writer.rs:212): `File::create`
creates or truncates the temp file and a fresh maker is built on it; the
destination is untouched.  Buffered maker bytes live in the maker, so the
temp content is materialized only at `finish`. -/
def writerCreate (fs : FS) : FS × CDBWriterSt :=
  ({ fs with tmp := some [] }, { cdb := some makeNew })

/-- `CDBWriter::finish` (src/writer.rs:242): `self.cdb.take().unwrap().finish()?`
followed by `fs::rename(tmp, dst)`.  The maker is taken out *before* its
`finish` runs, so on error the writer is left with `cdb == None` and the
filesystem untouched; on success the finished bytes land in the temp file
which is renamed over the destination. -/
def writerFinish (m : CDBMake) (fs : FS) : Except WErr Unit × CDBWriterSt × FS :=
  match m.finish with
  | .error e => (.error e, { cdb := none }, fs)
  | .ok bytes => (.ok (), { cdb := none }, { dst := some bytes, tmp := none })

/-- `Drop for CDBWriter` (src/writer.rs:249): remove the temp file only
when the maker is still present. -/
def writerDrop (w : CDBWriterSt) (fs : FS) : FS :=
  match w.cdb with
  | some _ => { fs with tmp := none }
  | none => fs

/-- A maker whose `finish` fails: its running position is so close to the
u32 limit that writing the first subtable slot overflows (`pos_plus 8`
inside the emit loop returns `TooBig`).  Such a position is reachable by
adding close to 4 GiB of records. -/
def finishFailMaker : CDBMake :=
  { entries := fun i => if i = 0 then [⟨0, 2048⟩] else [],
    pos := U32 - 4, data := [] }

/-- A corrupt 2064-byte file: `data_end` is 2064 but the record at 2048
claims a key of 2^32 - 1 bytes, so the sequential iterator errors without
advancing, and keeps erroring. -/
def repeatErrFile : CDB :=
  { file := fun i =>
      if i < 4 then (pack 2064).getD i 0
      else if 2048 ≤ i ∧ i < 2052 then 255 else 0,
    size := 2064 }

/-- A corrupt file of size 2^32 - 8: `data_end` is the whole file and the
record at 2048 claims a key of 4294965232 bytes, ending exactly at the file
end, so after yielding it the iterator's wrapping `pos + 8` guard passes
and the 8-byte header slice runs past the map. -/
def panicFile : CDB :=
  { file := fun i =>
      if i < 4 then 255
      else if i = 2048 then 240
      else if i = 2049 then 247
      else if i = 2050 then 255
      else if i = 2051 then 255
      else 0,
    size := 4294967288 }

/-- The reachable-state invariant of the sequential iterator: `data_end`
never exceeds the file size, and the position is 2048 or bounded by
`data_end`. -/
def KVInv (c : CDB) (s : KVState) : Prop :=
  s.data_end ≤ c.size ∧ (s.pos = 2048 ∨ s.pos ≤ s.data_end)

/-- An all-zero file of the minimum legal size. -/
def zeroFile : CDB := { file := fun _ => 0, size := 2048 }

/-- A header whose every bucket entry is `(0, 2)`, for instantiating the
probe lemmas at a concrete input. -/
def probeFile : CDB := { file := fun i => if i % 8 = 4 then 2 else 0, size := 2048 }

/-- A concrete finalization state, used to instantiate theorems. -/
def finSt0 : FinSt :=
  { table := [], header := List.replicate 2048 0, pos := 2048, out := [] }

/-! ## Specification-level views of the writer state and output -/

/-- Fold `add` over a record list starting from an arbitrary maker. -/
def buildFrom (m : CDBMake) (R : List (List Nat × List Nat)) : Except WErr CDBMake :=
  R.foldlM (fun m r => m.add r.1 r.2) m

/-- The hash/position entries of a record list laid out from position `p`,
each annotated with its record. -/
def annRecs : List (List Nat × List Nat) → Nat → List (HashPos × (List Nat × List Nat))
  | [], _ => []
  | r :: R, p => (⟨hash r.1, p⟩, r) :: annRecs R (p + recSize r)

/-- The annotated contents of bucket `b` for a record list laid out from
position 2048. -/
def bucketPairs (R : List (List Nat × List Nat)) (b : Nat) :
    List (HashPos × (List Nat × List Nat)) :=
  (annRecs R 2048).filter fun a => a.1.hash % 256 = b

/-- Slot count of subtable `b` (`len` in `finish`). -/
def lens (m : CDBMake) (b : Nat) : Nat := (m.entries b).length * 2

/-- File offset at which subtable `b` starts (the writer's running
position when it reaches bucket `b` in `finish`). -/
def subPos (m : CDBMake) (b : Nat) : Nat :=
  m.pos + 8 * ((List.range b).map (lens m)).sum

/-- The `maxsize` computed by `finish`. -/
def maxsizeOf (m : CDBMake) : Nat :=
  (List.range 256).foldl (fun acc i => max acc ((m.entries i).length * 2)) 1

/-- The `count` computed by `finish`. -/
def countOf (m : CDBMake) : Nat :=
  (List.range 256).foldl (fun acc i => acc + (m.entries i).length) 0

/-- An all-empty scratch table of `n` slots. -/
def zeroTable (n : Nat) : List HashPos := List.replicate n ⟨0, 0⟩

/-- The packed bytes of a slot list. -/
def slotBytes (T : List HashPos) : List Nat :=
  T.foldr (fun e acc => pack2 e.hash e.pos ++ acc) []

/-- The scratch table after bucket `b` has been placed into a fresh table
of `ms` slots (what `finish` emits for bucket `b`). -/
def tableFor (m : CDBMake) (ms b : Nat) : List HashPos :=
  match placeAll (m.entries b) (lens m b) (zeroTable ms) with
  | .ok T => T
  | .error _ => []

/-- The header bytes after the first `b` bucket iterations of `finish`. -/
def headerAcc (m : CDBMake) : Nat → List Nat
  | 0 => List.replicate 2048 0
  | b + 1 => writeAt (headerAcc m b) (b * 8) (pack2 (subPos m b) (lens m b))

/-- The subtable bytes emitted by the first `b` bucket iterations of
`finish`. -/
def outAcc (m : CDBMake) (ms : Nat) : Nat → List Nat
  | 0 => []
  | b + 1 => outAcc m ms b ++ slotBytes ((tableFor m ms b).take (lens m b))

/-- The bytes of the file `finish` produces for a fresh maker: the empty
database. -/
def emptyDb : List Nat :=
  match makeNew.finish with
  | .ok F => F
  | .error _ => []

/-- A one-record input for exercising the sequential round trip. -/
def c1R : List (List Nat × List Nat) := [([1], [2])]

/-- The maker state after adding the records of `c1R`. -/
def c1Maker : CDBMake :=
  match buildAll c1R with
  | .ok m => m
  | .error _ => makeNew

/-- The file built from `c1R`. -/
def c1File : List Nat :=
  match c1Maker.finish with
  | .ok F => F
  | .error _ => []

/-- A single record whose key and value are both empty. -/
def c1BadR : List (List Nat × List Nat) := [([], [])]

/-- The maker state after adding the empty record. -/
def c1BadMaker : CDBMake :=
  match buildAll c1BadR with
  | .ok m => m
  | .error _ => makeNew

/-- The file built from the single empty record. -/
def c1BadFile : List Nat :=
  match c1BadMaker.finish with
  | .ok F => F
  | .error _ => []

/-- The home slot of an entry in a subtable of `len` slots:
`(e.hash >> 8) % len` (src/writer.rs:128 and src/reader.rs:79). -/
def home (len : Nat) (e : HashPos) : Nat := e.hash / 256 % len

/-- Entry `e` sits in table `T` at some probe distance `t` from its home
slot, with every earlier slot on the probe path occupied.  This is the
linear-probing invariant `finish` establishes and the reader's scan relies
on. -/
def Reach (T : List HashPos) (len : Nat) (e : HashPos) : Prop :=
  ∃ t, t < len ∧ T.getD ((home len e + t) % len) ⟨0, 0⟩ = e ∧
    ∀ u, u < t → (T.getD ((home len e + u) % len) ⟨0, 0⟩).pos ≠ 0

/-- The record key length stored at position `p` of file `F`. -/
def klenAt (F : List Nat) (p : Nat) : Nat := unpackAt (fileOf F).file p

/-- The record value length stored at position `p` of file `F`. -/
def vlenAt (F : List Nat) (p : Nat) : Nat := unpackAt (fileOf F).file (p + 4)

/-- The key bytes of the record at position `p` of file `F`. -/
def keyAt (F : List Nat) (p : Nat) : List Nat := slice F (p + 8) (klenAt F p)

/-- The value bytes of the record at position `p` of file `F`. -/
def valAt (F : List Nat) (p : Nat) : List Nat :=
  slice F (p + 8 + klenAt F p) (vlenAt F p)

/-- The reader's slot-match test for key `k` at entry `e`: stored hash
equals `hash k`, stored key length equals `k`'s length, stored key bytes
equal `k` (src/reader.rs:245-250). -/
def matchCond (F : List Nat) (k : List Nat) (e : HashPos) : Bool :=
  decide (e.hash = hash k ∧ klenAt F e.pos = k.length ∧ keyAt F e.pos = k)

/-- The values of the key-`k` records met when scanning table `T` from
probe distance `i` with `f` probes left, stopping at the first empty
slot. -/
def scanMatches (F : List Nat) (T : List HashPos) (k : List Nat) (len wh : Nat) :
    Nat → Nat → List (List Nat)
  | _, 0 => []
  | i, f + 1 =>
    let e := T.getD ((wh + i) % len) ⟨0, 0⟩
    if e.pos = 0 then []
    else if matchCond F k e then valAt F e.pos :: scanMatches F T k len wh (i + 1) f
    else scanMatches F T k len wh (i + 1) f

/-- The probe distance of the first empty slot at or after distance `i`
(`i + f` when no empty slot is met within `f` probes). -/
def stopDist (T : List HashPos) (len wh : Nat) : Nat → Nat → Nat
  | i, 0 => i
  | i, f + 1 =>
    if (T.getD ((wh + i) % len) ⟨0, 0⟩).pos = 0 then i
    else stopDist T len wh (i + 1) f

/-- The `find` iterator state for key `k` at probe distance `i` in the
subtable at `hpos` with `len` slots, scanning from home slot `wh`. -/
def scanState (k : List Nat) (len wh hpos i : Nat) : VState :=
  { key := k, khash := hash k, kloop := i, kpos := hpos + 8 * ((wh + i) % len),
    hpos := hpos, hslots := len }

/-- A one-record input for exercising the `find` lookup. -/
def c2R : List (List Nat × List Nat) := [([1], [2])]

/-- The maker state after adding the records of `c2R`. -/
def c2Maker : CDBMake :=
  match buildAll c2R with
  | .ok m => m
  | .error _ => makeNew

/-- The file built from `c2R`. -/
def c2File : List Nat :=
  match c2Maker.finish with
  | .ok F => F
  | .error _ => []

/-! ## Basic lemmas: codec and slices -/

theorem pack_length (v : Nat) : (pack v).length = 4 := rfl

theorem pack2_length (a b : Nat) : (pack2 a b).length = 8 := rfl

theorem unpackList_pack_append (a : Nat) (r : List Nat) :
    unpackList (pack a ++ r) = a % U32 := by
  show a % 256 + 256 * (a / 256 % 256) + 65536 * (a / 65536 % 256) +
      16777216 * (a / 16777216 % 256) = a % U32
  simp only [U32]
  omega

theorem unpackList_pack (a : Nat) : unpackList (pack a) = a % U32 := by
  have := unpackList_pack_append a []
  simpa using this

theorem unpackList_pack2_left (a b : Nat) : unpackList (pack2 a b) = a % U32 :=
  unpackList_pack_append a (pack b)

theorem pack2_drop_four (a b : Nat) : (pack2 a b).drop 4 = pack b := rfl

theorem unpackList_pack2_right (a b : Nat) :
    unpackList ((pack2 a b).drop 4) = b % U32 := by
  rw [pack2_drop_four, unpackList_pack]

theorem slice_length (F : List Nat) (p n : Nat) (h : p + n ≤ F.length) :
    (slice F p n).length = n := by
  simp [slice]
  omega

theorem slice_append_right (A B : List Nat) (p n : Nat) (h : A.length ≤ p) :
    slice (A ++ B) p n = slice B (p - A.length) n := by
  unfold slice
  rw [List.drop_append_eq_append_drop]
  rw [List.drop_eq_nil_of_le (by omega)]
  simp

theorem slice_all (A : List Nat) : slice A 0 A.length = A := by
  simp [slice]

theorem getD_slice (F : List Nat) (p n i : Nat) (h : i < n) :
    (slice F p n).getD i 0 = F.getD (p + i) 0 := by
  unfold slice
  rcases Nat.lt_or_ge (p + i) F.length with h1 | h1
  · rw [List.getD_eq_getElem _ _ (by simp; omega)]
    rw [List.getElem_take, List.getElem_drop, List.getD_eq_getElem _ _ h1]
  · rw [List.getD_eq_default _ _ (by simp; omega)]
    rw [List.getD_eq_default _ _ (by omega)]

theorem getD_eq_of_slice (F G : List Nat) (p n i : Nat) (hs : slice F p n = G)
    (h : i < n) : F.getD (p + i) 0 = G.getD i 0 := by
  rw [← hs, getD_slice F p n i h]

theorem slice_append_left (A B : List Nat) (p n : Nat) (h : p + n ≤ A.length) :
    slice (A ++ B) p n = slice A p n := by
  apply List.ext_getElem
  · unfold slice; simp; omega
  · intro i h1 h2
    have hi : i < n := by
      have := (slice_length A p n (by omega)); omega
    rw [← List.getD_eq_getElem _ 0, ← List.getD_eq_getElem _ 0]
    rw [getD_slice _ _ _ _ hi, getD_slice _ _ _ _ hi]
    rcases Nat.lt_or_ge (p + i) A.length with h3 | h3
    · rw [List.getD_eq_getElem _ _ (by simp; omega), List.getD_eq_getElem _ _ h3]
      exact List.getElem_append_left h3
    · omega

theorem slice_shift (F : List Nat) (p k m n : Nat) (hkm : k + m ≤ n)
    (hb : p + n ≤ F.length) :
    slice F (p + k) m = ((slice F p n).drop k).take m := by
  apply List.ext_getElem
  · rw [slice_length F (p + k) m (by omega)]
    rw [List.length_take, List.length_drop, slice_length F p n hb]
    omega
  · intro i h1 h2
    have hi : i < m := by rw [slice_length F (p + k) m (by omega)] at h1; exact h1
    rw [← List.getD_eq_getElem _ 0, ← List.getD_eq_getElem _ 0]
    rw [getD_slice _ _ _ _ hi]
    rw [List.getD_eq_getElem _ _ h2, List.getElem_take, List.getElem_drop]
    rw [← List.getD_eq_getElem _ 0, getD_slice _ _ _ _ (by omega)]
    congr 1
    omega

theorem slice_take (F : List Nat) (p m n : Nat) (h : m ≤ n) (hb : p + n ≤ F.length) :
    slice F p m = (slice F p n).take m := by
  have := slice_shift F p 0 m n (by omega) hb
  simpa using this

/-- Reading through `fileOf` within bounds gives the slice. -/
theorem read_fileOf (F : List Nat) (p n : Nat) (h : p + n ≤ F.length) :
    (fileOf F).read p n = .ok (slice F p n) := by
  unfold CDB.read fileOf
  simp only [gt_iff_lt]
  rw [if_neg (Nat.not_lt.mpr h)]
  congr 1
  apply List.ext_getElem
  · simp only [slice, List.length_map, List.length_range, List.length_take,
      List.length_drop]
    omega
  · intro i h1 h2
    simp only [List.getElem_map, List.getElem_range]
    rw [← List.getD_eq_getElem _ 0, getD_slice _ _ _ _ (by simpa using h1)]

theorem unpackAt_fileOf (F : List Nat) (p : Nat) :
    unpackAt (fileOf F).file p = unpackList (slice F p 4) := by
  unfold unpackAt unpackList fileOf
  simp only []
  rw [getD_slice F p 4 0 (by omega), getD_slice F p 4 1 (by omega),
    getD_slice F p 4 2 (by omega), getD_slice F p 4 3 (by omega)]
  simp

/-! ## Lemmas on the writer's position arithmetic -/

theorem pos_plus_ok_of_lt (pos len : Nat) (h : pos + len < U32) :
    pos_plus pos len = .ok (pos + len) := by
  unfold pos_plus
  rw [if_neg]
  simp only [U32] at *
  omega

theorem pos_plus_err_of_ge (pos len : Nat) (hp : pos < U32) (h : U32 ≤ pos + len) :
    pos_plus pos len = .error .tooBig := by
  unfold pos_plus
  rw [if_pos]
  simp only [U32] at *
  omega

theorem pos_plus_ok_val (pos len p : Nat) (h : pos_plus pos len = .ok p) :
    p = pos + len := by
  unfold pos_plus at h
  split at h
  · exact absurd h (by simp)
  · simpa using h.symm

/-- C7 helper: the outcome of `add_end` as a function of the total record
size. -/
theorem add_end_char (m : CDBMake) (kl dl h : Nat) (hm : m.pos < U32) :
    (U32 ≤ m.pos + 8 + kl + dl → kl < U32 → dl < U32 →
      add_end m kl dl h = .error .tooBig) ∧
    (m.pos + 8 + kl + dl < U32 →
      add_end m kl dl h =
        .ok { entries := Function.update m.entries (h % 256)
                (m.entries (h % 256) ++ [⟨h, m.pos⟩]),
              pos := m.pos + 8 + kl + dl, data := m.data }) := by
  constructor
  · intro hov hkl hdl
    unfold add_end
    rcases Nat.lt_or_ge (m.pos + 8) U32 with h1 | h1
    · rcases Nat.lt_or_ge (m.pos + 8 + kl) U32 with h2 | h2
      · simp only [pos_plus_ok_of_lt _ _ h1, pos_plus_ok_of_lt _ _ h2,
          pos_plus_err_of_ge (m.pos + 8 + kl) dl (by omega) (by omega)]
      · simp only [pos_plus_ok_of_lt _ _ h1,
          pos_plus_err_of_ge (m.pos + 8) kl (by omega) h2]
    · simp only [pos_plus_err_of_ge _ _ hm h1]
  · intro hlt
    unfold add_end
    simp only [pos_plus_ok_of_lt _ _ (show m.pos + 8 < U32 by omega),
      pos_plus_ok_of_lt _ _ (show m.pos + 8 + kl < U32 by omega),
      pos_plus_ok_of_lt _ _ (show m.pos + 8 + kl + dl < U32 by omega)]

/-- What a successful `add_end` produces. -/
theorem add_end_ok_char (m : CDBMake) (kl dl h : Nat) (m' : CDBMake)
    (he : add_end m kl dl h = .ok m') :
    m'.pos = m.pos + 8 + kl + dl ∧ m'.data = m.data ∧
    m'.entries = Function.update m.entries (h % 256)
      (m.entries (h % 256) ++ [⟨h, m.pos⟩]) := by
  unfold add_end at he
  cases hp1 : pos_plus m.pos 8 with
  | error e => rw [hp1] at he; exact absurd he (by simp)
  | ok p1 =>
    rw [hp1] at he
    simp only [] at he
    cases hp2 : pos_plus p1 kl with
    | error e => rw [hp2] at he; exact absurd he (by simp)
    | ok p2 =>
      rw [hp2] at he
      simp only [] at he
      cases hp3 : pos_plus p2 dl with
      | error e => rw [hp3] at he; exact absurd he (by simp)
      | ok p3 =>
        rw [hp3] at he
        simp only [] at he
        have e1 := pos_plus_ok_val _ _ _ hp1
        have e2 := pos_plus_ok_val _ _ _ hp2
        have e3 := pos_plus_ok_val _ _ _ hp3
        simp only [Except.ok.injEq] at he
        rw [← he]
        refine ⟨by simp; omega, rfl, rfl⟩

/-- What a successful `CDBMake::add` produces. -/
theorem add_ok_char (m : CDBMake) (key dat : List Nat) (m' : CDBMake)
    (ha : m.add key dat = .ok m') :
    key.length < U32 - 1 ∧ dat.length < U32 - 1 ∧
    m'.pos = m.pos + 8 + key.length + dat.length ∧
    m'.data = m.data ++ encRec (key, dat) ∧
    m'.entries = Function.update m.entries (hash key % 256)
      (m.entries (hash key % 256) ++ [⟨hash key, m.pos⟩]) := by
  unfold CDBMake.add at ha
  split at ha
  · exact absurd ha (by simp)
  · rename_i hg
    push_neg at hg
    have hc := add_end_ok_char _ _ _ _ _ ha
    unfold add_begin at hc
    refine ⟨hg.1, hg.2, hc.1, ?_, hc.2.2⟩
    rw [hc.2.1]
    simp [encRec]

/-- C7: `add(key, value)` fails with `TooBig` when the key or the value has
length at least `2^32 - 1`; it fails with `TooBig` (rather than wrapping)
whenever advancing the running position by `8 + klen + vlen` would overflow
u32; and on success the position advances by exactly `8 + klen + vlen`
(src/writer.rs lines 66-73 and 94-102). -/
theorem C7_writer_size_limits (m : CDBMake) (key dat : List Nat)
    (hm : m.pos < U32) :
    ((U32 - 1 ≤ key.length ∨ U32 - 1 ≤ dat.length) →
      m.add key dat = .error .tooBig) ∧
    (U32 ≤ m.pos + 8 + key.length + dat.length →
      m.add key dat = .error .tooBig) ∧
    (∀ m', m.add key dat = .ok m' →
      m'.pos = m.pos + (8 + key.length + dat.length)) := by
  refine ⟨?_, ?_, ?_⟩
  · intro hg
    unfold CDBMake.add
    rw [if_pos (by omega)]
  · intro hov
    unfold CDBMake.add
    split
    · rfl
    · rename_i hg
      push_neg at hg
      exact (add_end_char
        { entries := m.entries, pos := m.pos,
          data := m.data ++ pack2 key.length dat.length ++ key ++ dat }
        key.length dat.length (hash key) hm).1 hov (by omega) (by omega)
  · intro m' ha
    have := (add_ok_char m key dat m' ha).2.2.1
    omega

/-- Witness for C7 at a concrete maker and record. -/
theorem C7_witness :
    makeNew.pos < U32 ∧
    (((U32 - 1 ≤ [0].length ∨ U32 - 1 ≤ ([] : List Nat).length) →
      makeNew.add [0] [] = .error .tooBig) ∧
    (U32 ≤ makeNew.pos + 8 + [0].length + ([] : List Nat).length →
      makeNew.add [0] [] = .error .tooBig) ∧
    (∀ m', makeNew.add [0] [] = .ok m' →
      m'.pos = makeNew.pos + (8 + [0].length + ([] : List Nat).length))) :=
  ⟨by decide, C7_writer_size_limits makeNew [0] [] (by decide)⟩

/-! ## C9: temp-path derivation -/

theorem lastDot_spec (cs : List Char) (i : Nat) (h : lastDot cs = some i) :
    i < cs.length ∧ cs.getD i 'x' = '.' := by
  induction cs generalizing i with
  | nil => exact absurd h (by simp [lastDot])
  | cons c cs ih =>
    unfold lastDot at h
    split at h
    · rename_i j hj
      simp only [Option.some.injEq] at h
      subst h
      rcases ih j hj with ⟨h1, h2⟩
      exact ⟨by simpa using h1, by simpa using h2⟩
    · split at h
      · rename_i hc
        simp only [Option.some.injEq] at h
        subst h
        exact ⟨by simp, by simpa using hc⟩
      · exact absurd h (by simp)

/-- Decomposition of a name that has an extension. -/
theorem extension_decomp (cs e : List Char) (h : extension cs = some e) :
    cs = file_stem cs ++ '.' :: e := by
  unfold extension at h
  cases hl : lastDot cs with
  | none => rw [hl] at h; exact absurd h (by simp)
  | some i =>
    rw [hl] at h
    match i, h with
    | 0, h => exact absurd h (by simp)
    | i + 1, h =>
      simp only [Option.some.injEq] at h
      rcases lastDot_spec cs (i + 1) hl with ⟨h1, h2⟩
      unfold file_stem
      rw [hl]
      rw [← h]
      conv_lhs => rw [← List.take_append_drop (i + 1) cs]
      congr 1
      rw [List.drop_eq_getElem_cons h1]
      congr 1
      rw [← List.getD_eq_getElem cs 'x' h1]
      exact h2

/-- C9 (amended): with an extension the suffix is appended to the name;
without one, a dot plus the raw suffix is appended, so a suffix that itself
starts with a dot yields a doubled dot (src/writer.rs:193-206). -/
theorem C9_with_suffix_char (name suffix : List Char) (hs : suffix ≠ []) :
    (∀ e, extension name = some e →
      with_suffix name suffix = name ++ suffix) ∧
    (extension name = none →
      with_suffix name suffix = name ++ '.' :: suffix) := by
  constructor
  · intro e he
    unfold with_suffix
    rw [he]
    simp only []
    unfold set_extension
    rw [if_neg (by simp [hs])]
    conv_rhs => rw [extension_decomp name e he]
    simp
  · intro he
    unfold with_suffix
    rw [he]
    simp only []
    unfold set_extension
    rw [if_neg hs]
    have hstem : file_stem name = name := by
      unfold extension at he
      unfold file_stem
      cases hl : lastDot name with
      | none => rfl
      | some i =>
        rw [hl] at he
        match i, he with
        | 0, _ => rfl
        | i + 1, he => exact absurd he (by simp)
    rw [hstem]

/-- Witness for C9 at the spec's own examples. -/
theorem C9_witness :
    ".tmp".toList ≠ ([] : List Char) ∧
    ((∀ e, extension "foo.cdb".toList = some e →
      with_suffix "foo.cdb".toList ".tmp".toList = "foo.cdb".toList ++ ".tmp".toList) ∧
    (extension "foo.cdb".toList = none →
      with_suffix "foo.cdb".toList ".tmp".toList =
        "foo.cdb".toList ++ '.' :: ".tmp".toList)) :=
  ⟨by decide, C9_with_suffix_char "foo.cdb".toList ".tmp".toList (by decide)⟩

/-- C9 counterexample: an extension-less destination `foo` with the default
suffix `.tmp` produces `foo..tmp` (doubled dot), not the `foo.tmp` the
claim states. -/
theorem C9_counterexample :
    with_suffix "foo".toList ".tmp".toList = "foo..tmp".toList ∧
    with_suffix "foo".toList ".tmp".toList ≠ "foo.tmp".toList := by
  constructor
  · decide
  · decide

/-! ## C5: abandonment atomicity (code-bug evidence) -/

/-- C5: when `finish` is called and the maker's finalization fails, the
writer is dropped with `cdb == None`, so `Drop` does *not* delete the temp
file: the filesystem afterwards is exactly as before, temp file included.
This contradicts the claim (and the doc comment on `CDBWriter`,
src/writer.rs:159-160, which promises deletion on drop after an error);
the destination is indeed untouched. -/
theorem C5_failed_finish_keeps_temp (m : CDBMake) (fs : FS) (e : WErr)
    (hf : m.finish = .error e) :
    (writerFinish m fs).1 = .error e ∧
    writerDrop (writerFinish m fs).2.1 (writerFinish m fs).2.2 = fs := by
  unfold writerFinish
  rw [hf]
  exact ⟨rfl, rfl⟩

set_option maxRecDepth 100000 in
/-- Witness for C5: a concrete failing finish, starting from a filesystem
in which the temp file exists; it still exists after the drop. -/
theorem C5_witness :
    finishFailMaker.finish = .error .tooBig ∧
    ((writerFinish finishFailMaker ⟨none, some []⟩).1 = .error .tooBig ∧
      writerDrop (writerFinish finishFailMaker ⟨none, some []⟩).2.1
        (writerFinish finishFailMaker ⟨none, some []⟩).2.2 = ⟨none, some []⟩) :=
  ⟨by rfl, C5_failed_finish_keeps_temp finishFailMaker ⟨none, some []⟩ .tooBig (by rfl)⟩

/-! ## C4: error terminality -/

/-- C4 (amended): errors are not terminal for either iterator.  An error
from the sequential `iter()` iterator leaves the iterator state unchanged —
the error return at src/reader.rs:296 does not advance `pos` — so every
subsequent `next()` repeats the same `Err(BadFile)` instead of returning
`None`.  For the `find` iterator, a `next()` call whose 8-byte read of the
current hash slot fails (src/reader.rs:235) also returns `Err(BadFile)`
with the state unchanged, so there too the same error repeats on every
subsequent call instead of `None`. -/
theorem C4_error_not_terminal :
    (∀ c s, (kvNext c s).1 = .errored →
      (kvNext c s).2 = s ∧ (kvNext c ((kvNext c s).2)).1 = .errored) ∧
    (∀ (c : CDB) (s : VState), s.kloop < s.hslots →
      (∃ e, c.read s.kpos 8 = .error e) →
      vNext c s = (.errored, s) ∧ (vNext c ((vNext c s).2)).1 = .errored) := by
  constructor
  · intro c s h
    have hs : (kvNext c s).2 = s := by
      simp only [kvNext] at h ⊢
      split_ifs at h ⊢ <;> simp_all
    exact ⟨hs, by rw [hs]; exact h⟩
  · intro c s hk he
    obtain ⟨e, he⟩ := he
    have hv : vNext c s = (.errored, s) := by
      unfold vNext
      rw [show s.hslots - s.kloop = (s.hslots - s.kloop - 1) + 1 from by omega]
      unfold vNextAux
      rw [if_pos hk, he]
    refine ⟨hv, ?_⟩
    rw [hv, show ((VStep.errored, s) : VStep × VState).2 = s from rfl, hv]

/-- Witness for C4: the sequential part on the concrete corrupt file, the
`find` part on a state whose slot position lies past the end of the
2048-byte file. -/
theorem C4_witness :
    ((kvNext repeatErrFile (kvInit repeatErrFile)).2 = kvInit repeatErrFile ∧
      (kvNext repeatErrFile
        ((kvNext repeatErrFile (kvInit repeatErrFile)).2)).1 = .errored) ∧
    (vNext zeroFile ⟨[], 0, 0, 2048, 0, 1⟩ =
        (.errored, ⟨[], 0, 0, 2048, 0, 1⟩) ∧
      (vNext zeroFile ((vNext zeroFile ⟨[], 0, 0, 2048, 0, 1⟩).2)).1 = .errored) :=
  ⟨C4_error_not_terminal.1 repeatErrFile (kvInit repeatErrFile) (by decide),
   C4_error_not_terminal.2 zeroFile ⟨[], 0, 0, 2048, 0, 1⟩ (by decide) ⟨(), rfl⟩⟩

/-- C4 counterexample: on a concrete corrupt file the first two `next()`
calls of `iter()` both return `Err(BadFile)`, and on a concrete `find`
state whose slot read fails the first two `next()` calls both return
`Err(BadFile)` — the claim says each second call must be `None`. -/
theorem C4_counterexample :
    (kvNext repeatErrFile (kvInit repeatErrFile)).1 = .errored ∧
    (kvNext repeatErrFile
      ((kvNext repeatErrFile (kvInit repeatErrFile)).2)).1 = .errored ∧
    (kvNext repeatErrFile
      ((kvNext repeatErrFile (kvInit repeatErrFile)).2)).1 ≠ .done ∧
    (vNext zeroFile ⟨[], 0, 0, 2048, 0, 1⟩).1 = .errored ∧
    (vNext zeroFile ((vNext zeroFile ⟨[], 0, 0, 2048, 0, 1⟩).2)).1 = .errored ∧
    (vNext zeroFile ((vNext zeroFile ⟨[], 0, 0, 2048, 0, 1⟩).2)).1 ≠ .done := by
  refine ⟨by decide, by decide, by decide, by decide, by decide, by decide⟩

/-! ## C10: finish never divides by zero -/

theorem foldlM_ne_err {α β : Type} (f : β → α → Except WErr β) (l : List α)
    (b : β) (e : WErr) (hf : ∀ b' a, a ∈ l → f b' a ≠ .error e) :
    l.foldlM f b ≠ .error e := by
  induction l generalizing b with
  | nil => simp [List.foldlM, pure, Except.pure]
  | cons a l ih =>
    rw [List.foldlM_cons]
    cases hfa : f b a with
    | error e' =>
      simp only [hfa, bind, Except.bind]
      intro hc
      exact hf b a (by simp) (by rw [hfa]; simpa using hc)
    | ok b' =>
      simp only [hfa, bind, Except.bind]
      exact ih b' fun b'' a' ha' => hf b'' a' (by simp [ha'])

theorem emitSlot_ne_err (st : FinSt) (j : Nat) (e : WErr) (he : e ≠ .tooBig) :
    emitSlot st j ≠ .error e := by
  unfold emitSlot
  cases hp : pos_plus st.pos 8 with
  | error e' =>
    unfold pos_plus at hp
    split at hp
    · simp only [Except.error.injEq] at hp
      simp [← hp, he.symm]
    · exact absurd hp (by simp)
  | ok p => simp

theorem place_ne_div (len : Nat) (t : List HashPos) (e : HashPos)
    (hlen : len ≠ 0) : place len t e ≠ .error .divByZero := by
  unfold place
  rw [if_neg hlen]
  cases probeIdx t len (e.hash / 256 % len) len <;> simp

theorem placeAll_ne_div (bucket : List HashPos) (len : Nat) (t : List HashPos)
    (hlen : bucket ≠ [] → len ≠ 0) : placeAll bucket len t ≠ .error .divByZero := by
  cases bucket with
  | nil => simp [placeAll, List.foldlM, pure, Except.pure]
  | cons a l =>
    exact foldlM_ne_err _ _ _ _ fun t' e _ => place_ne_div len t' e (hlen (by simp))

theorem finishStep_ne_div (m : CDBMake) (st : FinSt) (i : Nat) :
    finishStep m st i ≠ .error .divByZero := by
  unfold finishStep
  intro hc
  simp only [] at hc
  rcases hp : placeAll (m.entries i) ((m.entries i).length * 2) st.table with e | t
  · rw [hp] at hc
    simp only [Except.error.injEq] at hc
    refine placeAll_ne_div (m.entries i) ((m.entries i).length * 2) st.table
      (fun hne => ?_) ?_
    · have := List.length_pos.mpr hne
      omega
    · rw [hp, hc]
  · rw [hp] at hc
    simp only [] at hc
    exact foldlM_ne_err emitSlot _ _ _
      (fun st' j _ => emitSlot_ne_err st' j _ (by simp)) hc

/-- C10: `finish` never evaluates a remainder by zero: the
`(hash >> 8) % len` placement runs only while iterating the entries of
bucket `i`, which forces `len = 2 * |bucket_i| ≥ 2`; and an empty bucket
contributes only the header entry `(pos, 0)`, writing no slots and leaving
position, table and output unchanged (src/writer.rs:122-144). -/
theorem C10_finish_no_div_by_zero (m : CDBMake) :
    m.finish ≠ .error .divByZero ∧
    (∀ st i, m.entries i = [] →
      finishStep m st i =
        .ok { st with header := writeAt st.header (i * 8) (pack2 st.pos 0) }) := by
  constructor
  · unfold CDBMake.finish
    simp only []
    split
    · simp
    · intro hc
      rcases hp : (List.range 256).foldlM (finishStep m)
          { table := List.replicate ((List.range 256).foldl
              (fun acc i => max acc ((m.entries i).length * 2)) 1) ⟨0, 0⟩,
            header := List.replicate 2048 0, pos := m.pos, out := [] } with e | st
      · rw [hp] at hc
        simp only [Except.error.injEq] at hc
        subst hc
        exact foldlM_ne_err (finishStep m) (List.range 256) _ WErr.divByZero
          (fun st' i _ => finishStep_ne_div m st' i) hp
      · rw [hp] at hc
        exact absurd hc (by simp)
  · intro st i h
    unfold finishStep
    rw [h]
    simp [placeAll, List.foldlM, pure, Except.pure]

/-- Witness for C10 on the fresh maker, whose buckets are all empty. -/
theorem C10_witness :
    makeNew.entries 0 = [] ∧
    makeNew.finish ≠ .error .divByZero ∧
    finishStep makeNew finSt0 0 =
      .ok { finSt0 with header := writeAt finSt0.header (0 * 8) (pack2 finSt0.pos 0) } :=
  ⟨rfl, (C10_finish_no_div_by_zero makeNew).1,
    (C10_finish_no_div_by_zero makeNew).2 finSt0 0 rfl⟩

/-! ## C3: corrupt-file safety -/

/-- C3 (amended): for any file whose size lies in `[2048, 2^32 - 9]`, no
read operation panics: the sequential iterator's state invariant holds
initially and is preserved, and under it `next()` never takes a panicking
slice; a `find` iterator (hence also `get`) performs only bounds-checked
reads and never panics, whatever the file.  (At sizes above `2^32 - 9` the
wrapping `pos + 8` guard of src/reader.rs:285 can pass wrongly and the
direct slice at src/reader.rs:289 runs past the map.) -/
theorem C3_no_panic (c : CDB) (hL : 2048 ≤ c.size) (hU : c.size ≤ U32 - 9) :
    KVInv c (kvInit c) ∧
    (∀ s, KVInv c s → (kvNext c s).1 ≠ .panicked ∧ KVInv c (kvNext c s).2) ∧
    (∀ fuel s, (vNextAux c fuel s).1 ≠ .panicked) := by
  refine ⟨⟨Nat.min_le_right _ _, Or.inl rfl⟩, ?_, ?_⟩
  · intro s hs
    obtain ⟨hde, hpos⟩ := hs
    unfold kvNext
    split
    · exact ⟨by simp, hde, hpos⟩
    · rename_i h1
      push_neg at h1
      have hp8 : s.pos + 8 < U32 := by
        simp only [U32] at *
        omega
      rw [Nat.mod_eq_of_lt hp8] at h1
      rw [if_neg (by omega)]
      simp only []
      split
      · exact ⟨by simp, hde, hpos⟩
      · rename_i h2
        push_neg at h2
        have htot : s.pos + 8 +
            unpackAt c.file s.pos + unpackAt c.file (s.pos + 4) ≤ s.data_end := by
          simp only [U32] at *
          omega
        rw [Nat.mod_eq_of_lt hp8]
        rw [if_neg (by omega), if_neg (by omega)]
        refine ⟨by simp, hde, Or.inr ?_⟩
        simp only []
        rw [Nat.mod_eq_of_lt (by simp only [U32] at *; omega)]
        omega
  · intro fuel
    induction fuel with
    | zero => intro s; simp [vNextAux]
    | succ n ih =>
      intro s
      unfold vNextAux
      by_cases hk : s.kloop < s.hslots
      · rw [if_pos hk]
        cases hr : c.read s.kpos 8 with
        | error e => simp [hr]
        | ok buf =>
          simp only [hr]
          by_cases hp0 : unpackList (buf.drop 4) = 0
          · rw [if_pos hp0]
            simp
          · rw [if_neg hp0]
            by_cases hch : U32 ≤ s.hpos + s.hslots * 8 % U32
            · rw [if_pos hch]
              simp
            · rw [if_neg hch]
              by_cases hh : unpackList buf = s.khash
              · rw [if_pos hh]
                cases hr2 : c.read (unpackList (buf.drop 4)) 8 with
                | error e => simp [hr2]
                | ok buf2 =>
                  simp only [hr2]
                  by_cases hkl : unpackList buf2 = s.key.length
                  · rw [if_pos hkl]
                    split
                    · simp
                    · split <;> simp
                    · exact ih _
                  · rw [if_neg hkl]
                    exact ih _
              · rw [if_neg hh]
                exact ih _
      · rw [if_neg hk]
        simp

/-- Witness for C3 on the all-zero 2048-byte file. -/
theorem C3_witness :
    2048 ≤ zeroFile.size ∧ zeroFile.size ≤ U32 - 9 ∧
    (KVInv zeroFile (kvInit zeroFile) ∧
      (∀ s, KVInv zeroFile s →
        (kvNext zeroFile s).1 ≠ .panicked ∧ KVInv zeroFile (kvNext zeroFile s).2) ∧
      (∀ fuel s, (vNextAux zeroFile fuel s).1 ≠ .panicked)) :=
  ⟨by decide, by decide, C3_no_panic zeroFile (by decide) (by decide)⟩

/-- C3 counterexample: a file of size `2^32 - 8` (within the claim's bound
`2^32 - 1`) on which the second `next()` of `iter()` panics: its record
ends exactly at the 4 GiB boundary, the wrapping `pos + 8` guard passes,
and the header slice `file[pos..pos + 8]` runs past the end of the map. -/
theorem C3_counterexample :
    openOk panicFile ∧
    (kvNext panicFile ((kvNext panicFile (kvInit panicFile)).2)).1 = .panicked := by
  constructor
  · decide
  · have h1 : (kvNext panicFile (kvInit panicFile)).2 =
        { pos := 4294967288, data_end := 4294967288 } := by decide
    rw [h1]
    decide

/-! ## Writer characterization: layout lemmas -/

theorem writeAt_length (buf v : List Nat) (j : Nat) (h : j + v.length ≤ buf.length) :
    (writeAt buf j v).length = buf.length := by
  unfold writeAt
  simp
  omega

theorem slice_writeAt_self (buf v : List Nat) (j : Nat) (hj : j ≤ buf.length) :
    slice (writeAt buf j v) j v.length = v := by
  unfold writeAt
  have hlen : (buf.take j).length = j := by simp [hj]
  rw [List.append_assoc]
  rw [slice_append_right (buf.take j) _ j v.length (by rw [hlen])]
  rw [hlen, Nat.sub_self]
  unfold slice
  rw [List.drop_zero]
  exact List.take_left _ _

theorem slice_writeAt_before (buf v : List Nat) (j p n : Nat) (hpn : p + n ≤ j)
    (hj : j ≤ buf.length) :
    slice (writeAt buf j v) p n = slice buf p n := by
  unfold writeAt
  rw [List.append_assoc]
  rw [slice_append_left _ _ p n (by simp [hj]; omega)]
  unfold slice
  rw [List.drop_take, List.take_take]
  congr 1
  omega

theorem slotBytes_cons (e : HashPos) (T : List HashPos) :
    slotBytes (e :: T) = pack2 e.hash e.pos ++ slotBytes T := rfl

theorem slotBytes_length (T : List HashPos) : (slotBytes T).length = 8 * T.length := by
  induction T with
  | nil => rfl
  | cons e T ih =>
    rw [slotBytes_cons]
    simp only [List.length_append, pack2_length, ih, List.length_cons]
    omega

theorem slotBytes_slice (T : List HashPos) (j : Nat) (hj : j < T.length) :
    slice (slotBytes T) (8 * j) 8 =
      pack2 (T.getD j ⟨0, 0⟩).hash (T.getD j ⟨0, 0⟩).pos := by
  induction T generalizing j with
  | nil => simp at hj
  | cons e T ih =>
    rw [slotBytes_cons]
    cases j with
    | zero =>
      rw [Nat.mul_zero]
      rw [slice_append_left _ _ 0 8 (by simp [pack2_length])]
      have hs : slice (pack2 e.hash e.pos) 0 8 = pack2 e.hash e.pos := by
        have := slice_all (pack2 e.hash e.pos)
        rwa [pack2_length] at this
      rw [hs]
      rfl
    | succ j =>
      rw [slice_append_right _ _ _ 8 (by rw [pack2_length]; omega)]
      rw [pack2_length]
      have hoff : 8 * (j + 1) - 8 = 8 * j := by omega
      rw [hoff]
      rw [ih j (by simpa using hj)]
      rfl

theorem headerAcc_length (m : CDBMake) (b : Nat) (hb : b ≤ 256) :
    (headerAcc m b).length = 2048 := by
  induction b with
  | zero =>
    show (List.replicate 2048 (0 : Nat)).length = 2048
    rw [List.length_replicate]
  | succ b ih =>
    unfold headerAcc
    rw [writeAt_length]
    · exact ih (by omega)
    · rw [ih (by omega), pack2_length]
      omega

theorem headerAcc_slice (m : CDBMake) (b : Nat) (hb : b ≤ 256) (i : Nat)
    (hi : i < b) :
    slice (headerAcc m b) (i * 8) 8 = pack2 (subPos m i) (lens m i) := by
  induction b with
  | zero => omega
  | succ b ih =>
    unfold headerAcc
    rcases Nat.lt_or_ge i b with h | h
    · rw [slice_writeAt_before _ _ _ _ _ (by omega)
        (by rw [headerAcc_length m b (by omega)]; omega)]
      exact ih (by omega) h
    · have hib : i = b := by omega
      subst hib
      have := slice_writeAt_self (headerAcc m i) (pack2 (subPos m i) (lens m i))
        (i * 8) (by rw [headerAcc_length m i (by omega)]; omega)
      rwa [pack2_length] at this

theorem range_map_sum_lt (f : Nat → Nat) (b c : Nat) (h : b < c) :
    ((List.range b).map f).sum + f b ≤ ((List.range c).map f).sum := by
  induction c with
  | zero => omega
  | succ c ih =>
    rw [List.range_succ, List.map_append, List.sum_append]
    rcases Nat.lt_or_ge b c with h2 | h2
    · have := ih h2
      simp
      omega
    · have hbc : b = c := by omega
      subst hbc
      simp

theorem getD_take (T : List HashPos) (n j : Nat) (hj : j < n) (d : HashPos) :
    (T.take n).getD j d = T.getD j d := by
  rcases Nat.lt_or_ge j T.length with h | h
  · rw [List.getD_eq_getElem _ _ (by simp; omega), List.getD_eq_getElem _ _ h]
    exact List.getElem_take T
  · rw [List.getD_eq_default _ _ (by simp; omega), List.getD_eq_default _ _ h]

theorem outAcc_length (m : CDBMake) (ms b : Nat)
    (hT : ∀ i, i < b → lens m i ≤ (tableFor m ms i).length) :
    (outAcc m ms b).length = 8 * ((List.range b).map (lens m)).sum := by
  induction b with
  | zero => rfl
  | succ b ih =>
    unfold outAcc
    rw [List.length_append, ih (fun i hi => hT i (by omega))]
    rw [slotBytes_length, List.length_take]
    rw [List.range_succ, List.map_append, List.sum_append]
    have := hT b (by omega)
    simp
    omega

theorem outAcc_slice (m : CDBMake) (ms : Nat) (c b j : Nat) (hb : b < c)
    (hj : j < lens m b)
    (hT : ∀ i, i < c → lens m i ≤ (tableFor m ms i).length) :
    slice (outAcc m ms c) (8 * ((List.range b).map (lens m)).sum + 8 * j) 8 =
      pack2 ((tableFor m ms b).getD j ⟨0, 0⟩).hash
        ((tableFor m ms b).getD j ⟨0, 0⟩).pos := by
  induction c with
  | zero => omega
  | succ c ih =>
    unfold outAcc
    rcases Nat.lt_or_ge b c with h2 | h2
    · rw [slice_append_left _ _ _ _ (by
        rw [outAcc_length m ms c (fun i hi => hT i (by omega))]
        have := range_map_sum_lt (lens m) b c h2
        omega)]
      exact ih h2 (fun i hi => hT i (by omega))
    · have hbc : b = c := by omega
      subst hbc
      rw [slice_append_right _ _ _ _ (by
        rw [outAcc_length m ms b (fun i hi => hT i (by omega))]; omega)]
      rw [outAcc_length m ms b (fun i hi => hT i (by omega))]
      have hoff : 8 * ((List.range b).map (lens m)).sum + 8 * j
          - 8 * ((List.range b).map (lens m)).sum = 8 * j := by omega
      rw [hoff]
      have hjlen : j < ((tableFor m ms b).take (lens m b)).length := by
        rw [List.length_take]
        exact lt_min hj (lt_of_lt_of_le hj (hT b (by omega)))
      rw [slotBytes_slice _ j hjlen]
      rw [getD_take _ _ _ hj]

theorem foldlM_append_except {α β : Type} (f : β → α → Except WErr β)
    (l1 l2 : List α) (b : β) :
    (l1 ++ l2).foldlM f b =
      match l1.foldlM f b with
      | .error e => .error e
      | .ok b' => l2.foldlM f b' := by
  induction l1 generalizing b with
  | nil => simp [List.foldlM, pure, Except.pure]
  | cons a l ih =>
    rw [List.cons_append, List.foldlM_cons, List.foldlM_cons]
    cases hfa : f b a with
    | error e => simp [bind, Except.bind]
    | ok b' => simp [bind, Except.bind, ih]

theorem slotBytes_append (A B : List HashPos) :
    slotBytes (A ++ B) = slotBytes A ++ slotBytes B := by
  induction A with
  | nil => rfl
  | cons e A ih => simp [slotBytes_cons, ih]

theorem getD_append_right' (A B : List HashPos) (k : Nat) (d : HashPos) :
    (A ++ B).getD (A.length + k) d = B.getD k d := by
  induction A with
  | nil => simp
  | cons a A ih =>
    rw [List.cons_append]
    rw [show (a :: A).length + k = (A.length + k) + 1 by simp; omega]
    simpa using ih

theorem set_append_right' (A B : List HashPos) (k : Nat) (e : HashPos) :
    (A ++ B).set (A.length + k) e = A ++ B.set k e := by
  induction A with
  | nil => simp
  | cons a A ih =>
    rw [List.cons_append]
    rw [show (a :: A).length + k = (A.length + k) + 1 by simp; omega]
    rw [List.set_cons_succ, ih, List.cons_append]

theorem getD_replicate_append (B : List HashPos) (n : Nat) (d z : HashPos) :
    (List.replicate n z ++ B).getD n d = B.getD 0 d := by
  have := getD_append_right' (List.replicate n z) B 0 d
  simpa using this

theorem set_replicate_append (B : List HashPos) (n : Nat) (e z : HashPos) :
    (List.replicate n z ++ B).set n e = List.replicate n z ++ B.set 0 e := by
  have := set_append_right' (List.replicate n z) B 0 e
  simpa using this

theorem drop_eq_getD_cons (T : List HashPos) (n : Nat) (hn : n < T.length)
    (d : HashPos) : T.drop n = T.getD n d :: T.drop (n + 1) := by
  rw [List.getD_eq_getElem _ _ hn]
  exact List.drop_eq_getElem_cons hn

theorem take_succ_getD (T : List HashPos) (n : Nat) (hn : n < T.length)
    (d : HashPos) : T.take (n + 1) = T.take n ++ [T.getD n d] := by
  rw [List.getD_eq_getElem _ _ hn, List.take_succ]
  congr 1
  rw [List.getElem?_eq_getElem hn]
  rfl

theorem pos_plus_ok_lt (pos len p : Nat) (hp : pos < U32) (hl : len < U32)
    (h : pos_plus pos len = .ok p) : p < U32 := by
  unfold pos_plus at h
  split at h
  · exact absurd h (by simp)
  · simp only [Except.ok.injEq] at h
    subst h
    rename_i hc
    simp only [U32] at *
    omega

/-- The emit loop of `finish` (src/writer.rs:138): after a successful run
over the first `len` slots of the current table, the position advanced by
`8 * len`, the packed slots were appended to the output, and the emitted
prefix of the table is zeroed. -/
theorem emit_ok_char (T : List HashPos) (len : Nat) (hlen : len ≤ T.length) :
    ∀ st st', st.table = T → st.pos < U32 →
      (List.range len).foldlM emitSlot st = .ok st' →
      st'.pos = st.pos + 8 * len ∧ st'.pos < U32 ∧
      st'.header = st.header ∧
      st'.out = st.out ++ slotBytes (T.take len) ∧
      st'.table = List.replicate len ⟨0, 0⟩ ++ T.drop len := by
  induction len with
  | zero =>
    intro st st' hst hlt h
    simp only [List.range_zero, List.foldlM, pure, Except.pure, Except.ok.injEq] at h
    subst h
    refine ⟨by omega, hlt, rfl, by simp [slotBytes], by simpa using hst⟩
  | succ n ih =>
    intro st st' hst hlt h
    rw [List.range_succ, foldlM_append_except] at h
    rcases hInt : (List.range n).foldlM emitSlot st with e | stInt
    · rw [hInt] at h
      exact absurd h (by simp)
    · rw [hInt] at h
      simp only [] at h
      obtain ⟨h1, h2, h3, h4, h5⟩ := ih (by omega) st stInt hst hlt hInt
      rw [List.foldlM_cons] at h
      unfold emitSlot at h
      rcases hpp : pos_plus stInt.pos 8 with e | p
      · rw [hpp] at h
        exact absurd h (by simp [bind, Except.bind])
      · rw [hpp] at h
        simp only [bind, Except.bind, List.foldlM, pure, Except.pure,
          Except.ok.injEq] at h
        have hp := pos_plus_ok_val _ _ _ hpp
        have hplt : p < U32 := pos_plus_ok_lt _ _ _ h2 (by simp [U32]) hpp
        have hnT : n < T.length := by omega
        have hgetD : stInt.table.getD n ⟨0, 0⟩ = T.getD n ⟨0, 0⟩ := by
          rw [h5, getD_replicate_append]
          rw [drop_eq_getD_cons T n hnT ⟨0, 0⟩]
          rfl
        have htbl : stInt.table.set n ⟨0, 0⟩ =
            List.replicate (n + 1) ⟨0, 0⟩ ++ T.drop (n + 1) := by
          rw [h5, set_replicate_append]
          rw [drop_eq_getD_cons T n hnT ⟨0, 0⟩]
          rw [List.set_cons_zero]
          rw [List.replicate_succ']
          simp
        rw [← h]
        refine ⟨by simp [hp, h1]; omega, by simp [hp]; omega, by simp [h3], ?_, by simp [htbl]⟩
        simp only [h4, hgetD]
        rw [take_succ_getD T n hnT ⟨0, 0⟩, slotBytes_append]
        simp [slotBytes_cons, slotBytes]

/-! ## The probe and placement loops of `finish` -/

theorem probeIdx_lt (table : List HashPos) (len : Nat) :
    ∀ fuel wh s, wh < len → probeIdx table len wh fuel = some s → s < len := by
  intro fuel
  induction fuel with
  | zero => intro wh s _ h; exact absurd h (by simp [probeIdx])
  | succ n ih =>
    intro wh s hwh h
    unfold probeIdx at h
    split at h
    · refine ih _ s ?_ h
      split
      · omega
      · omega
    · simp only [Option.some.injEq] at h
      omega

theorem probeIdx_some_empty (table : List HashPos) (len : Nat) :
    ∀ fuel wh s, probeIdx table len wh fuel = some s →
      (table.getD s ⟨0, 0⟩).pos = 0 := by
  intro fuel
  induction fuel with
  | zero => intro wh s h; exact absurd h (by simp [probeIdx])
  | succ n ih =>
    intro wh s h
    unfold probeIdx at h
    split at h
    · exact ih _ s h
    · rename_i hocc
      simp only [Option.some.injEq] at h
      subst h
      simpa using hocc

theorem place_ok_char (len : Nat) (t : List HashPos) (e : HashPos)
    (t' : List HashPos) (h : place len t e = .ok t') :
    ∃ s, s < len ∧ (t.getD s ⟨0, 0⟩).pos = 0 ∧ t' = t.set s e ∧
      probeIdx t len (e.hash / 256 % len) len = some s := by
  unfold place at h
  split at h
  · exact absurd h (by simp)
  · rename_i hlen
    cases hp : probeIdx t len (e.hash / 256 % len) len with
    | none => rw [hp] at h; exact absurd h (by simp)
    | some s =>
      rw [hp] at h
      simp only [Except.ok.injEq] at h
      subst h
      exact ⟨s, probeIdx_lt t len len _ s (Nat.mod_lt _ (by omega)) hp,
        probeIdx_some_empty t len len _ s hp, rfl, rfl⟩

theorem drop_set_of_lt (t : List HashPos) (s : Nat) (e : HashPos) (len : Nat)
    (h : s < len) : (t.set s e).drop len = t.drop len := by
  apply List.ext_getElem
  · simp
  · intro i h1 h2
    simp only [List.getElem_drop]
    rw [List.getElem_set_ne (by omega)]

theorem placeAll_ok_shape (bucket : List HashPos) (len : Nat) :
    ∀ t t', placeAll bucket len t = .ok t' →
      t'.length = t.length ∧ t'.drop len = t.drop len := by
  induction bucket with
  | nil =>
    intro t t' h
    simp only [placeAll, List.foldlM, pure, Except.pure, Except.ok.injEq] at h
    subst h
    exact ⟨rfl, rfl⟩
  | cons e b ih =>
    intro t t' h
    unfold placeAll at h
    rw [List.foldlM_cons] at h
    cases hp : place len t e with
    | error er => rw [hp] at h; exact absurd h (by simp [bind, Except.bind])
    | ok t1 =>
      rw [hp] at h
      simp only [bind, Except.bind] at h
      obtain ⟨s, hs, _, ht1, _⟩ := place_ok_char len t e t1 hp
      obtain ⟨hl, hd⟩ := ih t1 t' h
      subst ht1
      constructor
      · rw [hl]; simp
      · rw [hd, drop_set_of_lt t s e len hs]

/-- One bucket iteration of `finish`, characterized from its success. -/
theorem finishStep_ok_char (m : CDBMake) (ms i : Nat) (st st' : FinSt)
    (hms : lens m i ≤ ms) (htbl : st.table = zeroTable ms) (hlt : st.pos < U32)
    (h : finishStep m st i = .ok st') :
    st'.pos = st.pos + 8 * lens m i ∧ st'.pos < U32 ∧
    st'.header = writeAt st.header (i * 8) (pack2 st.pos (lens m i)) ∧
    st'.out = st.out ++ slotBytes ((tableFor m ms i).take (lens m i)) ∧
    st'.table = zeroTable ms ∧
    placeAll (m.entries i) (lens m i) (zeroTable ms) = .ok (tableFor m ms i) ∧
    (tableFor m ms i).length = ms := by
  unfold finishStep at h
  simp only [] at h
  rcases hp : placeAll (m.entries i) ((m.entries i).length * 2) st.table with e | T
  · rw [hp] at h
    exact absurd h (by simp)
  · rw [hp] at h
    simp only [] at h
    obtain ⟨hTl, hTd⟩ := placeAll_ok_shape _ _ _ _ hp
    have hTlen : T.length = ms := by
      rw [hTl, htbl]
      simp [zeroTable]
    have hok : placeAll (m.entries i) (lens m i) (zeroTable ms) = .ok T := by
      rw [← htbl]
      exact hp
    have htf : tableFor m ms i = T := by
      unfold tableFor
      rw [hok]
    obtain ⟨e1, e2, e3, e4, e5⟩ := emit_ok_char T (lens m i) (by omega)
      { table := T,
        header := writeAt st.header (i * 8) (pack2 st.pos ((m.entries i).length * 2)),
        pos := st.pos, out := st.out } st' rfl hlt h
    refine ⟨e1, e2, e3, ?_, ?_, hok.trans (by rw [htf]), by rw [htf]; exact hTlen⟩
    · rw [e4, htf]
    · rw [e5]
      have hTd' : T.drop (lens m i) = st.table.drop (lens m i) := hTd
      rw [hTd', htbl]
      unfold zeroTable
      rw [List.drop_replicate]
      rw [← List.replicate_add]
      congr 1
      unfold lens at hms ⊢
      omega

theorem foldl_max_init_le (g : Nat → Nat) (l : List Nat) (acc : Nat) :
    acc ≤ l.foldl (fun a j => max a (g j)) acc := by
  induction l generalizing acc with
  | nil => simp
  | cons a l ih => exact le_trans (le_max_left _ _) (ih _)

theorem foldl_max_mem_le (g : Nat → Nat) (l : List Nat) (acc : Nat) (i : Nat)
    (hi : i ∈ l) : g i ≤ l.foldl (fun a j => max a (g j)) acc := by
  induction l generalizing acc with
  | nil => simp at hi
  | cons a l ih =>
    rcases List.mem_cons.mp hi with h | h
    · subst h
      exact le_trans (le_max_right _ _) (foldl_max_init_le g l _)
    · exact ih _ h

theorem lens_le_maxsize (m : CDBMake) (i : Nat) (hi : i < 256) :
    lens m i ≤ maxsizeOf m :=
  foldl_max_mem_le (fun j => (m.entries j).length * 2) (List.range 256) 1 i
    (List.mem_range.mpr hi)

/-- The bucket loop of `finish` after `b` successful iterations. -/
theorem finish_fold_char (m : CDBMake) (ms : Nat)
    (hms : ∀ i, i < 256 → lens m i ≤ ms) (hpos : m.pos < U32) :
    ∀ b, b ≤ 256 → ∀ st',
      (List.range b).foldlM (finishStep m)
        { table := zeroTable ms, header := List.replicate 2048 0,
          pos := m.pos, out := [] } = .ok st' →
      st'.pos = subPos m b ∧ st'.pos < U32 ∧ st'.header = headerAcc m b ∧
      st'.out = outAcc m ms b ∧ st'.table = zeroTable ms ∧
      (∀ i, i < b → (tableFor m ms i).length = ms) ∧
      (∀ i, i < b →
        placeAll (m.entries i) (lens m i) (zeroTable ms) = .ok (tableFor m ms i)) := by
  intro b
  induction b with
  | zero =>
    intro _ st' h
    simp only [List.range_zero, List.foldlM, pure, Except.pure, Except.ok.injEq] at h
    subst h
    exact ⟨by simp [subPos], hpos, rfl, rfl, rfl, by omega, by omega⟩
  | succ b ih =>
    intro hb st' h
    rw [List.range_succ, foldlM_append_except] at h
    rcases hInt : (List.range b).foldlM (finishStep m)
        { table := zeroTable ms, header := List.replicate 2048 0,
          pos := m.pos, out := [] } with e | stInt
    · rw [hInt] at h
      exact absurd h (by simp)
    · rw [hInt] at h
      simp only [] at h
      rw [List.foldlM_cons] at h
      obtain ⟨i1, i2, i3, i4, i5, i6, i7⟩ := ih (by omega) stInt hInt
      rcases hstep : finishStep m stInt b with e | st2
      · rw [hstep] at h
        exact absurd h (by simp [bind, Except.bind])
      · rw [hstep] at h
        simp only [bind, Except.bind, List.foldlM, pure, Except.pure,
          Except.ok.injEq] at h
        subst h
        obtain ⟨f1, f2, f3, f4, f5, f6, f7⟩ :=
          finishStep_ok_char m ms b stInt st2 (hms b (by omega)) i5 i2 hstep
        refine ⟨?_, f2, ?_, ?_, f5, ?_, ?_⟩
        · rw [f1, i1]
          unfold subPos
          rw [List.range_succ, List.map_append, List.sum_append]
          simp
          omega
        · rw [f3, i3, i1]
          rfl
        · rw [f4, i4]
          rfl
        · intro i hi
          rcases Nat.lt_or_ge i b with h2 | h2
          · exact i6 i h2
          · have hib : i = b := by omega
            subst hib
            exact f7
        · intro i hi
          rcases Nat.lt_or_ge i b with h2 | h2
          · exact i7 i h2
          · have hib : i = b := by omega
            subst hib
            exact f6

/-- What a successful `finish` produces: the final file bytes and the
per-bucket tables. -/
theorem finish_ok_char (m : CDBMake) (F : List Nat) (hpos : m.pos < U32)
    (h : m.finish = .ok F) :
    F = headerAcc m 256 ++ m.data ++ outAcc m (maxsizeOf m) 256 ∧
    (∀ i, i < 256 → (tableFor m (maxsizeOf m) i).length = maxsizeOf m) ∧
    (∀ i, i < 256 →
      placeAll (m.entries i) (lens m i) (zeroTable (maxsizeOf m)) =
        .ok (tableFor m (maxsizeOf m) i)) ∧
    subPos m 256 < U32 ∧
    maxsizeOf m + countOf m ≤ (U32 - 1) / 8 := by
  unfold CDBMake.finish at h
  simp only [] at h
  split at h
  · exact absurd h (by simp)
  · rename_i hsz
    push_neg at hsz
    rcases hf : (List.range 256).foldlM (finishStep m)
        { table := zeroTable (maxsizeOf m), header := List.replicate 2048 0,
          pos := m.pos, out := [] } with e | st
    · rw [show (List.range 256).foldlM (finishStep m)
          { table := List.replicate ((List.range 256).foldl
              (fun acc i => max acc ((m.entries i).length * 2)) 1) ⟨0, 0⟩,
            header := List.replicate 2048 0, pos := m.pos, out := [] } =
          Except.error e from hf] at h
      exact absurd h (by simp)
    · rw [show (List.range 256).foldlM (finishStep m)
          { table := List.replicate ((List.range 256).foldl
              (fun acc i => max acc ((m.entries i).length * 2)) 1) ⟨0, 0⟩,
            header := List.replicate 2048 0, pos := m.pos, out := [] } =
          Except.ok st from hf] at h
      simp only [Except.ok.injEq] at h
      obtain ⟨i1, i2, i3, i4, i5, i6, i7⟩ :=
        finish_fold_char m (maxsizeOf m) (fun i hi => lens_le_maxsize m i hi)
          hpos 256 (le_refl _) st hf
      refine ⟨?_, i6, i7, ?_, hsz⟩
      · rw [← h, i3, i4]
      · rw [← i1]
        exact i2

/-! ## Characterization of the record-building pass -/

theorem encRecs_cons (r : List Nat × List Nat) (R : List (List Nat × List Nat)) :
    encRecs (r :: R) = encRec r ++ encRecs R := rfl

theorem encRec_length (r : List Nat × List Nat) :
    (encRec r).length = recSize r := by
  unfold encRec recSize
  rw [List.length_append, List.length_append, pack2_length]

theorem add_end_ok_lt (m : CDBMake) (kl dl hsh : Nat) (m' : CDBMake)
    (hkl : kl < U32) (hdl : dl < U32) (hp : m.pos < U32)
    (he : add_end m kl dl hsh = .ok m') : m'.pos < U32 := by
  unfold add_end at he
  rcases hp1 : pos_plus m.pos 8 with e | p1
  · rw [hp1] at he; exact absurd he (by simp)
  · rw [hp1] at he
    simp only [] at he
    rcases hp2 : pos_plus p1 kl with e | p2
    · rw [hp2] at he; exact absurd he (by simp)
    · rw [hp2] at he
      simp only [] at he
      rcases hp3 : pos_plus p2 dl with e | p3
      · rw [hp3] at he; exact absurd he (by simp)
      · rw [hp3] at he
        simp only [Except.ok.injEq] at he
        have l1 := pos_plus_ok_lt _ _ _ hp (by simp [U32]) hp1
        have l2 := pos_plus_ok_lt _ _ _ l1 hkl hp2
        have l3 := pos_plus_ok_lt _ _ _ l2 hdl hp3
        rw [← he]
        exact l3

theorem add_ok_lt (m : CDBMake) (k d : List Nat) (m' : CDBMake)
    (hp : m.pos < U32) (ha : m.add k d = .ok m') : m'.pos < U32 := by
  unfold CDBMake.add at ha
  split at ha
  · exact absurd ha (by simp)
  · rename_i hg
    push_neg at hg
    exact add_end_ok_lt
      { entries := m.entries, pos := m.pos,
        data := m.data ++ pack2 k.length d.length ++ k ++ d }
      k.length d.length (hash k) m'
      (by have := hg.1; simp only [U32] at *; omega)
      (by have := hg.2; simp only [U32] at *; omega) hp ha

/-- What a successful run of `add` over a record list produces, relative to
an arbitrary starting maker. -/
theorem buildFrom_char (R : List (List Nat × List Nat)) :
    ∀ m m', buildFrom m R = .ok m' → m.pos < U32 →
      m'.data = m.data ++ encRecs R ∧
      m'.pos = m.pos + (encRecs R).length ∧ m'.pos < U32 ∧
      (∀ b, m'.entries b = m.entries b ++
        ((annRecs R m.pos).filter fun a => a.1.hash % 256 = b).map Prod.fst) ∧
      (∀ a ∈ annRecs R m.pos, a.2.1.length < U32 - 1 ∧ a.2.2.length < U32 - 1) := by
  induction R with
  | nil =>
    intro m m' h hp
    simp only [buildFrom, List.foldlM, pure, Except.pure, Except.ok.injEq] at h
    subst h
    refine ⟨by simp [encRecs], by simp [encRecs], hp, by simp [annRecs], by simp [annRecs]⟩
  | cons r R ih =>
    intro m m' h hp
    unfold buildFrom at h
    rw [List.foldlM_cons] at h
    rcases ha : m.add r.1 r.2 with e | m1
    · rw [ha] at h
      exact absurd h (by simp [bind, Except.bind])
    · rw [ha] at h
      simp only [bind, Except.bind] at h
      obtain ⟨hkl, hdl, hpos1, hdata1, hent1⟩ := add_ok_char m r.1 r.2 m1 ha
      have hp1 : m1.pos < U32 := add_ok_lt m r.1 r.2 m1 hp ha
      obtain ⟨j1, j2, j3, j4, j5⟩ := ih m1 m' h hp1
      have hpos1' : m1.pos = m.pos + recSize r := by
        rw [hpos1]
        unfold recSize
        omega
      have hann : annRecs (r :: R) m.pos =
          (⟨hash r.1, m.pos⟩, r) :: annRecs R (m.pos + recSize r) := rfl
      refine ⟨?_, ?_, j3, ?_, ?_⟩
      · rw [j1, hdata1, encRecs_cons, List.append_assoc]
      · rw [j2, hpos1, encRecs_cons, List.length_append, encRec_length]
        unfold recSize
        omega
      · intro b
        rw [j4 b, hann, ← hpos1', hent1]
        by_cases hb : hash r.1 % 256 = b
        · rw [Function.update_apply, if_pos hb.symm]
          rw [List.filter_cons, if_pos (by simp [hb])]
          rw [hb]
          simp
        · rw [Function.update_apply, if_neg (fun hc => hb hc.symm)]
          rw [List.filter_cons, if_neg (by simp [hb])]
      · intro a hat
        rw [hann] at hat
        rcases List.mem_cons.mp hat with hhead | hmem
        · subst hhead
          exact ⟨hkl, hdl⟩
        · apply j5
          rw [hpos1']
          exact hmem

/-! ## Decoding the data region -/

/-- Records laid out contiguously in a file region decode correctly at the
positions `annRecs` assigns them. -/
theorem annRecs_good (R : List (List Nat × List Nat)) :
    ∀ p F, slice F p (encRecs R).length = encRecs R →
      p + (encRecs R).length ≤ F.length →
      ∀ a ∈ annRecs R p,
        slice F a.1.pos 8 = pack2 a.2.1.length a.2.2.length ∧
        slice F (a.1.pos + 8) a.2.1.length = a.2.1 ∧
        slice F (a.1.pos + 8 + a.2.1.length) a.2.2.length = a.2.2 ∧
        a.1.hash = hash a.2.1 ∧ p ≤ a.1.pos ∧
        a.1.pos + recSize a.2 ≤ p + (encRecs R).length := by
  induction R with
  | nil =>
    intro p F _ _ a ha
    simp [annRecs] at ha
  | cons r R ih =>
    intro p F hs hb a ha
    have hann : annRecs (r :: R) p = (⟨hash r.1, p⟩, r) :: annRecs R (p + recSize r) := rfl
    rw [hann] at ha
    have hlen : (encRecs (r :: R)).length = recSize r + (encRecs R).length := by
      rw [encRecs_cons, List.length_append, encRec_length]
    have hrec : recSize r = 8 + r.1.length + r.2.length := rfl
    have henc : encRecs (r :: R) =
        pack2 r.1.length r.2.length ++ (r.1 ++ (r.2 ++ encRecs R)) := by
      rw [encRecs_cons]
      unfold encRec
      simp [List.append_assoc]
    rcases List.mem_cons.mp ha with hhead | hmem
    · subst hhead
      dsimp only
      refine ⟨?_, ?_, ?_, rfl, le_refl _, by dsimp only [recSize]; omega⟩
      · rw [slice_take F p 8 (encRecs (r :: R)).length (by omega) (by omega), hs, henc]
        rw [show (8 : Nat) = (pack2 r.1.length r.2.length).length from (pack2_length _ _).symm]
        exact List.take_left _ _
      · rw [slice_shift F p 8 r.1.length (encRecs (r :: R)).length (by omega) (by omega)]
        rw [hs, henc]
        rw [show (8 : Nat) = (pack2 r.1.length r.2.length).length from (pack2_length _ _).symm]
        rw [List.drop_left]
        exact List.take_left _ _
      · rw [show p + 8 + r.1.length = p + (8 + r.1.length) by omega]
        rw [slice_shift F p (8 + r.1.length) r.2.length (encRecs (r :: R)).length
          (by omega) (by omega)]
        rw [hs, henc]
        rw [show List.drop (8 + r.1.length)
            (pack2 r.1.length r.2.length ++ (r.1 ++ (r.2 ++ encRecs R))) =
            r.2 ++ encRecs R by
          rw [← List.drop_drop]
          rw [show (8 : Nat) = (pack2 r.1.length r.2.length).length from (pack2_length _ _).symm]
          rw [List.drop_left, List.drop_left]]
        exact List.take_left _ _
    · have hs' : slice F (p + recSize r) (encRecs R).length = encRecs R := by
        rw [slice_shift F p (recSize r) (encRecs R).length (encRecs (r :: R)).length
          (by omega) (by omega)]
        rw [hs, encRecs_cons]
        rw [show recSize r = (encRec r).length from (encRec_length r).symm]
        rw [List.drop_left]
        exact List.take_length (encRecs R)
      have := ih (p + recSize r) F hs' (by omega) a hmem
      refine ⟨this.1, this.2.1, this.2.2.1, this.2.2.2.1, by
        have := this.2.2.2.2.1; omega, by have := this.2.2.2.2.2; omega⟩

/-! ## The built file -/

theorem unpackAt_of_slice8_lo (F : List Nat) (x a b : Nat)
    (h : slice F x 8 = pack2 a b) (hb : x + 8 ≤ F.length) :
    unpackAt (fileOf F).file x = a % U32 := by
  rw [unpackAt_fileOf]
  rw [slice_take F x 4 8 (by omega) hb, h]
  rw [show (pack2 a b).take 4 = pack a from rfl]
  exact unpackList_pack a

theorem unpackAt_of_slice8_hi (F : List Nat) (x a b : Nat)
    (h : slice F x 8 = pack2 a b) (hb : x + 8 ≤ F.length) :
    unpackAt (fileOf F).file (x + 4) = b % U32 := by
  rw [unpackAt_fileOf]
  rw [slice_shift F x 4 4 8 (by omega) hb, h]
  rw [pack2_drop_four]
  rw [show (pack b).take 4 = pack b from rfl]
  exact unpackList_pack b

theorem subPos_le_subPos (m : CDBMake) (b c : Nat) (h : b ≤ c) :
    subPos m b ≤ subPos m c := by
  unfold subPos
  rcases Nat.lt_or_ge b c with h2 | h2
  · have := range_map_sum_lt (lens m) b c h2
    omega
  · have hbc : b = c := by omega
    subst hbc
    omega

theorem subPos_zero (m : CDBMake) : subPos m 0 = m.pos := by
  simp [subPos]

theorem subPos_succ (m : CDBMake) (b : Nat) :
    subPos m (b + 1) = subPos m b + 8 * lens m b := by
  unfold subPos
  rw [List.range_succ, List.map_append, List.sum_append]
  simp
  omega

/-- Everything the reader's proofs need to know about a file produced by
`buildAll` followed by `finish`. -/
theorem built_file_char (R : List (List Nat × List Nat)) (m : CDBMake)
    (F : List Nat) (hb : buildAll R = .ok m) (hf : m.finish = .ok F) :
    m.data = encRecs R ∧
    m.pos = 2048 + (encRecs R).length ∧ m.pos < U32 ∧
    (∀ b, m.entries b = (bucketPairs R b).map Prod.fst) ∧
    F.length = 2048 + (encRecs R).length + 8 * ((List.range 256).map (lens m)).sum ∧
    F.length < U32 ∧ 2048 ≤ F.length ∧
    (∀ b, b < 256 → unpackAt (fileOf F).file (b * 8) = subPos m b ∧
      unpackAt (fileOf F).file (b * 8 + 4) = lens m b) ∧
    (∀ b, b < 256 → ∀ j, j < lens m b →
      slice F (subPos m b + 8 * j) 8 =
        pack2 ((tableFor m (maxsizeOf m) b).getD j ⟨0, 0⟩).hash
          ((tableFor m (maxsizeOf m) b).getD j ⟨0, 0⟩).pos) ∧
    (∀ b, b < 256 → subPos m b + 8 * lens m b ≤ F.length) ∧
    (∀ a ∈ annRecs R 2048,
      slice F a.1.pos 8 = pack2 a.2.1.length a.2.2.length ∧
      slice F (a.1.pos + 8) a.2.1.length = a.2.1 ∧
      slice F (a.1.pos + 8 + a.2.1.length) a.2.2.length = a.2.2 ∧
      a.1.hash = hash a.2.1 ∧ 2048 ≤ a.1.pos ∧
      a.1.pos + recSize a.2 ≤ 2048 + (encRecs R).length) ∧
    (∀ a ∈ annRecs R 2048, a.2.1.length < U32 - 1 ∧ a.2.2.length < U32 - 1) ∧
    (∀ i, i < 256 → (tableFor m (maxsizeOf m) i).length = maxsizeOf m) ∧
    (∀ i, i < 256 →
      placeAll (m.entries i) (lens m i) (zeroTable (maxsizeOf m)) =
        .ok (tableFor m (maxsizeOf m) i)) ∧
    (∀ b, b < 256 → lens m b < U32) ∧
    slice F 2048 (encRecs R).length = encRecs R := by
  obtain ⟨b1, b2, b3, b4, b5⟩ := buildFrom_char R makeNew m hb (by simp [makeNew, U32])
  have hdata : m.data = encRecs R := by simpa [makeNew] using b1
  have hpos : m.pos = 2048 + (encRecs R).length := by simpa [makeNew] using b2
  have hent : ∀ b, m.entries b = (bucketPairs R b).map Prod.fst := by
    intro b
    have := b4 b
    simpa [makeNew, bucketPairs] using this
  obtain ⟨f1, f2, f3, f4, f5⟩ := finish_ok_char m F b3 hf
  have hms : ∀ b, b < 256 → lens m b ≤ maxsizeOf m := fun b hb => lens_le_maxsize m b hb
  have hlensU : ∀ b, b < 256 → lens m b < U32 := by
    intro b hbb
    have h1 := hms b hbb
    simp only [U32] at *
    omega
  have hTlen : ∀ i, i < 256 → lens m i ≤ (tableFor m (maxsizeOf m) i).length := by
    intro i hi
    rw [f2 i hi]
    exact hms i hi
  have hHlen : (headerAcc m 256).length = 2048 := headerAcc_length m 256 (by omega)
  have hOlen : (outAcc m (maxsizeOf m) 256).length =
      8 * ((List.range 256).map (lens m)).sum :=
    outAcc_length m (maxsizeOf m) 256 (fun i hi => hTlen i hi)
  have hFlen : F.length = 2048 + (encRecs R).length +
      8 * ((List.range 256).map (lens m)).sum := by
    rw [f1, List.length_append, List.length_append, hHlen, hOlen, hdata]
  have hsub256 : subPos m 256 = m.pos + 8 * ((List.range 256).map (lens m)).sum := rfl
  have hFltU : F.length < U32 := by
    rw [hFlen]
    rw [hsub256, hpos] at f4
    omega
  have hF2048 : 2048 ≤ F.length := by omega
  have hsubF : ∀ b, b < 256 → subPos m b + 8 * lens m b ≤ F.length := by
    intro b hbb
    have h1 : subPos m (b + 1) ≤ subPos m 256 := subPos_le_subPos m (b + 1) 256 (by omega)
    rw [subPos_succ] at h1
    rw [hFlen, hsub256, hpos] at *
    omega
  have hHslice : ∀ b, b < 256 → slice F (b * 8) 8 = pack2 (subPos m b) (lens m b) := by
    intro b hbb
    rw [f1]
    rw [slice_append_left _ _ _ _ (by rw [List.length_append, hHlen]; omega)]
    rw [slice_append_left _ _ _ _ (by rw [hHlen]; omega)]
    exact headerAcc_slice m 256 (by omega) b hbb
  have hheader : ∀ b, b < 256 → unpackAt (fileOf F).file (b * 8) = subPos m b ∧
      unpackAt (fileOf F).file (b * 8 + 4) = lens m b := by
    intro b hbb
    have hbnd : b * 8 + 8 ≤ F.length := by omega
    constructor
    · rw [unpackAt_of_slice8_lo F (b * 8) _ _ (hHslice b hbb) hbnd]
      exact Nat.mod_eq_of_lt (lt_of_le_of_lt (subPos_le_subPos m b 256 (by omega)) f4)
    · rw [unpackAt_of_slice8_hi F (b * 8) _ _ (hHslice b hbb) hbnd]
      exact Nat.mod_eq_of_lt (hlensU b hbb)
  have hslot : ∀ b, b < 256 → ∀ j, j < lens m b →
      slice F (subPos m b + 8 * j) 8 =
        pack2 ((tableFor m (maxsizeOf m) b).getD j ⟨0, 0⟩).hash
          ((tableFor m (maxsizeOf m) b).getD j ⟨0, 0⟩).pos := by
    intro b hbb j hj
    rw [f1]
    rw [slice_append_right _ _ _ _ (by
      rw [List.length_append, hHlen, hdata]
      have := subPos_le_subPos m 0 b (by omega)
      rw [subPos_zero, hpos] at this
      omega)]
    rw [List.length_append, hHlen, hdata]
    have hoff : subPos m b + 8 * j - (2048 + (encRecs R).length) =
        8 * ((List.range b).map (lens m)).sum + 8 * j := by
      unfold subPos
      rw [hpos]
      omega
    rw [hoff]
    exact outAcc_slice m (maxsizeOf m) 256 b j hbb hj (fun i hi => hTlen i hi)
  have hdslice : slice F 2048 (encRecs R).length = encRecs R := by
    rw [f1]
    rw [slice_append_left _ _ _ _ (by rw [List.length_append, hHlen, hdata])]
    rw [slice_append_right _ _ _ _ (by rw [hHlen])]
    rw [hHlen, Nat.sub_self, hdata]
    have := slice_all (encRecs R)
    simpa using this
  have hrecs := annRecs_good R 2048 F hdslice (by omega)
  exact ⟨hdata, hpos, b3, hent, hFlen, hFltU, hF2048, hheader, hslot, hsubF,
    hrecs, b5, f2, f3, hlensU, hdslice⟩

/-! ## C8: the empty database -/

theorem collectFind_done_of_no_slots (c : CDB) (s : VState) (hs : s.hslots = 0) :
    ∀ n, collectFind c s n = List.replicate n .done := by
  have hv : vNext c s = (.done, s) := by
    unfold vNext
    rw [hs, Nat.zero_sub]
    rfl
  intro n
  induction n with
  | zero => rfl
  | succ n ih =>
    unfold collectFind
    rw [hv]
    simp [ih, List.replicate_succ]

theorem collectKV_done_of_past_end (c : CDB) (s : KVState)
    (hs : (s.pos + 8) % U32 ≥ s.data_end) :
    ∀ n, collectKV c s n = List.replicate n .done := by
  have hv : kvNext c s = (.done, s) := by
    unfold kvNext
    rw [if_pos hs]
  intro n
  induction n with
  | zero => rfl
  | succ n ih =>
    unfold collectKV
    rw [hv]
    simp [ih, List.replicate_succ]

set_option maxRecDepth 1000000 in
/-- C8: finishing a fresh maker with no `add` calls yields a file of exactly
2048 bytes which passes the open check; iterating it yields no items,
`find` yields no items for every key, and `get` is absent for every key
(src/writer.rs:110-151, src/reader.rs:53-61, 271-286). -/
theorem C8_empty_db :
    makeNew.finish = .ok emptyDb ∧
    emptyDb.length = 2048 ∧
    openOk (fileOf emptyDb) ∧
    (∀ n, collectKV (fileOf emptyDb) (kvInit (fileOf emptyDb)) n =
      List.replicate n .done) ∧
    (∀ key n, collectFind (fileOf emptyDb)
      (findInit (fileOf emptyDb) key) n = List.replicate n .done) ∧
    (∀ key, (fileOf emptyDb).get key = .done) := by
  have hf : makeNew.finish = .ok emptyDb := by rfl
  obtain ⟨hdata, hpos, hposU, hent, hFlen, hFltU, hF2048, hheader, hslot, hsubF,
    hrecs, hbnd, htlen, hplace, hlensU⟩ := built_file_char [] makeNew emptyDb rfl hf
  have hsum0 : ((List.range 256).map (lens makeNew)).sum = 0 := by
    apply List.sum_eq_zero
    intro x hx
    obtain ⟨i, _, rfl⟩ := List.mem_map.mp hx
    simp [lens, makeNew]
  have hlen2048 : emptyDb.length = 2048 := by
    rw [hFlen, hsum0]
    rfl
  have hslots0 : ∀ key, (findInit (fileOf emptyDb) key).hslots = 0 := by
    intro key
    have h0 := (hheader (hash key % 256) (Nat.mod_lt _ (by omega))).2
    have hl0 : lens makeNew (hash key % 256) = 0 := by simp [lens, makeNew]
    rw [hl0] at h0
    exact h0
  refine ⟨hf, hlen2048, ⟨by simp [fileOf, hlen2048], by simp [fileOf, hlen2048]⟩, ?_, ?_, ?_⟩
  · intro n
    apply collectKV_done_of_past_end
    show (2048 + 8) % U32 ≥ min (unpackAt (fileOf emptyDb).file 0) (fileOf emptyDb).size
    have h00 := (hheader 0 (by omega)).1
    rw [show (0 : Nat) * 8 = 0 by omega] at h00
    rw [h00, subPos_zero]
    show (2048 + 8) % U32 ≥ min makeNew.pos emptyDb.length
    rw [hlen2048]
    show 2056 % U32 ≥ min 2048 2048
    decide
  · intro key n
    exact collectFind_done_of_no_slots _ _ (hslots0 key) n
  · intro key
    unfold CDB.get vNext
    rw [hslots0 key]
    rw [show (findInit (fileOf emptyDb) key).kloop = 0 from rfl]
    rfl

/-! ## C6: probe-rule conformance -/

/-- A successful probe visits the slots `(wh + u) % len` in order and
returns the first empty one. -/
theorem probeIdx_spec (T : List HashPos) (len : Nat) :
    ∀ fuel wh s, wh < len → probeIdx T len wh fuel = some s →
      ∃ t, t < fuel ∧ s = (wh + t) % len ∧
        (T.getD ((wh + t) % len) ⟨0, 0⟩).pos = 0 ∧
        ∀ u, u < t → (T.getD ((wh + u) % len) ⟨0, 0⟩).pos ≠ 0 := by
  intro fuel
  induction fuel with
  | zero => intro wh s hwh h; exact absurd h (by simp [probeIdx])
  | succ n ih =>
    intro wh s hwh h
    unfold probeIdx at h
    split at h
    · rename_i hocc
      have hwh1 : (if wh + 1 = len then 0 else wh + 1) < len := by
        split <;> omega
      obtain ⟨t, ht, hs, hemp, hall⟩ := ih _ s hwh1 h
      have hwrap : ∀ u, ((if wh + 1 = len then 0 else wh + 1) + u) % len =
          (wh + 1 + u) % len := by
        intro u
        split
        · rename_i hL
          rw [Nat.zero_add, ← hL]
          rw [show wh + 1 + u = (wh + 1) + u from rfl]
          rw [Nat.add_mod_left]
        · rfl
      refine ⟨t + 1, by omega, ?_, ?_, ?_⟩
      · rw [hs, hwrap t]
        congr 1
        omega
      · rw [show wh + (t + 1) = wh + 1 + t by omega, ← hwrap t]
        exact hemp
      · intro u hu
        cases u with
        | zero =>
          rw [Nat.add_zero, Nat.mod_eq_of_lt hwh]
          simpa using hocc
        | succ u =>
          rw [show wh + (u + 1) = wh + 1 + u by omega, ← hwrap u]
          exact hall u (by omega)
    · rename_i hocc
      simp only [Option.some.injEq] at h
      subst h
      refine ⟨0, by omega, by rw [Nat.add_zero, Nat.mod_eq_of_lt hwh], ?_, by omega⟩
      rw [Nat.add_zero, Nat.mod_eq_of_lt hwh]
      simpa using hocc

/-- The probe advance of the `find` iterator, as an index step. -/
theorem bump_char (s : VState) (i : Nat) (hi : i < s.hslots)
    (hk : s.kpos = s.hpos + 8 * i) (hov : s.hpos + 8 * s.hslots < U32) :
    (bump s).kpos = s.hpos + 8 * ((i + 1) % s.hslots) ∧
    (bump s).kloop = s.kloop + 1 ∧ (bump s).hpos = s.hpos ∧
    (bump s).hslots = s.hslots ∧ (bump s).khash = s.khash ∧
    (bump s).key = s.key := by
  unfold bump
  simp only []
  have hm : s.hslots * 8 % U32 = s.hslots * 8 := Nat.mod_eq_of_lt (by omega)
  have hk8 : (s.kpos + 8) % U32 = s.hpos + 8 * i + 8 := by
    rw [hk]
    exact Nat.mod_eq_of_lt (by omega)
  by_cases hc : i + 1 = s.hslots
  · rw [if_pos (by rw [hk8, hm]; omega)]
    refine ⟨?_, rfl, rfl, rfl, rfl, rfl⟩
    rw [← hc]
    simp
  · rw [if_neg (by rw [hk8, hm]; omega)]
    refine ⟨?_, rfl, rfl, rfl, rfl, rfl⟩
    show (s.kpos + 8) % U32 = s.hpos + 8 * ((i + 1) % s.hslots)
    rw [hk8, Nat.mod_eq_of_lt (show i + 1 < s.hslots by omega)]
    ring

/-- C6: probe-rule conformance.  The writer's `finish` places an entry at
the first slot with `pos == 0` along `(h >> 8) % len, +1, ...` wrapping at
`len`; the reader's `find` starts at `hpos + 8 * ((h >> 8) % hslots)`,
advances one slot at a time wrapping back to `hpos`, stops at the first
slot whose record offset is 0, and stops after at most `hslots` probes
(src/reader.rs:73-82 and 229-258, src/writer.rs:127-135). -/
theorem C6_probe_conformance :
    (∀ len T e T', place len T e = .ok T' →
      ∃ t, t < len ∧
        (∀ u, u < t → (T.getD ((e.hash / 256 % len + u) % len) ⟨0, 0⟩).pos ≠ 0) ∧
        (T.getD ((e.hash / 256 % len + t) % len) ⟨0, 0⟩).pos = 0 ∧
        T' = T.set ((e.hash / 256 % len + t) % len) e) ∧
    (∀ c key hpos hslots,
      (CDB.hash_table c (hash key)).1 = hpos →
      (CDB.hash_table c (hash key)).2.1 = hslots →
      0 < hslots → hpos + 8 * hslots < U32 →
      (findInit c key).kpos = hpos + 8 * (hash key / 256 % hslots)) ∧
    (∀ s i, i < s.hslots → s.kpos = s.hpos + 8 * i →
      s.hpos + 8 * s.hslots < U32 →
      (bump s).kpos = s.hpos + 8 * ((i + 1) % s.hslots) ∧
      (bump s).kloop = s.kloop + 1) ∧
    (∀ c s buf, s.kloop < s.hslots → c.read s.kpos 8 = .ok buf →
      unpackList (buf.drop 4) = 0 → vNext c s = (.done, s)) ∧
    (∀ c s, s.hslots ≤ s.kloop → vNext c s = (.done, s)) := by
  refine ⟨?_, ?_, ?_, ?_, ?_⟩
  · intro len T e T' h
    obtain ⟨s, hs, hemp, hset, hprobe⟩ := place_ok_char len T e T' h
    have hwh : e.hash / 256 % len < len := Nat.mod_lt _ (by omega)
    obtain ⟨t, ht, hst, hemp2, hall⟩ := probeIdx_spec T len len _ s hwh hprobe
    exact ⟨t, ht, hall, hemp2, by rw [hset, hst]⟩
  · intro c key hpos hslots h1 h2 hpos0 hov
    have hfi : (findInit c key).kpos = (CDB.hash_table c (hash key)).2.2 := rfl
    rw [hfi]
    unfold CDB.hash_table at h1 h2 ⊢
    simp only [] at h1 h2 ⊢
    rw [h1, h2]
    rw [if_pos hpos0]
    have hx : hash key / 256 % hslots < hslots := Nat.mod_lt _ hpos0
    rw [Nat.mod_eq_of_lt (show hash key / 256 % hslots * 8 < U32 by omega)]
    rw [Nat.mod_eq_of_lt (by omega)]
    omega
  · intro s i hi hk hov
    exact ⟨(bump_char s i hi hk hov).1, (bump_char s i hi hk hov).2.1⟩
  · intro c s buf hk hr hp0
    unfold vNext
    rw [show s.hslots - s.kloop = (s.hslots - s.kloop - 1) + 1 by omega]
    unfold vNextAux
    rw [if_pos hk, hr]
    simp only []
    rw [if_pos hp0]
  · intro c s h
    unfold vNext
    rw [show s.hslots - s.kloop = 0 by omega]
    rfl

/-- Witness for C6 at concrete tables, files and states. -/
theorem C6_witness :
    ((∃ t, t < 2 ∧
      (∀ u, u < t →
        ((zeroTable 2).getD (((⟨5, 2048⟩ : HashPos).hash / 256 % 2 + u) % 2) ⟨0, 0⟩).pos ≠ 0) ∧
      ((zeroTable 2).getD (((⟨5, 2048⟩ : HashPos).hash / 256 % 2 + t) % 2) ⟨0, 0⟩).pos = 0 ∧
      (zeroTable 2).set 0 ⟨5, 2048⟩ =
        (zeroTable 2).set (((⟨5, 2048⟩ : HashPos).hash / 256 % 2 + t) % 2) ⟨5, 2048⟩) ∧
    (findInit probeFile []).kpos = 0 + 8 * (hash [] / 256 % 2) ∧
    ((bump ⟨[], 0, 0, 0, 0, 2⟩).kpos = (0 : Nat) + 8 * ((0 + 1) % 2) ∧
      (bump ⟨[], 0, 0, 0, 0, 2⟩).kloop = 0 + 1) ∧
    vNext zeroFile ⟨[], 0, 0, 0, 0, 2⟩ = (.done, ⟨[], 0, 0, 0, 0, 2⟩) ∧
    vNext zeroFile ⟨[], 0, 5, 0, 0, 5⟩ = (.done, ⟨[], 0, 5, 0, 0, 5⟩)) :=
  ⟨C6_probe_conformance.1 2 (zeroTable 2) ⟨5, 2048⟩ ((zeroTable 2).set 0 ⟨5, 2048⟩)
      (by rfl),
    C6_probe_conformance.2.1 probeFile [] 0 2 (by decide) (by decide) (by decide)
      (by decide),
    C6_probe_conformance.2.2.1 ⟨[], 0, 0, 0, 0, 2⟩ 0 (by decide) (by decide) (by decide),
    C6_probe_conformance.2.2.2.1 zeroFile ⟨[], 0, 0, 0, 0, 2⟩
      ((List.range 8).map fun i => zeroFile.file (0 + i)) (by decide) (by rfl)
      (by decide),
    C6_probe_conformance.2.2.2.2 zeroFile ⟨[], 0, 5, 0, 0, 5⟩ (by decide)⟩

/-! ## C1: sequential round trip -/

/-- Reading a range of bytes through the `fileOf` view gives the slice. -/
theorem map_range_fileOf (F : List Nat) (q n : Nat) (h : q + n ≤ F.length) :
    (List.range n).map (fun i => (fileOf F).file (q + i)) = slice F q n := by
  have hr := read_fileOf F q n h
  unfold CDB.read at hr
  rw [if_neg (by show ¬ F.length < q + n; omega)] at hr
  injection hr

/-- One `next()` call of the sequential iterator on a well-formed record,
stated with the body's raw offset arithmetic: both guards pass and the call
yields the key and value bytes and advances `pos` past the record. -/
theorem kvNext_yield (c : CDB) (p de kl vl : Nat)
    (hkl : unpackAt c.file p = kl)
    (hvl : unpackAt c.file (p + 4) = vl)
    (hlt : p + 8 < de) (htot : p + 8 + kl + vl ≤ de) (hde : de ≤ c.size)
    (hU : c.size < U32) :
    kvNext c ⟨p, de⟩ =
      (.yield ((List.range (unpackAt c.file p)).map
          fun i => c.file ((p + 8) % U32 + i))
        ((List.range (unpackAt c.file (p + 4))).map
          fun i => c.file ((p + 8) % U32 + unpackAt c.file p + i)),
       ⟨(p + 8 + unpackAt c.file p + unpackAt c.file (p + 4)) % U32, de⟩) := by
  unfold kvNext
  simp only []
  rw [if_neg (by rw [Nat.mod_eq_of_lt (show p + 8 < U32 by omega)]; omega)]
  rw [if_neg (by omega)]
  rw [if_neg (by
    rw [hkl, hvl, Nat.min_eq_left (show p + 8 ≤ U32 - 1 by omega),
      Nat.min_eq_left (show p + 8 + kl ≤ U32 - 1 by omega),
      Nat.min_eq_left (show p + 8 + kl + vl ≤ U32 - 1 by omega)]
    omega)]
  rw [if_neg (by rw [hkl, Nat.mod_eq_of_lt (show p + 8 < U32 by omega)]; omega)]
  rw [if_neg (by rw [hkl, hvl, Nat.mod_eq_of_lt (show p + 8 < U32 by omega)]; omega)]

/-- The same step with the decoded lengths substituted and the wrapping
arithmetic discharged. -/
theorem kvNext_yield_clean (c : CDB) (p de kl vl : Nat)
    (hkl : unpackAt c.file p = kl)
    (hvl : unpackAt c.file (p + 4) = vl)
    (hlt : p + 8 < de) (htot : p + 8 + kl + vl ≤ de) (hde : de ≤ c.size)
    (hU : c.size < U32) :
    kvNext c ⟨p, de⟩ =
      (.yield ((List.range kl).map fun i => c.file (p + 8 + i))
        ((List.range vl).map fun i => c.file (p + 8 + kl + i)),
       ⟨p + 8 + kl + vl, de⟩) := by
  have hstep := kvNext_yield c p de kl vl hkl hvl hlt htot hde hU
  rw [hkl, hvl, Nat.mod_eq_of_lt (show p + 8 < U32 by omega),
    Nat.mod_eq_of_lt (show p + 8 + kl + vl < U32 by omega)] at hstep
  exact hstep

/-- Running the sequential iterator over a region that holds exactly the
encoded records of `R` (with `data_end` at the region's end and a non-empty
final record) yields the records in order and then `None`. -/
theorem kv_run (F : List Nat) (de : Nat) (hde : de ≤ F.length)
    (hU : F.length < U32) (hde8 : de + 8 < U32) :
    ∀ R p, p + (encRecs R).length = de →
      slice F p (encRecs R).length = encRecs R →
      (∀ r, R.getLast? = some r → 0 < r.1.length + r.2.length) →
      collectKV (fileOf F) ⟨p, de⟩ (R.length + 1) =
        R.map (fun r => KVStep.yield r.1 r.2) ++ [KVStep.done] := by
  intro R
  induction R with
  | nil =>
    intro p hp _ _
    have hpde : p = de := by simpa [encRecs] using hp
    subst hpde
    have hk : kvNext (fileOf F) ⟨p, p⟩ = (.done, ⟨p, p⟩) := by
      unfold kvNext
      dsimp only
      rw [if_pos (by rw [Nat.mod_eq_of_lt (show p + 8 < U32 by omega)]; omega)]
    simp [collectKV, hk]
  | cons r R ih =>
    intro p hp hs hlast
    have hlen : (encRecs (r :: R)).length = recSize r + (encRecs R).length := by
      rw [encRecs_cons, List.length_append, encRec_length]
    have hrec : recSize r = 8 + r.1.length + r.2.length := rfl
    have hp' := hp
    rw [hlen, hrec] at hp'
    have hbF : p + (encRecs (r :: R)).length ≤ F.length := by omega
    have henc : encRecs (r :: R) =
        pack2 r.1.length r.2.length ++ (r.1 ++ (r.2 ++ encRecs R)) := by
      rw [encRecs_cons]
      unfold encRec
      simp [List.append_assoc]
    have hlt : p + 8 < de := by
      rcases R with _ | ⟨r2, R2⟩
      · have h0 := hlast r (by simp)
        have hz : (encRecs ([] : List (List Nat × List Nat))).length = 0 := by
          simp [encRecs]
        omega
      · have h8 : 8 ≤ (encRecs (r2 :: R2)).length := by
          rw [encRecs_cons, List.length_append, encRec_length]
          dsimp only [recSize]
          omega
        omega
    have hs8 : slice F p 8 = pack2 r.1.length r.2.length := by
      rw [slice_take F p 8 (encRecs (r :: R)).length (by rw [hlen, hrec]; omega) hbF,
        hs, henc]
      rw [show (8 : Nat) = (pack2 r.1.length r.2.length).length from
        (pack2_length _ _).symm]
      exact List.take_left _ _
    have hsk : slice F (p + 8) r.1.length = r.1 := by
      rw [slice_shift F p 8 r.1.length (encRecs (r :: R)).length
        (by rw [hlen, hrec]; omega) hbF]
      rw [hs, henc]
      rw [show (8 : Nat) = (pack2 r.1.length r.2.length).length from
        (pack2_length _ _).symm]
      rw [List.drop_left]
      exact List.take_left _ _
    have hsv : slice F (p + 8 + r.1.length) r.2.length = r.2 := by
      rw [show p + 8 + r.1.length = p + (8 + r.1.length) by omega]
      rw [slice_shift F p (8 + r.1.length) r.2.length (encRecs (r :: R)).length
        (by rw [hlen, hrec]; omega) hbF]
      rw [hs, henc]
      rw [show List.drop (8 + r.1.length)
          (pack2 r.1.length r.2.length ++ (r.1 ++ (r.2 ++ encRecs R))) =
          r.2 ++ encRecs R by
        rw [← List.drop_drop]
        rw [show (8 : Nat) = (pack2 r.1.length r.2.length).length from
          (pack2_length _ _).symm]
        rw [List.drop_left, List.drop_left]]
      exact List.take_left _ _
    have hs' : slice F (p + recSize r) (encRecs R).length = encRecs R := by
      rw [slice_shift F p (recSize r) (encRecs R).length (encRecs (r :: R)).length
        (by omega) hbF]
      rw [hs, encRecs_cons]
      rw [show recSize r = (encRec r).length from (encRec_length r).symm]
      rw [List.drop_left]
      exact List.take_length (encRecs R)
    have hk : unpackAt (fileOf F).file p = r.1.length := by
      rw [unpackAt_of_slice8_lo F p _ _ hs8 (by omega)]
      exact Nat.mod_eq_of_lt (by omega)
    have hv : unpackAt (fileOf F).file (p + 4) = r.2.length := by
      rw [unpackAt_of_slice8_hi F p _ _ hs8 (by omega)]
      exact Nat.mod_eq_of_lt (by omega)
    have hstep := kvNext_yield_clean (fileOf F) p de r.1.length r.2.length hk hv hlt
      (by omega) hde hU
    have hkey : (List.range r.1.length).map (fun i => (fileOf F).file (p + 8 + i)) =
        r.1 := by
      rw [map_range_fileOf F (p + 8) r.1.length (by omega), hsk]
    have hval : (List.range r.2.length).map
        (fun i => (fileOf F).file (p + 8 + r.1.length + i)) = r.2 := by
      rw [map_range_fileOf F (p + 8 + r.1.length) r.2.length (by omega), hsv]
    have hlast' : ∀ r', R.getLast? = some r' → 0 < r'.1.length + r'.2.length := by
      intro r' h'
      apply hlast
      rcases R with _ | ⟨r2, R2⟩
      · simp at h'
      · rw [List.getLast?_cons_cons]
        exact h'
    have hnext : p + recSize r + (encRecs R).length = de := by
      rw [hrec]
      omega
    have hcoll := ih (p + recSize r) hnext hs' hlast'
    show collectKV (fileOf F) ⟨p, de⟩ (R.length + 1 + 1) =
      KVStep.yield r.1 r.2 :: (R.map (fun x => KVStep.yield x.1 x.2) ++ [KVStep.done])
    unfold collectKV
    simp only []
    rw [hstep]
    simp only []
    rw [hkey, hval]
    rw [show p + 8 + r.1.length + r.2.length = p + recSize r by rw [hrec]; omega]
    rw [hcoll]

/-- C1 (amended): round trip for the sequential iterator.  For a record
sequence whose last record (if any) has a non-empty key or value, building
a file with `add` for each record and `finish`, then iterating it with
`iter()`, yields exactly the records in insertion order followed by `None`,
with no error.  (A final record with empty key and empty value is silently
dropped by the `pos + 8 >= data_end` guard at src/reader.rs:285.) -/
theorem C1_round_trip (R : List (List Nat × List Nat)) (m : CDBMake) (F : List Nat)
    (hb : buildAll R = .ok m) (hf : m.finish = .ok F)
    (hlast : ∀ r, R.getLast? = some r → 0 < r.1.length + r.2.length) :
    collectKV (fileOf F) (kvInit (fileOf F)) (R.length + 1) =
      R.map (fun r => KVStep.yield r.1 r.2) ++ [KVStep.done] := by
  obtain ⟨hdata, hpos, hposU, hent, hFlen, hFU, hF2048, hheader, hslot, hsubF, hrecs,
    hlb, htlen, hplace, hlensU, hdslice⟩ := built_file_char R m F hb hf
  have hsub0 : unpackAt (fileOf F).file 0 = subPos m 0 := by
    have := (hheader 0 (by omega)).1
    simpa using this
  have hposF : m.pos ≤ F.length := by
    rw [hpos, hFlen]
    omega
  have hde : kvInit (fileOf F) = ⟨2048, m.pos⟩ := by
    show (⟨2048, min (unpackAt (fileOf F).file 0) (fileOf F).size⟩ : KVState) =
      ⟨2048, m.pos⟩
    rw [hsub0, subPos_zero]
    rw [show (fileOf F).size = F.length from rfl]
    rw [Nat.min_eq_left hposF]
  have hde8 : m.pos + 8 < U32 := by
    rcases R with _ | ⟨r, R0⟩
    · have hz : (encRecs ([] : List (List Nat × List Nat))).length = 0 := by
        simp [encRecs]
      rw [hpos, hz]
      simp [U32]
    · have hbb : hash r.1 % 256 < 256 := Nat.mod_lt _ (by omega)
      have hne : m.entries (hash r.1 % 256) ≠ [] := by
        rw [hent]
        unfold bucketPairs
        rw [show annRecs (r :: R0) 2048 =
          (⟨hash r.1, 2048⟩, r) :: annRecs R0 (2048 + recSize r) from rfl]
        rw [List.filter_cons, if_pos (by simp)]
        simp
      have h2 : 2 ≤ lens m (hash r.1 % 256) := by
        unfold lens
        have := List.length_pos.mpr hne
        omega
      have hsum : lens m (hash r.1 % 256) ≤ ((List.range 256).map (lens m)).sum := by
        have := range_map_sum_lt (lens m) (hash r.1 % 256) 256 hbb
        omega
      rw [hFlen] at hFU
      rw [hpos]
      omega
  rw [hde]
  have hposde : 2048 + (encRecs R).length = m.pos := hpos.symm
  exact kv_run F m.pos hposF hFU hde8 R 2048 hposde hdslice hlast

set_option maxRecDepth 1000000 in
set_option maxHeartbeats 4000000 in
/-- Witness for C1 on the one-record input `c1R`. -/
theorem C1_witness :
    buildAll c1R = .ok c1Maker ∧ c1Maker.finish = .ok c1File ∧
    collectKV (fileOf c1File) (kvInit (fileOf c1File)) (c1R.length + 1) =
      c1R.map (fun r => KVStep.yield r.1 r.2) ++ [KVStep.done] :=
  ⟨rfl, rfl, C1_round_trip c1R c1Maker c1File rfl rfl (by simp [c1R])⟩

set_option maxRecDepth 1000000 in
set_option maxHeartbeats 4000000 in
/-- C1 counterexample: building from the single record `([], [])` and
iterating yields no records at all — the trailing empty record is dropped
by the `pos + 8 >= data_end` guard (src/reader.rs:285), so iteration does
not return the records of `R`. -/
theorem C1_counterexample :
    buildAll c1BadR = .ok c1BadMaker ∧ c1BadMaker.finish = .ok c1BadFile ∧
    collectKV (fileOf c1BadFile) (kvInit (fileOf c1BadFile)) 2 =
      [KVStep.done, KVStep.done] ∧
    [KVStep.done, KVStep.done] ≠
      c1BadR.map (fun r => KVStep.yield r.1 r.2) ++ [KVStep.done] := by
  have hb : buildAll c1BadR = .ok c1BadMaker := rfl
  have hf : c1BadMaker.finish = .ok c1BadFile := rfl
  obtain ⟨hdata, hpos, hposU, hent, hFlen, hFU, hF2048, hheader, hslot, hsubF, hrecs,
    hlb, htlen, hplace, hlensU, hdslice⟩ :=
    built_file_char c1BadR c1BadMaker c1BadFile hb hf
  have hposv : c1BadMaker.pos = 2056 := by
    rw [hpos]
    rfl
  have hsub0 : unpackAt (fileOf c1BadFile).file 0 = subPos c1BadMaker 0 := by
    have := (hheader 0 (by omega)).1
    simpa using this
  have hposF : c1BadMaker.pos ≤ c1BadFile.length := by
    rw [hpos, hFlen]
    omega
  have hde : kvInit (fileOf c1BadFile) = ⟨2048, 2056⟩ := by
    show (⟨2048, min (unpackAt (fileOf c1BadFile).file 0)
      (fileOf c1BadFile).size⟩ : KVState) = ⟨2048, 2056⟩
    rw [hsub0, subPos_zero, hposv]
    rw [show (fileOf c1BadFile).size = c1BadFile.length from rfl]
    rw [Nat.min_eq_left (by rw [← hposv]; exact hposF)]
  have hcoll := collectKV_done_of_past_end (fileOf c1BadFile) ⟨2048, 2056⟩ (by decide) 2
  refine ⟨hb, hf, ?_, by decide⟩
  rw [hde, hcoll]
  rfl

/-! ## C2: helper lemmas -/

theorem hash_foldl_lt :
    ∀ l : List Nat, IsBytes l → ∀ acc, acc < U32 →
      l.foldl (fun h b => (h * 33 % U32) ^^^ b) acc < U32 := by
  intro l
  induction l with
  | nil =>
    intro _ acc hacc
    simpa using hacc
  | cons b l ih =>
    intro h acc hacc
    rw [List.foldl_cons]
    refine ih (fun x hx => h x (List.mem_cons_of_mem _ hx)) _ ?_
    have hb : b < 256 := h b (List.mem_cons_self _ _)
    have hp : (2 : Nat) ^ 32 = U32 := by norm_num [U32]
    have h1 : acc * 33 % U32 < U32 := Nat.mod_lt _ (by norm_num [U32])
    have h2 : (acc * 33 % U32) ^^^ b < 2 ^ 32 :=
      Nat.xor_lt_two_pow (by omega) (by omega)
    omega

theorem hash_lt (k : List Nat) (h : IsBytes k) : hash k < U32 :=
  hash_foldl_lt k h 5381 (by norm_num [U32])

theorem unpackList_slice_eight (F : List Nat) (p : Nat) :
    unpackList (slice F p 8) = unpackAt (fileOf F).file p := by
  rw [unpackAt_fileOf]
  unfold unpackList
  rw [getD_slice F p 8 0 (by omega), getD_slice F p 8 1 (by omega),
    getD_slice F p 8 2 (by omega), getD_slice F p 8 3 (by omega),
    getD_slice F p 4 0 (by omega), getD_slice F p 4 1 (by omega),
    getD_slice F p 4 2 (by omega), getD_slice F p 4 3 (by omega)]

theorem slice_drop_four (F : List Nat) (p : Nat) (h : p + 8 ≤ F.length) :
    (slice F p 8).drop 4 = slice F (p + 4) 4 := by
  rw [slice_shift F p 4 4 8 (by omega) h]
  exact (List.take_of_length_le
    (by rw [List.length_drop, slice_length F p 8 h])).symm

theorem slice_split (F : List Nat) (p n L : Nat) (hn : n ≤ L)
    (hb : p + L ≤ F.length) :
    slice F p L = slice F p n ++ slice F (p + n) (L - n) := by
  have h1 : slice F p n = (slice F p L).take n := slice_take F p n L hn hb
  have h2 : slice F (p + n) (L - n) = ((slice F p L).drop n).take (L - n) :=
    slice_shift F p n (L - n) L (by omega) hb
  have h3 : ((slice F p L).drop n).take (L - n) = (slice F p L).drop n :=
    List.take_of_length_le (by rw [List.length_drop, slice_length F p L hb])
  rw [h1, h2, h3]
  exact (List.take_append_drop n (slice F p L)).symm

theorem add_mod_inj (len wh u v : Nat) (hu : u < len) (hv : v < len)
    (h : (wh + u) % len = (wh + v) % len) : u = v := by
  have h1 : u % len = v % len := Nat.ModEq.add_left_cancel' wh h
  rwa [Nat.mod_eq_of_lt hu, Nat.mod_eq_of_lt hv] at h1

theorem VState_ext (s1 s2 : VState) (h1 : s1.key = s2.key)
    (h2 : s1.khash = s2.khash) (h3 : s1.kloop = s2.kloop) (h4 : s1.kpos = s2.kpos)
    (h5 : s1.hpos = s2.hpos) (h6 : s1.hslots = s2.hslots) : s1 = s2 := by
  cases s1
  cases s2
  simp_all

theorem filter_of_map {α β : Type} (f : α → β) (p : β → Bool) (l : List α) :
    (l.map f).filter p = (l.filter (fun a => p (f a))).map f := by
  induction l with
  | nil => rfl
  | cons a l ih =>
    rw [List.map_cons, List.filter_cons, List.filter_cons]
    by_cases h : p (f a) = true
    · rw [if_pos h, if_pos h, List.map_cons, ih]
    · rw [if_neg h, if_neg h, ih]

theorem getD_set_self (L : List HashPos) (s : Nat) (e : HashPos)
    (h : s < L.length) : (L.set s e).getD s ⟨0, 0⟩ = e := by
  rw [List.getD_eq_getElem _ _ (by simpa using h)]
  simp

theorem getD_set_other (L : List HashPos) (s j : Nat) (e : HashPos) (h : j ≠ s) :
    (L.set s e).getD j ⟨0, 0⟩ = L.getD j ⟨0, 0⟩ := by
  rcases Nat.lt_or_ge j L.length with hj | hj
  · rw [List.getD_eq_getElem _ _ (by simpa using hj), List.getD_eq_getElem _ _ hj]
    exact List.getElem_set_ne (show s ≠ j from fun hc => h hc.symm) _
  · rw [List.getD_eq_default _ _ (by simpa using hj), List.getD_eq_default _ _ hj]

theorem take_set_lt (T : List HashPos) (s : Nat) (e : HashPos) (len : Nat)
    (hs : s < len) : (T.set s e).take len = (T.take len).set s e := by
  rcases Nat.lt_or_ge s T.length with hT | hT
  · apply List.ext_getElem
    · simp
    · intro i h1 h2
      simp only [List.length_take, List.length_set] at h1
      have hilen : i < len := by omega
      have hiT : i < T.length := by omega
      rw [List.getElem_take]
      by_cases hi : i = s
      · subst hi
        rw [List.getElem_set_self, List.getElem_set_self]
      · rw [List.getElem_set_ne (show s ≠ i from fun hc => hi hc.symm),
          List.getElem_set_ne (show s ≠ i from fun hc => hi hc.symm),
          List.getElem_take]
  · rw [List.set_eq_of_length_le (by omega)]
    rw [List.set_eq_of_length_le (by simp; omega)]

theorem filter_set_perm (L : List HashPos) :
    ∀ s e, s < L.length → (L.getD s ⟨0, 0⟩).pos = 0 → e.pos ≠ 0 →
      ((L.set s e).filter (fun x => decide (x.pos ≠ 0))).Perm
        (e :: L.filter (fun x => decide (x.pos ≠ 0))) := by
  induction L with
  | nil =>
    intro s e hs _ _
    simp at hs
  | cons x tl ih =>
    intro s e hs h0 he
    cases s with
    | zero =>
      have hx : x.pos = 0 := h0
      rw [List.set_cons_zero, List.filter_cons, List.filter_cons]
      rw [if_pos (show decide (e.pos ≠ 0) = true by simpa using he)]
      rw [if_neg (show ¬decide (x.pos ≠ 0) = true by simp [hx])]
    | succ s =>
      have hs' : s < tl.length := by simpa using hs
      have h0' : (tl.getD s ⟨0, 0⟩).pos = 0 := h0
      rw [List.set_cons_succ, List.filter_cons, List.filter_cons]
      by_cases hx : decide (x.pos ≠ 0) = true
      · rw [if_pos hx, if_pos hx]
        exact (List.Perm.cons x (ih s e hs' h0' he)).trans (List.Perm.swap e x _)
      · rw [if_neg hx, if_neg hx]
        exact ih s e hs' h0' he

theorem annRecs_pos_ge (R : List (List Nat × List Nat)) :
    ∀ p a, a ∈ annRecs R p → p ≤ a.1.pos := by
  induction R with
  | nil =>
    intro p a ha
    simp [annRecs] at ha
  | cons r R ih =>
    intro p a ha
    rcases List.mem_cons.mp ha with h | h
    · subst h
      exact le_refl _
    · have := ih (p + recSize r) a h
      omega

theorem annRecs_pairwise (R : List (List Nat × List Nat)) :
    ∀ p, (annRecs R p).Pairwise (fun a b => a.1.pos < b.1.pos) := by
  induction R with
  | nil =>
    intro p
    simp [annRecs]
  | cons r R ih =>
    intro p
    rw [show annRecs (r :: R) p =
      (⟨hash r.1, p⟩, r) :: annRecs R (p + recSize r) from rfl]
    refine List.Pairwise.cons ?_ (ih _)
    intro a ha
    have h1 := annRecs_pos_ge R (p + recSize r) a ha
    have hr : 0 < recSize r := by
      dsimp only [recSize]
      omega
    dsimp only
    omega

theorem annRecs_filter_values (k : List Nat) (R : List (List Nat × List Nat)) :
    ∀ p, ((annRecs R p).filter (fun a => decide (a.2.1 = k))).map (fun a => a.2.2) =
      valuesOf R k := by
  induction R with
  | nil =>
    intro p
    rfl
  | cons r R ih =>
    intro p
    rw [show annRecs (r :: R) p =
      (⟨hash r.1, p⟩, r) :: annRecs R (p + recSize r) from rfl]
    rw [List.filter_cons]
    show _ = valuesOf (r :: R) k
    unfold valuesOf
    rw [List.filter_cons]
    by_cases h : r.1 = k
    · rw [if_pos (by simpa using h), if_pos (by simpa using h)]
      rw [List.map_cons, List.map_cons]
      have := ih (p + recSize r)
      unfold valuesOf at this
      rw [this]
    · rw [if_neg (by simpa using h), if_neg (by simpa using h)]
      have := ih (p + recSize r)
      unfold valuesOf at this
      rw [this]

theorem matchKeyAux_char (F : List Nat) (key : List Nat) :
    ∀ fuel pos keypos len, len ≤ fuel → keypos + len = key.length →
      pos + len ≤ F.length → F.length < U32 →
      matchKeyAux (fileOf F) key fuel pos keypos len =
        .ok (decide (slice F pos len = key.drop keypos)) := by
  intro fuel
  induction fuel with
  | zero =>
    intro pos keypos len hlf hkl hb hU
    have hl0 : len = 0 := by omega
    subst hl0
    rw [show key.drop keypos = [] from List.drop_eq_nil_of_le (by omega)]
    rfl
  | succ f ih =>
    intro pos keypos len hlf hkl hb hU
    unfold matchKeyAux
    by_cases hl0 : len = 0
    · rw [if_pos hl0]
      subst hl0
      rw [show key.drop keypos = [] from List.drop_eq_nil_of_le (by omega)]
      rfl
    · rw [if_neg hl0]
      have hn1 : 1 ≤ min len 32 := by omega
      have hnlen : min len 32 ≤ len := Nat.min_le_left _ _
      have hread : (fileOf F).read pos (min len 32) = .ok (slice F pos (min len 32)) :=
        read_fileOf F pos (min len 32) (by omega)
      simp only []
      rw [hread]
      simp only []
      by_cases hc : slice F pos (min len 32) = (key.drop keypos).take (min len 32)
      · rw [if_neg (by simpa using hc)]
        rw [Nat.mod_eq_of_lt (show pos + min len 32 < U32 by omega)]
        rw [ih (pos + min len 32) (keypos + min len 32) (len - min len 32)
          (by omega) (by omega) (by omega) hU]
        congr 1
        apply decide_eq_decide.mpr
        have hsp : slice F pos len =
            slice F pos (min len 32) ++ slice F (pos + min len 32) (len - min len 32) :=
          slice_split F pos (min len 32) len hnlen hb
        have hks : key.drop keypos =
            (key.drop keypos).take (min len 32) ++ key.drop (keypos + min len 32) := by
          conv_lhs => rw [← List.take_append_drop (min len 32) (key.drop keypos)]
          rw [List.drop_drop]
        constructor
        · intro h
          rw [hsp, hks, hc]
          exact congrArg _ h
        · intro h
          rw [hsp, hks, hc] at h
          exact List.append_cancel_left h
      · rw [if_pos (by simpa using hc)]
        have hne : ¬(slice F pos len = key.drop keypos) := by
          intro heq
          apply hc
          have h1 := congrArg (List.take (min len 32)) heq
          rw [← slice_take F pos (min len 32) len hnlen hb] at h1
          exact h1
        simp [hne]

theorem match_key_char (F : List Nat) (k : List Nat) (pos : Nat)
    (hb : pos + k.length ≤ F.length) (hU : F.length < U32) :
    (fileOf F).match_key k pos = .ok (decide (slice F pos k.length = k)) := by
  unfold CDB.match_key
  rw [matchKeyAux_char F k k.length pos 0 k.length (le_refl _) (by omega) hb hU]
  rw [List.drop_zero]

theorem stopDist_ge (T : List HashPos) (len wh : Nat) :
    ∀ f i, i ≤ stopDist T len wh i f := by
  intro f
  induction f with
  | zero =>
    intro i
    exact le_refl _
  | succ f ih =>
    intro i
    unfold stopDist
    split
    · exact le_refl _
    · exact le_trans (by omega) (ih (i + 1))

theorem stopDist_le (T : List HashPos) (len wh : Nat) :
    ∀ f i, stopDist T len wh i f ≤ i + f := by
  intro f
  induction f with
  | zero =>
    intro i
    simp [stopDist]
  | succ f ih =>
    intro i
    unfold stopDist
    split
    · omega
    · have := ih (i + 1)
      omega

theorem stopDist_occ (T : List HashPos) (len wh : Nat) :
    ∀ f i u, i ≤ u → u < stopDist T len wh i f →
      (T.getD ((wh + u) % len) ⟨0, 0⟩).pos ≠ 0 := by
  intro f
  induction f with
  | zero =>
    intro i u h1 h2
    simp [stopDist] at h2
    omega
  | succ f ih =>
    intro i u h1 h2
    unfold stopDist at h2
    split at h2
    · omega
    · rename_i hocc
      rcases Nat.eq_or_lt_of_le h1 with he | hlt
      · subst he
        exact hocc
      · exact ih (i + 1) u (by omega) h2

theorem stopDist_stop (T : List HashPos) (len wh : Nat) :
    ∀ f i, stopDist T len wh i f < i + f →
      (T.getD ((wh + stopDist T len wh i f) % len) ⟨0, 0⟩).pos = 0 := by
  intro f
  induction f with
  | zero =>
    intro i h
    simp [stopDist] at h
  | succ f ih =>
    intro i h
    by_cases hemp : (T.getD ((wh + i) % len) ⟨0, 0⟩).pos = 0
    · have hst : stopDist T len wh i (f + 1) = i := by
        conv_lhs => unfold stopDist
        rw [if_pos hemp]
      rw [hst]
      exact hemp
    · have hst : stopDist T len wh i (f + 1) = stopDist T len wh (i + 1) f := by
        conv_lhs => unfold stopDist
        rw [if_neg hemp]
      rw [hst] at h ⊢
      exact ih (i + 1) (by omega)

theorem scanMatches_eq_filter (F : List Nat) (T : List HashPos) (k : List Nat)
    (len wh : Nat) :
    ∀ f i, scanMatches F T k len wh i f =
      ((List.range' i (stopDist T len wh i f - i)).filter
        (fun u => matchCond F k (T.getD ((wh + u) % len) ⟨0, 0⟩))).map
        (fun u => valAt F (T.getD ((wh + u) % len) ⟨0, 0⟩).pos) := by
  intro f
  induction f with
  | zero =>
    intro i
    simp [scanMatches, stopDist]
  | succ f ih =>
    intro i
    by_cases hemp : (T.getD ((wh + i) % len) ⟨0, 0⟩).pos = 0
    · have hst : stopDist T len wh i (f + 1) = i := by
        conv_lhs => unfold stopDist
        rw [if_pos hemp]
      have hsc : scanMatches F T k len wh i (f + 1) = [] := by
        conv_lhs => unfold scanMatches
        simp only []
        rw [if_pos hemp]
      rw [hst, Nat.sub_self, hsc]
      rfl
    · have hstop : stopDist T len wh i (f + 1) = stopDist T len wh (i + 1) f := by
        conv_lhs => unfold stopDist
        rw [if_neg hemp]
      have hge : i + 1 ≤ stopDist T len wh (i + 1) f := stopDist_ge T len wh f (i + 1)
      rw [hstop]
      rw [show stopDist T len wh (i + 1) f - i =
        (stopDist T len wh (i + 1) f - (i + 1)) + 1 from by omega]
      rw [List.range'_succ]
      rw [List.filter_cons]
      by_cases hm : matchCond F k (T.getD ((wh + i) % len) ⟨0, 0⟩) = true
      · rw [if_pos hm, List.map_cons]
        have hsc : scanMatches F T k len wh i (f + 1) =
            valAt F (T.getD ((wh + i) % len) ⟨0, 0⟩).pos ::
              scanMatches F T k len wh (i + 1) f := by
          conv_lhs => unfold scanMatches
          simp only []
          rw [if_neg hemp, if_pos hm]
        rw [hsc]
        rw [ih (i + 1)]
      · rw [if_neg hm]
        have hsc : scanMatches F T k len wh i (f + 1) =
            scanMatches F T k len wh (i + 1) f := by
          conv_lhs => unfold scanMatches
          simp only []
          rw [if_neg hemp, if_neg hm]
        rw [hsc]
        rw [ih (i + 1)]

theorem range_map_mod_eq (len wh : Nat) (hwh : wh < len) :
    (List.range len).map (fun u => (wh + u) % len) =
      List.range' wh (len - wh) ++ List.range' 0 wh := by
  apply List.ext_getElem
  · simp only [List.length_map, List.length_range, List.length_append,
      List.length_range']
    omega
  · intro i h1 h2
    rw [List.getElem_map, List.getElem_range]
    by_cases hi : i < len - wh
    · rw [List.getElem_append_left (by simpa using hi)]
      rw [List.getElem_range']
      rw [Nat.one_mul]
      exact Nat.mod_eq_of_lt (show wh + i < len by omega)
    · have hlen : i < len := by simpa using h1
      rw [List.getElem_append_right (by simp; omega)]
      rw [List.getElem_range']
      rw [Nat.mod_eq_sub_mod (by omega)]
      rw [Nat.mod_eq_of_lt (by omega)]
      simp only [List.length_range']
      omega

theorem range_map_mod_perm (len wh : Nat) (hwh : wh < len) :
    ((List.range len).map (fun u => (wh + u) % len)).Perm (List.range len) := by
  rw [range_map_mod_eq len wh hwh]
  have h1 : List.range' 0 wh ++ List.range' wh (len - wh) = List.range len := by
    rw [List.range_eq_range']
    have := List.range'_append 0 wh (len - wh) 1
    simp only [Nat.mul_one, Nat.zero_add, Nat.one_mul] at this
    rw [show len - wh + wh = len from by omega] at this
    exact this
  exact List.perm_append_comm.trans (h1 ▸ List.Perm.refl _)

theorem take_eq_range_map (T : List HashPos) (len : Nat) (h : len ≤ T.length) :
    T.take len = (List.range len).map (fun j => T.getD j ⟨0, 0⟩) := by
  apply List.ext_getElem
  · simp only [List.length_take, List.length_map, List.length_range]
    omega
  · intro i h1 h2
    have hilen : i < len := by simpa using h2
    rw [List.getElem_take, List.getElem_map, List.getElem_range]
    rw [List.getD_eq_getElem _ _ (by omega)]

theorem getD_pos_inj (L : List HashPos) :
    (((L.filter (fun e => decide (e.pos ≠ 0))).map (fun e => e.pos)).Nodup) →
    ∀ j1 j2, j1 < L.length → j2 < L.length →
      (L.getD j1 ⟨0, 0⟩).pos ≠ 0 → (L.getD j1 ⟨0, 0⟩).pos = (L.getD j2 ⟨0, 0⟩).pos →
      j1 = j2 := by
  induction L with
  | nil =>
    intro _ j1 j2 h1 h2 _ _
    simp at h1
  | cons x tl ih =>
    intro hnd j1 j2 h1 h2 hne heq
    have hmem : ∀ j, j < tl.length → (tl.getD j ⟨0, 0⟩).pos ≠ 0 →
        (tl.getD j ⟨0, 0⟩).pos ∈
          (tl.filter (fun e => decide (e.pos ≠ 0))).map (fun e => e.pos) := by
      intro j hj hp
      refine List.mem_map_of_mem _ (List.mem_filter.mpr ⟨?_, by simpa using hp⟩)
      rw [List.getD_eq_getElem _ _ hj]
      exact List.getElem_mem _
    cases j1 with
    | zero =>
      cases j2 with
      | zero => rfl
      | succ j2 =>
        exfalso
        have hx : x.pos ≠ 0 := hne
        have hj2 : j2 < tl.length := by simpa using h2
        have hp2 : (tl.getD j2 ⟨0, 0⟩).pos ≠ 0 := by
          have : x.pos = (tl.getD j2 ⟨0, 0⟩).pos := heq
          omega
        have hmm := hmem j2 hj2 hp2
        rw [List.filter_cons, if_pos (by simpa using hx)] at hnd
        rw [List.map_cons] at hnd
        have := (List.nodup_cons.mp hnd).1
        apply this
        rw [show x.pos = (tl.getD j2 ⟨0, 0⟩).pos from heq]
        exact hmm
    | succ j1 =>
      cases j2 with
      | zero =>
        exfalso
        have hj1 : j1 < tl.length := by simpa using h1
        have hp1 : (tl.getD j1 ⟨0, 0⟩).pos ≠ 0 := hne
        have hx : x.pos ≠ 0 := by
          have : (tl.getD j1 ⟨0, 0⟩).pos = x.pos := heq
          omega
        have hmm := hmem j1 hj1 hp1
        rw [List.filter_cons, if_pos (by simpa using hx)] at hnd
        rw [List.map_cons] at hnd
        have := (List.nodup_cons.mp hnd).1
        apply this
        rw [show x.pos = (tl.getD j1 ⟨0, 0⟩).pos from heq.symm]
        exact hmm
      | succ j2 =>
        have hnd' : ((tl.filter (fun e => decide (e.pos ≠ 0))).map
            (fun e => e.pos)).Nodup := by
          rw [List.filter_cons] at hnd
          by_cases hx : decide (x.pos ≠ 0) = true
          · rw [if_pos hx, List.map_cons] at hnd
            exact (List.nodup_cons.mp hnd).2
          · rwa [if_neg hx] at hnd
        have := ih hnd' j1 j2 (by simpa using h1) (by simpa using h2) hne heq
        omega

/-- One placement preserves and extends the linear-probing reachability
invariant and adds the entry to the occupied-slot contents. -/
theorem place_reach (len : Nat) (T T1 : List HashPos) (e : HashPos)
    (h : place len T e = .ok T1) (hTlen : len ≤ T.length) (he : e.pos ≠ 0) :
    T1.length = T.length ∧
    (∀ f, f.pos ≠ 0 → Reach T len f → Reach T1 len f) ∧
    Reach T1 len e ∧
    ((T1.take len).filter (fun x => decide (x.pos ≠ 0))).Perm
      (e :: (T.take len).filter (fun x => decide (x.pos ≠ 0))) ∧
    ((∀ j, j < len → (T.getD j ⟨0, 0⟩).pos = 0 → T.getD j ⟨0, 0⟩ = ⟨0, 0⟩) →
      ∀ j, j < len → (T1.getD j ⟨0, 0⟩).pos = 0 → T1.getD j ⟨0, 0⟩ = ⟨0, 0⟩) := by
  obtain ⟨s, hs, hemp, hset, hprobe⟩ := place_ok_char len T e T1 h
  have hwh : e.hash / 256 % len < len := Nat.mod_lt _ (by omega)
  obtain ⟨t, ht, hst, hemp2, hall⟩ := probeIdx_spec T len len _ s hwh hprobe
  subst hset
  refine ⟨by simp, ?_, ?_, ?_, ?_⟩
  · rintro f hf ⟨t', ht', hgf, hpath⟩
    have hne : (home len f + t') % len ≠ s := by
      intro hc
      rw [hc] at hgf
      rw [hgf] at hemp
      exact hf hemp
    refine ⟨t', ht', ?_, ?_⟩
    · rw [getD_set_other T s _ e hne]
      exact hgf
    · intro u hu
      have hne2 : (home len f + u) % len ≠ s := by
        intro hc
        have h1 := hpath u hu
        rw [hc] at h1
        exact h1 hemp
      rw [getD_set_other T s _ e hne2]
      exact hpath u hu
  · have hhome : home len e = e.hash / 256 % len := rfl
    refine ⟨t, ht, ?_, ?_⟩
    · rw [hhome, ← hst]
      exact getD_set_self T s e (by omega)
    · intro u hu
      have hne : (e.hash / 256 % len + u) % len ≠ s := by
        intro hc
        have h1 := hall u hu
        rw [hc] at h1
        exact h1 hemp
      rw [hhome, getD_set_other T s _ e hne]
      exact hall u hu
  · rw [take_set_lt T s e len hs]
    exact filter_set_perm (T.take len) s e
      (by rw [List.length_take]; exact Nat.lt_min.mpr ⟨hs, by omega⟩)
      (by rw [getD_take T len s hs ⟨0, 0⟩]; exact hemp) he
  · intro hz j hj hp
    by_cases hjs : j = s
    · subst hjs
      rw [getD_set_self T j e (by omega)] at hp
      exact absurd hp he
    · rw [getD_set_other T s j e hjs] at hp ⊢
      exact hz j hj hp

/-- `placeAll` establishes the probing invariant for every placed entry and
makes the occupied slots of the table exactly the placed entries. -/
theorem placeAll_reach (len : Nat) :
    ∀ E T T', placeAll E len T = .ok T' → len ≤ T.length →
      (∀ e ∈ E, e.pos ≠ 0) →
      T'.length = T.length ∧
      (∀ f, f.pos ≠ 0 → Reach T len f → Reach T' len f) ∧
      (∀ e ∈ E, Reach T' len e) ∧
      ((T'.take len).filter (fun x => decide (x.pos ≠ 0))).Perm
        (E ++ (T.take len).filter (fun x => decide (x.pos ≠ 0))) ∧
      ((∀ j, j < len → (T.getD j ⟨0, 0⟩).pos = 0 → T.getD j ⟨0, 0⟩ = ⟨0, 0⟩) →
        ∀ j, j < len → (T'.getD j ⟨0, 0⟩).pos = 0 → T'.getD j ⟨0, 0⟩ = ⟨0, 0⟩) := by
  intro E
  induction E with
  | nil =>
    intro T T' h hT hE
    simp only [placeAll, List.foldlM, pure, Except.pure, Except.ok.injEq] at h
    subst h
    exact ⟨rfl, fun f _ hf => hf, by simp, by simp, fun hz => hz⟩
  | cons e E ih =>
    intro T T' h hT hE
    unfold placeAll at h
    rw [List.foldlM_cons] at h
    cases hp : place len T e with
    | error er =>
      rw [hp] at h
      exact absurd h (by simp [bind, Except.bind])
    | ok T1 =>
      rw [hp] at h
      simp only [bind, Except.bind] at h
      have he : e.pos ≠ 0 := hE e (List.mem_cons_self _ _)
      obtain ⟨p1, p2, p3, p4, p5⟩ := place_reach len T T1 e hp hT he
      obtain ⟨q1, q2, q3, q4, q5⟩ := ih T1 T' h (by omega)
        (fun x hx => hE x (List.mem_cons_of_mem _ hx))
      refine ⟨by omega, ?_, ?_, ?_, ?_⟩
      · intro f hf hr
        exact q2 f hf (p2 f hf hr)
      · intro x hx
        rcases List.mem_cons.mp hx with h1 | h1
        · subst h1
          exact q2 x he p3
        · exact q3 x h1
      · refine q4.trans ?_
        refine (List.Perm.append_left E p4).trans ?_
        exact List.perm_middle
      · intro hz
        exact q5 (p5 hz)

/-- The probe advance turns the scan state at distance `i` into the scan
state at distance `i + 1`. -/
theorem bump_scanState (k : List Nat) (len wh hpos i : Nat)
    (hi : i < len) (hov : hpos + 8 * len < U32) :
    bump (scanState k len wh hpos i) = scanState k len wh hpos (i + 1) := by
  have hj : (wh + i) % len < len := Nat.mod_lt _ (by omega)
  have hc := bump_char (scanState k len wh hpos i) ((wh + i) % len) hj rfl hov
  apply VState_ext
  · rw [hc.2.2.2.2.2]
    rfl
  · rw [hc.2.2.2.2.1]
    rfl
  · rw [hc.2.1]
    rfl
  · rw [hc.1]
    show hpos + 8 * (((wh + i) % len + 1) % len) = hpos + 8 * ((wh + (i + 1)) % len)
    rw [Nat.mod_add_mod]
    rw [Nat.add_assoc]
  · rw [hc.2.2.1]
    rfl
  · rw [hc.2.2.2.1]
    rfl

/-- One probe of the `find` iterator's inner loop, in terms of the subtable
entry at the current slot: an empty slot ends the iteration, a matching
slot yields the record's value bytes and advances, any other slot
advances and continues. -/
theorem vNextAux_step (F : List Nat) (T : List HashPos) (k : List Nat)
    (len wh hpos : Nat) (hwh : wh < len) (hU : F.length < U32)
    (hbound : hpos + 8 * len ≤ F.length) (hkU : hash k < U32)
    (hslot : ∀ j, j < len → slice F (hpos + 8 * j) 8 =
      pack2 (T.getD j ⟨0, 0⟩).hash (T.getD j ⟨0, 0⟩).pos)
    (hent : ∀ j, j < len →
      (T.getD j ⟨0, 0⟩).hash < U32 ∧ (T.getD j ⟨0, 0⟩).pos < U32)
    (hrec : ∀ j, j < len → (T.getD j ⟨0, 0⟩).pos ≠ 0 →
      (T.getD j ⟨0, 0⟩).pos + 8 + klenAt F (T.getD j ⟨0, 0⟩).pos +
        vlenAt F (T.getD j ⟨0, 0⟩).pos ≤ F.length ∧
      klenAt F (T.getD j ⟨0, 0⟩).pos < U32 ∧
      vlenAt F (T.getD j ⟨0, 0⟩).pos < U32)
    (f i : Nat) (hilt : i < len) :
    vNextAux (fileOf F) (f + 1) (scanState k len wh hpos i) =
      (if (T.getD ((wh + i) % len) ⟨0, 0⟩).pos = 0 then
        (.done, scanState k len wh hpos i)
      else if matchCond F k (T.getD ((wh + i) % len) ⟨0, 0⟩) then
        (.yield (valAt F (T.getD ((wh + i) % len) ⟨0, 0⟩).pos),
          scanState k len wh hpos (i + 1))
      else vNextAux (fileOf F) f (scanState k len wh hpos (i + 1))) := by
  have hj : (wh + i) % len < len := Nat.mod_lt _ (by omega)
  have hkb : hpos + 8 * ((wh + i) % len) + 8 ≤ F.length := by
    have h1 : (wh + i) % len + 1 ≤ len := hj
    omega
  have hread : (fileOf F).read (hpos + 8 * ((wh + i) % len)) 8 =
      .ok (slice F (hpos + 8 * ((wh + i) % len)) 8) :=
    read_fileOf F _ 8 hkb
  have hsl := hslot _ hj
  have hen := hent _ hj
  conv_lhs => unfold vNextAux
  dsimp only [scanState]
  rw [if_pos hilt]
  rw [hread]
  simp only []
  rw [hsl]
  rw [unpackList_pack2_left, unpackList_pack2_right]
  rw [Nat.mod_eq_of_lt hen.1, Nat.mod_eq_of_lt hen.2]
  by_cases hp0 : (T.getD ((wh + i) % len) ⟨0, 0⟩).pos = 0
  · rw [if_pos hp0, if_pos hp0]
  · rw [if_neg hp0, if_neg hp0]
    rw [if_neg (show ¬U32 ≤ hpos + len * 8 % U32 from by
      rw [Nat.mod_eq_of_lt (show len * 8 < U32 by omega)]
      omega)]
    rw [show bump (⟨k, hash k, i, hpos + 8 * ((wh + i) % len), hpos, len⟩ : VState) =
      (⟨k, hash k, i + 1, hpos + 8 * ((wh + (i + 1)) % len), hpos, len⟩ : VState) from
      bump_scanState k len wh hpos i hilt (by omega)]
    obtain ⟨hb1, hb2, hb3⟩ := hrec _ hj hp0
    by_cases hA : (T.getD ((wh + i) % len) ⟨0, 0⟩).hash = hash k
    · rw [if_pos hA]
      have hread2 : (fileOf F).read (T.getD ((wh + i) % len) ⟨0, 0⟩).pos 8 =
          .ok (slice F (T.getD ((wh + i) % len) ⟨0, 0⟩).pos 8) :=
        read_fileOf F _ 8 (by omega)
      rw [hread2]
      simp only []
      rw [unpackList_slice_eight]
      rw [show (slice F (T.getD ((wh + i) % len) ⟨0, 0⟩).pos 8).drop 4 =
          slice F ((T.getD ((wh + i) % len) ⟨0, 0⟩).pos + 4) 4 from
        slice_drop_four F _ (by omega)]
      rw [show unpackList (slice F ((T.getD ((wh + i) % len) ⟨0, 0⟩).pos + 4) 4) =
          vlenAt F (T.getD ((wh + i) % len) ⟨0, 0⟩).pos from by
        rw [← unpackAt_fileOf]
        rfl]
      rw [show unpackAt (fileOf F).file (T.getD ((wh + i) % len) ⟨0, 0⟩).pos =
        klenAt F (T.getD ((wh + i) % len) ⟨0, 0⟩).pos from rfl]
      by_cases hB : klenAt F (T.getD ((wh + i) % len) ⟨0, 0⟩).pos = k.length
      · rw [if_pos hB]
        rw [Nat.mod_eq_of_lt
          (show (T.getD ((wh + i) % len) ⟨0, 0⟩).pos + 8 < U32 by omega)]
        rw [match_key_char F k _ (by omega) hU]
        by_cases hC : keyAt F (T.getD ((wh + i) % len) ⟨0, 0⟩).pos = k
        · have hdec : decide
              (slice F ((T.getD ((wh + i) % len) ⟨0, 0⟩).pos + 8) k.length = k) =
              true := by
            rw [← hB]
            simpa [keyAt] using hC
          rw [hdec]
          simp only []
          rw [Nat.mod_eq_of_lt (show k.length < U32 by omega)]
          rw [Nat.mod_eq_of_lt
            (show (T.getD ((wh + i) % len) ⟨0, 0⟩).pos + 8 + k.length < U32 by omega)]
          have hread3 : (fileOf F).read
              ((T.getD ((wh + i) % len) ⟨0, 0⟩).pos + 8 + k.length)
              (vlenAt F (T.getD ((wh + i) % len) ⟨0, 0⟩).pos) =
              .ok (slice F ((T.getD ((wh + i) % len) ⟨0, 0⟩).pos + 8 + k.length)
                (vlenAt F (T.getD ((wh + i) % len) ⟨0, 0⟩).pos)) :=
            read_fileOf F _ _ (by omega)
          rw [hread3]
          simp only []
          rw [show slice F ((T.getD ((wh + i) % len) ⟨0, 0⟩).pos + 8 + k.length)
              (vlenAt F (T.getD ((wh + i) % len) ⟨0, 0⟩).pos) =
            valAt F (T.getD ((wh + i) % len) ⟨0, 0⟩).pos from by
            unfold valAt
            rw [hB]]
          rw [if_pos (show matchCond F k (T.getD ((wh + i) % len) ⟨0, 0⟩) = true from by
            unfold matchCond
            exact decide_eq_true ⟨hA, hB, hC⟩)]
        · have hdec : decide
              (slice F ((T.getD ((wh + i) % len) ⟨0, 0⟩).pos + 8) k.length = k) =
              false := by
            rw [← hB]
            exact decide_eq_false (by simpa [keyAt] using hC)
          rw [hdec]
          simp only []
          rw [if_neg (show ¬matchCond F k (T.getD ((wh + i) % len) ⟨0, 0⟩) = true from by
            unfold matchCond
            intro hcon
            exact hC (of_decide_eq_true hcon).2.2)]
      · rw [if_neg hB]
        rw [if_neg (show ¬matchCond F k (T.getD ((wh + i) % len) ⟨0, 0⟩) = true from by
          unfold matchCond
          intro hcon
          exact hB (of_decide_eq_true hcon).2.1)]
    · rw [if_neg hA]
      rw [if_neg (show ¬matchCond F k (T.getD ((wh + i) % len) ⟨0, 0⟩) = true from by
        unfold matchCond
        intro hcon
        exact hA (of_decide_eq_true hcon).1)]

/-- One `next()` call of the `find` iterator, characterized against the
slot scan: when no match remains before the stopping slot the call returns
`None`; otherwise it yields the next matching record's value and leaves the
iterator at the following probe distance. -/
theorem vNextAux_scan (F : List Nat) (T : List HashPos) (k : List Nat)
    (len wh hpos : Nat) (hwh : wh < len) (hU : F.length < U32)
    (hbound : hpos + 8 * len ≤ F.length) (hkU : hash k < U32)
    (hslot : ∀ j, j < len → slice F (hpos + 8 * j) 8 =
      pack2 (T.getD j ⟨0, 0⟩).hash (T.getD j ⟨0, 0⟩).pos)
    (hent : ∀ j, j < len →
      (T.getD j ⟨0, 0⟩).hash < U32 ∧ (T.getD j ⟨0, 0⟩).pos < U32)
    (hrec : ∀ j, j < len → (T.getD j ⟨0, 0⟩).pos ≠ 0 →
      (T.getD j ⟨0, 0⟩).pos + 8 + klenAt F (T.getD j ⟨0, 0⟩).pos +
        vlenAt F (T.getD j ⟨0, 0⟩).pos ≤ F.length ∧
      klenAt F (T.getD j ⟨0, 0⟩).pos < U32 ∧
      vlenAt F (T.getD j ⟨0, 0⟩).pos < U32) :
    ∀ f i, f = len - i → i ≤ len →
      (scanMatches F T k len wh i f = [] →
        ∃ j, i ≤ j ∧ j ≤ len ∧
          vNextAux (fileOf F) f (scanState k len wh hpos i) =
            (.done, scanState k len wh hpos j) ∧
          scanMatches F T k len wh j (len - j) = []) ∧
      (∀ v rest, scanMatches F T k len wh i f = v :: rest →
        ∃ i', i < i' ∧ i' ≤ len ∧
          vNextAux (fileOf F) f (scanState k len wh hpos i) =
            (.yield v, scanState k len wh hpos i') ∧
          scanMatches F T k len wh i' (len - i') = rest) := by
  intro f
  induction f with
  | zero =>
    intro i hf hi
    constructor
    · intro _
      refine ⟨i, le_refl _, hi, rfl, ?_⟩
      rw [show len - i = 0 from by omega]
      rfl
    · intro v rest hvr
      exact absurd hvr (by simp [scanMatches])
  | succ f ih =>
    intro i hf hi
    have hilt : i < len := by omega
    have hstep := vNextAux_step F T k len wh hpos hwh hU hbound hkU hslot hent hrec
      f i hilt
    by_cases hp0 : (T.getD ((wh + i) % len) ⟨0, 0⟩).pos = 0
    · rw [if_pos hp0] at hstep
      have hsc : scanMatches F T k len wh i (f + 1) = [] := by
        conv_lhs => unfold scanMatches
        simp only []
        rw [if_pos hp0]
      constructor
      · intro _
        refine ⟨i, le_refl _, hi, hstep, ?_⟩
        rw [show len - i = f + 1 from by omega]
        exact hsc
      · intro v rest hvr
        rw [hsc] at hvr
        exact absurd hvr (by simp)
    · rw [if_neg hp0] at hstep
      by_cases hm : matchCond F k (T.getD ((wh + i) % len) ⟨0, 0⟩) = true
      · rw [if_pos hm] at hstep
        have hsc : scanMatches F T k len wh i (f + 1) =
            valAt F (T.getD ((wh + i) % len) ⟨0, 0⟩).pos ::
              scanMatches F T k len wh (i + 1) f := by
          conv_lhs => unfold scanMatches
          simp only []
          rw [if_neg hp0, if_pos hm]
        constructor
        · intro hnil
          rw [hsc] at hnil
          exact absurd hnil (by simp)
        · intro v rest hvr
          rw [hsc] at hvr
          injection hvr with h1 h2
          refine ⟨i + 1, by omega, by omega, ?_, ?_⟩
          · rw [hstep, ← h1]
          · rw [show len - (i + 1) = f from by omega, ← h2]
      · rw [if_neg hm] at hstep
        have hsc : scanMatches F T k len wh i (f + 1) =
            scanMatches F T k len wh (i + 1) f := by
          conv_lhs => unfold scanMatches
          simp only []
          rw [if_neg hp0, if_neg hm]
        obtain ⟨ihd, ihy⟩ := ih (i + 1) (by omega) (by omega)
        constructor
        · intro hnil
          rw [hsc] at hnil
          obtain ⟨j, hj1, hj2, hj3, hj4⟩ := ihd hnil
          refine ⟨j, by omega, hj2, ?_, hj4⟩
          rw [hstep]
          exact hj3
        · intro v rest hvr
          rw [hsc] at hvr
          obtain ⟨i', h1, h2, h3, h4⟩ := ihy v rest hvr
          refine ⟨i', by omega, h2, ?_, h4⟩
          rw [hstep]
          exact h3

/-- Running the `find` iterator to completion yields exactly the scan's
matching values, then `None`. -/
theorem collectFind_of_scan (F : List Nat) (T : List HashPos) (k : List Nat)
    (len wh hpos : Nat) (hwh : wh < len) (hU : F.length < U32)
    (hbound : hpos + 8 * len ≤ F.length) (hkU : hash k < U32)
    (hslot : ∀ j, j < len → slice F (hpos + 8 * j) 8 =
      pack2 (T.getD j ⟨0, 0⟩).hash (T.getD j ⟨0, 0⟩).pos)
    (hent : ∀ j, j < len →
      (T.getD j ⟨0, 0⟩).hash < U32 ∧ (T.getD j ⟨0, 0⟩).pos < U32)
    (hrec : ∀ j, j < len → (T.getD j ⟨0, 0⟩).pos ≠ 0 →
      (T.getD j ⟨0, 0⟩).pos + 8 + klenAt F (T.getD j ⟨0, 0⟩).pos +
        vlenAt F (T.getD j ⟨0, 0⟩).pos ≤ F.length ∧
      klenAt F (T.getD j ⟨0, 0⟩).pos < U32 ∧
      vlenAt F (T.getD j ⟨0, 0⟩).pos < U32) :
    ∀ vals i, i ≤ len → scanMatches F T k len wh i (len - i) = vals →
      collectFind (fileOf F) (scanState k len wh hpos i) (vals.length + 1) =
        vals.map VStep.yield ++ [VStep.done] := by
  intro vals
  induction vals with
  | nil =>
    intro i hi hsc
    obtain ⟨hd, _⟩ := vNextAux_scan F T k len wh hpos hwh hU hbound hkU hslot hent
      hrec (len - i) i rfl hi
    obtain ⟨j, _, _, hdone, _⟩ := hd hsc
    show collectFind (fileOf F) (scanState k len wh hpos i) 1 = [VStep.done]
    unfold collectFind
    simp only []
    rw [show vNext (fileOf F) (scanState k len wh hpos i) =
        (.done, scanState k len wh hpos j) from by
      unfold vNext
      rw [show (scanState k len wh hpos i).hslots - (scanState k len wh hpos i).kloop =
        len - i from rfl]
      exact hdone]
    rfl
  | cons v vals ihv =>
    intro i hi hsc
    obtain ⟨_, hy⟩ := vNextAux_scan F T k len wh hpos hwh hU hbound hkU hslot hent
      hrec (len - i) i rfl hi
    obtain ⟨i', hlt, hle, hyield, hrest⟩ := hy v vals hsc
    show collectFind (fileOf F) (scanState k len wh hpos i) (vals.length + 1 + 1) = _
    unfold collectFind
    simp only []
    rw [show vNext (fileOf F) (scanState k len wh hpos i) =
        (.yield v, scanState k len wh hpos i') from by
      unfold vNext
      rw [show (scanState k len wh hpos i).hslots - (scanState k len wh hpos i).kloop =
        len - i from rfl]
      exact hyield]
    simp only []
    rw [ihv i' hle hrest]
    rfl

theorem annRecs_map_snd (R : List (List Nat × List Nat)) :
    ∀ p, (annRecs R p).map Prod.snd = R := by
  induction R with
  | nil =>
    intro p
    rfl
  | cons r R ih =>
    intro p
    rw [show annRecs (r :: R) p =
      (⟨hash r.1, p⟩, r) :: annRecs R (p + recSize r) from rfl]
    rw [List.map_cons, ih]

/-- The values of the bucket entries that pass the reader's match test are
exactly the values inserted under `k`, in insertion order. -/
theorem bucket_values (F : List Nat) (k : List Nat) (R : List (List Nat × List Nat))
    (hfacts : ∀ a ∈ annRecs R 2048,
      klenAt F a.1.pos = a.2.1.length ∧ keyAt F a.1.pos = a.2.1 ∧
      valAt F a.1.pos = a.2.2 ∧ a.1.hash = hash a.2.1) :
    (((bucketPairs R (hash k % 256)).map Prod.fst).filter (matchCond F k)).map
      (fun e => valAt F e.pos) = valuesOf R k := by
  rw [filter_of_map]
  rw [List.map_map]
  have hcongr : (bucketPairs R (hash k % 256)).filter
      (fun a => matchCond F k a.1) =
      (bucketPairs R (hash k % 256)).filter (fun a => decide (a.2.1 = k)) := by
    apply List.filter_congr
    intro a ha
    have ha' : a ∈ annRecs R 2048 := List.mem_of_mem_filter ha
    obtain ⟨h1, h2, h3, h4⟩ := hfacts a ha'
    unfold matchCond
    apply decide_eq_decide.mpr
    constructor
    · rintro ⟨c1, c2, c3⟩
      rw [← h2]
      exact c3
    · intro hk2
      exact ⟨by rw [h4, hk2], by rw [h1, hk2], by rw [h2, hk2]⟩
  rw [show ((fun e => valAt F e.pos) ∘ Prod.fst :
      HashPos × (List Nat × List Nat) → List Nat) =
    (fun a => valAt F a.1.pos) from rfl]
  rw [hcongr]
  unfold bucketPairs
  rw [List.filter_filter]
  have hcongr2 : (annRecs R 2048).filter
      (fun a => decide (a.1.hash % 256 = hash k % 256) && decide (a.2.1 = k)) =
      (annRecs R 2048).filter (fun a => decide (a.2.1 = k)) := by
    apply List.filter_congr
    intro a ha
    obtain ⟨h1, h2, h3, h4⟩ := hfacts a ha
    by_cases hk2 : a.2.1 = k
    · rw [show decide (a.2.1 = k) = true from by simpa using hk2]
      rw [show decide (a.1.hash % 256 = hash k % 256) = true from by
        simp [h4, hk2]]
      rfl
    · rw [show decide (a.2.1 = k) = false from by simpa using hk2]
      rw [Bool.and_false]
  have hcongr2' : (annRecs R 2048).filter
      (fun a => decide (a.2.1 = k) && decide (a.1.hash % 256 = hash k % 256)) =
      (annRecs R 2048).filter (fun a => decide (a.2.1 = k)) := by
    apply List.filter_congr
    intro a ha
    obtain ⟨h1, h2, h3, h4⟩ := hfacts a ha
    by_cases hk2 : a.2.1 = k
    · rw [show decide (a.2.1 = k) = true from by simpa using hk2]
      rw [show decide (a.1.hash % 256 = hash k % 256) = true from by
        simp [h4, hk2]]
      rfl
    · rw [show decide (a.2.1 = k) = false from by simpa using hk2]
      rw [Bool.false_and]
  rw [hcongr2']
  have hmapc : ((annRecs R 2048).filter (fun a => decide (a.2.1 = k))).map
      (fun a => valAt F a.1.pos) =
      ((annRecs R 2048).filter (fun a => decide (a.2.1 = k))).map
      (fun a => a.2.2) := by
    apply List.map_congr_left
    intro a ha
    exact (hfacts a (List.mem_of_mem_filter ha)).2.2.1
  rw [hmapc]
  exact annRecs_filter_values k R 2048

/-- The scan of a table whose occupied slots are the entries `E` (each
reachable by its probe path) collects, up to order, the match-test values
of all of `E`: every matching entry sits before the first empty slot, the
scanned slots are pairwise distinct, and non-entries never match. -/
theorem scan_perm (F : List Nat) (T : List HashPos) (k : List Nat)
    (E : List HashPos) (len wh : Nat)
    (hlpos : 0 < len) (hwh : wh = hash k / 256 % len) (hlenT : len ≤ T.length)
    (hcontent : ((T.take len).filter (fun x => decide (x.pos ≠ 0))).Perm E)
    (hreach : ∀ e ∈ E, Reach T len e)
    (hnodupE : (E.map (fun e => e.pos)).Nodup) :
    (scanMatches F T k len wh 0 len).Perm
      ((E.filter (matchCond F k)).map (fun e => valAt F e.pos)) := by
  have hwhlt : wh < len := by
    rw [hwh]
    exact Nat.mod_lt _ (by omega)
  have ht0le : stopDist T len wh 0 len ≤ len := by
    have := stopDist_le T len wh len 0
    omega
  have hnodupT : (((T.take len).filter (fun x => decide (x.pos ≠ 0))).map
      (fun e => e.pos)).Nodup := ((hcontent.map (fun e => e.pos)).nodup_iff).mpr hnodupE
  have hinj : ∀ j1 j2, j1 < len → j2 < len →
      (T.getD j1 ⟨0, 0⟩).pos ≠ 0 →
      (T.getD j1 ⟨0, 0⟩).pos = (T.getD j2 ⟨0, 0⟩).pos → j1 = j2 := by
    intro j1 j2 h1 h2 hp heq
    apply getD_pos_inj (T.take len) hnodupT j1 j2
      (by rw [List.length_take]; exact Nat.lt_min.mpr ⟨h1, by omega⟩)
      (by rw [List.length_take]; exact Nat.lt_min.mpr ⟨h2, by omega⟩)
      (by rw [getD_take T len j1 h1 ⟨0, 0⟩]; exact hp)
    rw [getD_take T len j1 h1 ⟨0, 0⟩, getD_take T len j2 h2 ⟨0, 0⟩]
    exact heq
  have hslotE : ∀ j, j < len → (T.getD j ⟨0, 0⟩).pos ≠ 0 → T.getD j ⟨0, 0⟩ ∈ E := by
    intro j hj hp
    refine (hcontent.mem_iff).mp (List.mem_filter.mpr ⟨?_, by simpa using hp⟩)
    rw [← getD_take T len j hj ⟨0, 0⟩]
    rw [List.getD_eq_getElem _ _
      (by rw [List.length_take]; exact Nat.lt_min.mpr ⟨hj, by omega⟩)]
    exact List.getElem_mem _
  have hext : ∀ u, stopDist T len wh 0 len ≤ u → u < len →
      ((decide ((T.getD ((wh + u) % len) ⟨0, 0⟩).pos ≠ 0) &&
        matchCond F k (T.getD ((wh + u) % len) ⟨0, 0⟩)) = true → False) := by
    intro u hu1 hu2 hcontra
    rw [Bool.and_eq_true] at hcontra
    obtain ⟨hc1, hc2⟩ := hcontra
    have hp : (T.getD ((wh + u) % len) ⟨0, 0⟩).pos ≠ 0 := of_decide_eq_true hc1
    have hju : (wh + u) % len < len := Nat.mod_lt _ (by omega)
    have hin : T.getD ((wh + u) % len) ⟨0, 0⟩ ∈ E := hslotE _ hju hp
    obtain ⟨t, ht, hget, hpath⟩ := hreach _ hin
    have hhash : (T.getD ((wh + u) % len) ⟨0, 0⟩).hash = hash k := by
      unfold matchCond at hc2
      rw [decide_eq_true_eq] at hc2
      exact hc2.1
    have hhome : home len (T.getD ((wh + u) % len) ⟨0, 0⟩) = wh := by
      unfold home
      rw [hhash, hwh]
    rw [hhome] at hget hpath
    have hjt : (wh + t) % len < len := Nat.mod_lt _ (by omega)
    have hslot_eq : (wh + t) % len = (wh + u) % len := by
      apply hinj _ _ hjt hju
      · rw [hget]
        exact hp
      · rw [hget]
    have htu : t = u := add_mod_inj len wh t u ht hu2 hslot_eq
    subst htu
    rcases Nat.lt_or_ge (stopDist T len wh 0 len) len with hlt | hge2
    · have hstop0 := stopDist_stop T len wh len 0 (by omega)
      rcases Nat.lt_or_eq_of_le hu1 with hcase | hcase
      · exact (hpath _ hcase) hstop0
      · rw [hcase] at hstop0
        exact hp hstop0
    · omega
  rw [scanMatches_eq_filter F T k len wh len 0, Nat.sub_zero]
  rw [← List.range_eq_range']
  have hfc : (List.range (stopDist T len wh 0 len)).filter
      (fun u => matchCond F k (T.getD ((wh + u) % len) ⟨0, 0⟩)) =
      (List.range (stopDist T len wh 0 len)).filter
      (fun u => decide ((T.getD ((wh + u) % len) ⟨0, 0⟩).pos ≠ 0) &&
        matchCond F k (T.getD ((wh + u) % len) ⟨0, 0⟩)) := by
    apply List.filter_congr
    intro u hu
    have hu' := List.mem_range.mp hu
    have hocc := stopDist_occ T len wh len 0 u (by omega) hu'
    rw [show decide ((T.getD ((wh + u) % len) ⟨0, 0⟩).pos ≠ 0) = true from by
      simpa using hocc]
    rw [Bool.true_and]
  rw [hfc]
  have hsplit : List.range (stopDist T len wh 0 len) ++
      List.range' (stopDist T len wh 0 len) (len - stopDist T len wh 0 len) =
      List.range len := by
    rw [List.range_eq_range', List.range_eq_range']
    have h := List.range'_append 0 (stopDist T len wh 0 len)
      (len - stopDist T len wh 0 len) 1
    simp only [Nat.mul_one, Nat.zero_add, Nat.one_mul] at h
    rw [show len - stopDist T len wh 0 len + stopDist T len wh 0 len = len from
      by omega] at h
    exact h
  have hnil2 : (List.range' (stopDist T len wh 0 len)
      (len - stopDist T len wh 0 len)).filter
      (fun u => decide ((T.getD ((wh + u) % len) ⟨0, 0⟩).pos ≠ 0) &&
        matchCond F k (T.getD ((wh + u) % len) ⟨0, 0⟩)) = [] := by
    rw [List.filter_eq_nil_iff]
    intro u hu
    have hmem := List.mem_range'_1.mp hu
    have hres := hext u hmem.1 (show u < len by omega)
    exact fun hc => hres hc
  have hextend : (List.range (stopDist T len wh 0 len)).filter
      (fun u => decide ((T.getD ((wh + u) % len) ⟨0, 0⟩).pos ≠ 0) &&
        matchCond F k (T.getD ((wh + u) % len) ⟨0, 0⟩)) =
      (List.range len).filter
      (fun u => decide ((T.getD ((wh + u) % len) ⟨0, 0⟩).pos ≠ 0) &&
        matchCond F k (T.getD ((wh + u) % len) ⟨0, 0⟩)) := by
    rw [← hsplit, List.filter_append, hnil2, List.append_nil]
  rw [hextend]
  have hmapfilter := filter_of_map (fun u => (wh + u) % len)
    (fun j => decide ((T.getD j ⟨0, 0⟩).pos ≠ 0) && matchCond F k (T.getD j ⟨0, 0⟩))
    (List.range len)
  have hstep1 : ((List.range len).filter
      (fun u => decide ((T.getD ((wh + u) % len) ⟨0, 0⟩).pos ≠ 0) &&
        matchCond F k (T.getD ((wh + u) % len) ⟨0, 0⟩))).map
      (fun u => valAt F (T.getD ((wh + u) % len) ⟨0, 0⟩).pos) =
      ((((List.range len).map (fun u => (wh + u) % len)).filter
        (fun j => decide ((T.getD j ⟨0, 0⟩).pos ≠ 0) &&
          matchCond F k (T.getD j ⟨0, 0⟩))).map
        (fun j => valAt F (T.getD j ⟨0, 0⟩).pos)) := by
    rw [hmapfilter, List.map_map]
    rfl
  rw [hstep1]
  have hperm2 := ((range_map_mod_perm len wh hwhlt).filter
    (fun j => decide ((T.getD j ⟨0, 0⟩).pos ≠ 0) &&
      matchCond F k (T.getD j ⟨0, 0⟩))).map (fun j => valAt F (T.getD j ⟨0, 0⟩).pos)
  refine hperm2.trans ?_
  have htake2 : ((T.take len).filter
      (fun e => decide (e.pos ≠ 0) && matchCond F k e)).map
      (fun e => valAt F e.pos) =
      ((List.range len).filter (fun u => decide ((T.getD u ⟨0, 0⟩).pos ≠ 0) &&
        matchCond F k (T.getD u ⟨0, 0⟩))).map
      (fun j => valAt F (T.getD j ⟨0, 0⟩).pos) := by
    rw [take_eq_range_map T len hlenT]
    rw [filter_of_map]
    rw [List.map_map]
    rfl
  rw [← htake2]
  have hcomm : (T.take len).filter (fun e => decide (e.pos ≠ 0) && matchCond F k e) =
      (T.take len).filter (fun e => matchCond F k e && decide (e.pos ≠ 0)) := by
    apply List.filter_congr
    intro e _
    exact Bool.and_comm _ _
  rw [hcomm, ← List.filter_filter]
  exact (hcontent.filter (matchCond F k)).map (fun e => valAt F e.pos)

set_option maxHeartbeats 1000000 in
/-- C2: lookup completeness.  For a file built by `add`-ing any record
sequence `R` (byte-string keys) and `finish`, and any byte-string key `k`,
running the `find(k)` iterator to completion yields `Ok` values only,
terminated by `None`, and the multiset of yielded values equals the
multiset of values inserted under `k` in `R` — in particular it is empty
when `k` was never inserted (src/reader.rs:229-259, src/writer.rs:119-144). -/
theorem C2_lookup_completeness (R : List (List Nat × List Nat)) (m : CDBMake)
    (F : List Nat) (k : List Nat)
    (hb : buildAll R = .ok m) (hf : m.finish = .ok F)
    (hkB : IsBytes k) (hRB : ∀ r ∈ R, IsBytes r.1) :
    ∃ vals : List (List Nat),
      collectFind (fileOf F) (findInit (fileOf F) k) (vals.length + 1) =
        vals.map VStep.yield ++ [VStep.done] ∧
      vals.Perm (valuesOf R k) := by
  obtain ⟨hdata, hposE, hposU, hentries, hFlen, hFU, hF2048, hheader, hslotB, hsubF,
    hrecs, hlb, htlen, hplace, hlensU, hdslice⟩ := built_file_char R m F hb hf
  have hb256 : hash k % 256 < 256 := Nat.mod_lt _ (by omega)
  have hfacts : ∀ a ∈ annRecs R 2048,
      klenAt F a.1.pos = a.2.1.length ∧ vlenAt F a.1.pos = a.2.2.length ∧
      keyAt F a.1.pos = a.2.1 ∧ valAt F a.1.pos = a.2.2 ∧
      a.1.hash = hash a.2.1 ∧
      a.1.pos + 8 + a.2.1.length + a.2.2.length ≤ F.length ∧ 2048 ≤ a.1.pos := by
    intro a ha
    obtain ⟨hs8, hsk, hsv, hh, hge, hle⟩ := hrecs a ha
    obtain ⟨hk1, hk2⟩ := hlb a ha
    have hle' : a.1.pos + 8 + a.2.1.length + a.2.2.length ≤ 2048 + (encRecs R).length := by
      dsimp only [recSize] at hle
      omega
    have hbF : a.1.pos + 8 ≤ F.length := by
      rw [hFlen]
      omega
    have hKL : klenAt F a.1.pos = a.2.1.length := by
      unfold klenAt
      rw [unpackAt_of_slice8_lo F _ _ _ hs8 hbF]
      exact Nat.mod_eq_of_lt (by omega)
    have hVL : vlenAt F a.1.pos = a.2.2.length := by
      unfold vlenAt
      rw [unpackAt_of_slice8_hi F _ _ _ hs8 hbF]
      exact Nat.mod_eq_of_lt (by omega)
    refine ⟨hKL, hVL, ?_, ?_, hh, by rw [hFlen]; omega, hge⟩
    · unfold keyAt
      rw [hKL]
      exact hsk
    · unfold valAt
      rw [hKL, hVL]
      exact hsv
  have hfacts4 : ∀ a ∈ annRecs R 2048,
      klenAt F a.1.pos = a.2.1.length ∧ keyAt F a.1.pos = a.2.1 ∧
      valAt F a.1.pos = a.2.2 ∧ a.1.hash = hash a.2.1 := by
    intro a ha
    obtain ⟨h1, h2, h3, h4, h5, _, _⟩ := hfacts a ha
    exact ⟨h1, h3, h4, h5⟩
  have hbv := bucket_values F k R hfacts4
  by_cases hlen0 : lens m (hash k % 256) = 0
  · have hE0 : m.entries (hash k % 256) = [] := by
      apply List.eq_nil_of_length_eq_zero
      have := hlen0
      unfold lens at this
      omega
    have hbp : bucketPairs R (hash k % 256) = [] := by
      apply List.map_eq_nil_iff.mp
      rw [← hentries (hash k % 256)]
      exact hE0
    have hvo : valuesOf R k = [] := by
      rw [← hbv, hbp]
      rfl
    have hsl : (findInit (fileOf F) k).hslots = 0 := by
      show (CDB.hash_table (fileOf F) (hash k)).2.1 = 0
      unfold CDB.hash_table
      simp only []
      rw [(hheader (hash k % 256) hb256).2]
      exact hlen0
    refine ⟨[], ?_, by rw [hvo]⟩
    have hcf := collectFind_done_of_no_slots (fileOf F) (findInit (fileOf F) k) hsl 1
    rw [show (([] : List (List Nat)).length + 1) = 1 from rfl, hcf]
    rfl
  · have hlpos : 0 < lens m (hash k % 256) := by omega
    have hlenT : lens m (hash k % 256) ≤
        (tableFor m (maxsizeOf m) (hash k % 256)).length := by
      rw [htlen (hash k % 256) hb256]
      exact lens_le_maxsize m (hash k % 256) hb256
    have hEpos : ∀ e ∈ m.entries (hash k % 256), e.pos ≠ 0 := by
      intro e hee
      rw [hentries (hash k % 256)] at hee
      obtain ⟨a, ha, rfl⟩ := List.mem_map.mp hee
      have ha' : a ∈ annRecs R 2048 := List.mem_of_mem_filter ha
      have := (hfacts a ha').2.2.2.2.2.2
      omega
    obtain ⟨r1, r2, r3, r4, r5⟩ := placeAll_reach (lens m (hash k % 256))
      (m.entries (hash k % 256)) (zeroTable (maxsizeOf m))
      (tableFor m (maxsizeOf m) (hash k % 256)) (hplace (hash k % 256) hb256)
      (by
        rw [show (zeroTable (maxsizeOf m)).length = maxsizeOf m from by
          simp [zeroTable]]
        exact lens_le_maxsize m (hash k % 256) hb256)
      hEpos
    have hzfilter : ((zeroTable (maxsizeOf m)).take
        (lens m (hash k % 256))).filter (fun x => decide (x.pos ≠ 0)) = [] := by
      rw [List.filter_eq_nil_iff]
      intro x hx
      have hx' : x ∈ zeroTable (maxsizeOf m) := List.mem_of_mem_take hx
      have : x = ⟨0, 0⟩ := List.eq_of_mem_replicate hx'
      subst this
      simp
    have hcontent : (((tableFor m (maxsizeOf m) (hash k % 256)).take
        (lens m (hash k % 256))).filter (fun x => decide (x.pos ≠ 0))).Perm
        (m.entries (hash k % 256)) := by
      have := r4
      rw [hzfilter, List.append_nil] at this
      exact this
    have hzero : ∀ j, j < lens m (hash k % 256) →
        ((tableFor m (maxsizeOf m) (hash k % 256)).getD j ⟨0, 0⟩).pos = 0 →
        (tableFor m (maxsizeOf m) (hash k % 256)).getD j ⟨0, 0⟩ = ⟨0, 0⟩ := by
      apply r5
      intro j hj _
      unfold zeroTable
      rcases Nat.lt_or_ge j (maxsizeOf m) with hcase | hcase
      · rw [List.getD_eq_getElem _ _ (by simpa using hcase)]
        simp
      · rw [List.getD_eq_default _ _ (by simpa using hcase)]
    have hslotent : ∀ j, j < lens m (hash k % 256) →
        ((tableFor m (maxsizeOf m) (hash k % 256)).getD j ⟨0, 0⟩).pos ≠ 0 →
        (tableFor m (maxsizeOf m) (hash k % 256)).getD j ⟨0, 0⟩ ∈
          m.entries (hash k % 256) := by
      intro j hj hp
      refine (hcontent.mem_iff).mp (List.mem_filter.mpr ⟨?_, by simpa using hp⟩)
      rw [← getD_take (tableFor m (maxsizeOf m) (hash k % 256))
        (lens m (hash k % 256)) j hj ⟨0, 0⟩]
      rw [List.getD_eq_getElem _ _
        (by rw [List.length_take]; exact Nat.lt_min.mpr ⟨hj, by omega⟩)]
      exact List.getElem_mem _
    have hslotrec : ∀ j, j < lens m (hash k % 256) →
        ((tableFor m (maxsizeOf m) (hash k % 256)).getD j ⟨0, 0⟩).pos ≠ 0 →
        ∃ a ∈ annRecs R 2048,
          (tableFor m (maxsizeOf m) (hash k % 256)).getD j ⟨0, 0⟩ = a.1 := by
      intro j hj hp
      have hmem := hslotent j hj hp
      rw [hentries (hash k % 256)] at hmem
      obtain ⟨a, ha, heq⟩ := List.mem_map.mp hmem
      exact ⟨a, List.mem_of_mem_filter ha, heq.symm⟩
    have hentS : ∀ j, j < lens m (hash k % 256) →
        ((tableFor m (maxsizeOf m) (hash k % 256)).getD j ⟨0, 0⟩).hash < U32 ∧
        ((tableFor m (maxsizeOf m) (hash k % 256)).getD j ⟨0, 0⟩).pos < U32 := by
      intro j hj
      by_cases hp : ((tableFor m (maxsizeOf m) (hash k % 256)).getD j ⟨0, 0⟩).pos = 0
      · rw [hzero j hj hp]
        constructor
        · norm_num [U32]
        · norm_num [U32]
      · obtain ⟨a, ha, heq⟩ := hslotrec j hj hp
        obtain ⟨_, _, _, _, hh, hbound, hge⟩ := hfacts a ha
        rw [heq]
        constructor
        · rw [hh]
          apply hash_lt
          apply hRB
          have := List.mem_map_of_mem Prod.snd ha
          rwa [annRecs_map_snd R 2048] at this
        · omega
    have hrecS : ∀ j, j < lens m (hash k % 256) →
        ((tableFor m (maxsizeOf m) (hash k % 256)).getD j ⟨0, 0⟩).pos ≠ 0 →
        ((tableFor m (maxsizeOf m) (hash k % 256)).getD j ⟨0, 0⟩).pos + 8 +
          klenAt F ((tableFor m (maxsizeOf m) (hash k % 256)).getD j ⟨0, 0⟩).pos +
          vlenAt F ((tableFor m (maxsizeOf m) (hash k % 256)).getD j ⟨0, 0⟩).pos ≤
            F.length ∧
        klenAt F ((tableFor m (maxsizeOf m) (hash k % 256)).getD j ⟨0, 0⟩).pos <
          U32 ∧
        vlenAt F ((tableFor m (maxsizeOf m) (hash k % 256)).getD j ⟨0, 0⟩).pos <
          U32 := by
      intro j hj hp
      obtain ⟨a, ha, heq⟩ := hslotrec j hj hp
      obtain ⟨hKL, hVL, _, _, _, hbound, _⟩ := hfacts a ha
      obtain ⟨hl1, hl2⟩ := hlb a ha
      rw [heq, hKL, hVL]
      refine ⟨hbound, by omega, by omega⟩
    have hnodupE : ((m.entries (hash k % 256)).map (fun e => e.pos)).Nodup := by
      rw [hentries (hash k % 256), List.map_map]
      have hpw : (bucketPairs R (hash k % 256)).Pairwise
          (fun a c => a.1.pos < c.1.pos) :=
        List.Pairwise.filter _ (annRecs_pairwise R 2048)
      exact hpw.map _ (fun a c h => by
        show a.1.pos ≠ c.1.pos
        omega)
    have hwhlt : hash k / 256 % lens m (hash k % 256) < lens m (hash k % 256) :=
      Nat.mod_lt _ (by omega)
    have hfi : findInit (fileOf F) k =
        scanState k (lens m (hash k % 256))
          (hash k / 256 % lens m (hash k % 256)) (subPos m (hash k % 256)) 0 := by
      have hQ1 : hash k / 256 % lens m (hash k % 256) * 8 < U32 := by
        have h1 := hsubF (hash k % 256) hb256
        omega
      have hQ2 : subPos m (hash k % 256) +
          hash k / 256 % lens m (hash k % 256) * 8 < U32 := by
        have h1 := hsubF (hash k % 256) hb256
        omega
      apply VState_ext
      · rfl
      · rfl
      · rfl
      · show (CDB.hash_table (fileOf F) (hash k)).2.2 =
          subPos m (hash k % 256) + 8 *
            ((hash k / 256 % lens m (hash k % 256) + 0) % lens m (hash k % 256))
        unfold CDB.hash_table
        simp only []
        rw [(hheader (hash k % 256) hb256).1, (hheader (hash k % 256) hb256).2]
        rw [if_pos hlpos]
        rw [Nat.mod_eq_of_lt hQ1, Nat.mod_eq_of_lt hQ2]
        rw [Nat.add_zero, Nat.mod_eq_of_lt hwhlt]
        ring
      · show (CDB.hash_table (fileOf F) (hash k)).1 = subPos m (hash k % 256)
        unfold CDB.hash_table
        simp only []
        exact (hheader (hash k % 256) hb256).1
      · show (CDB.hash_table (fileOf F) (hash k)).2.1 = lens m (hash k % 256)
        unfold CDB.hash_table
        simp only []
        exact (hheader (hash k % 256) hb256).2
    have hrun := collectFind_of_scan F (tableFor m (maxsizeOf m) (hash k % 256)) k
      (lens m (hash k % 256)) (hash k / 256 % lens m (hash k % 256))
      (subPos m (hash k % 256)) hwhlt hFU (hsubF (hash k % 256) hb256)
      (hash_lt k hkB) (fun j hj => hslotB (hash k % 256) hb256 j hj) hentS hrecS
      (scanMatches F (tableFor m (maxsizeOf m) (hash k % 256)) k
        (lens m (hash k % 256)) (hash k / 256 % lens m (hash k % 256)) 0
        (lens m (hash k % 256))) 0 (by omega) (by rw [Nat.sub_zero])
    refine ⟨scanMatches F (tableFor m (maxsizeOf m) (hash k % 256)) k
      (lens m (hash k % 256)) (hash k / 256 % lens m (hash k % 256)) 0
      (lens m (hash k % 256)), ?_, ?_⟩
    · rw [hfi]
      exact hrun
    · have hperm := scan_perm F (tableFor m (maxsizeOf m) (hash k % 256)) k
        (m.entries (hash k % 256)) (lens m (hash k % 256))
        (hash k / 256 % lens m (hash k % 256)) hlpos rfl hlenT hcontent r3 hnodupE
      refine hperm.trans ?_
      rw [show (m.entries (hash k % 256)).filter (matchCond F k) =
          ((bucketPairs R (hash k % 256)).map Prod.fst).filter (matchCond F k) from
        by rw [hentries (hash k % 256)]]
      rw [hbv]

set_option maxRecDepth 1000000 in
set_option maxHeartbeats 4000000 in
/-- Witness for C2 on the one-record input `c2R` and the key `[1]`. -/
theorem C2_witness :
    ∃ vals : List (List Nat),
      collectFind (fileOf c2File) (findInit (fileOf c2File) [1])
        (vals.length + 1) = vals.map VStep.yield ++ [VStep.done] ∧
      vals.Perm (valuesOf c2R [1]) :=
  C2_lookup_completeness c2R c2Maker c2File [1] rfl rfl
    (by intro x hx; rw [List.mem_singleton] at hx; omega)
    (by
      intro r hr b hb
      rw [show c2R = [([1], [2])] from rfl, List.mem_singleton] at hr
      subst hr
      rw [List.mem_singleton] at hb
      omega)

end Cdb
